import Mathlib

/-!
# Coset decomposition (Flack algorithms A and B), coset-1.4.0

Shallow embedding of `float_util.c`, `matrix.c`, `symm_mat.c` and `coset.c`.

Modelling conventions
* A C `double` is an exact rational (`ℚ`): every arithmetic operation is the
  exact one.  On matrices whose entries are small integers this agrees with
  IEEE arithmetic, which is exact there.
* An `unsigned int` fingerprint is a `Nat`; the codec only ever sets bits
  0..17, so no wrap-around at `2^32` can occur.
* A sentinel-terminated C array of `struct symm_op` is a `List symm_op` that
  holds the sentinel as well; a pointer walk `for (p = &a[i]; 0 != p->bcm; p++)`
  is a recursion over the list that stops at the first element whose `bcm`
  is zero.
-/

namespace Coset

/-! ## float_util.h / float_util.c -/

/-- Macro `ABS(x)`: `(x < 0.0 ? -(x) : (x))`. -/
def ABS (x : ℚ) : ℚ := if x < 0 then -x else x

/-- Macro `MAX(a, b)`: `((a) > (b) ? (a) : (b))`. -/
def MAX (a b : ℚ) : ℚ := if a > b then a else b

/-- Macro `TOLERANCE`, the decimal literal `0.0000001`. -/
def TOLERANCE : ℚ := 1 / 10000000

/-- Function `relative_difference` of `float_util.c`. -/
def relative_difference (a b : ℚ) : ℚ :=
  let c := ABS a
  let d := ABS b
  let d := MAX c d
  if d = 0 then 0 else ABS (a - b) / d

/-- Function `is_zero` of `float_util.c` (C `int` 1/0 as `Bool`). -/
def is_zero (a : ℚ) : Bool := decide (relative_difference a 0 ≤ TOLERANCE)

/-- Function `is_equal` of `float_util.c`: `x = a - b; return is_zero( x );`. -/
def is_equal (a b : ℚ) : Bool :=
  let x := a - b
  is_zero x

/-! ## matrix.c -/

/-- A `double m[3][3]`. -/
abbrev Mat3 := Fin 3 → Fin 3 → ℚ

/-- Function `matrix_multiply3x3`: `prod[i][j] = 0.0` and then
`prod[i][j] += a[i][k] * b[k][j]` for `k = 0, 1, 2`. -/
def matrix_multiply3x3 (a b : Mat3) : Mat3 :=
  fun i j => ((0 + a i 0 * b 0 j) + a i 1 * b 1 j) + a i 2 * b 2 j

/-- Function `negate_matrix`: switches the sign of every entry that is not
`is_zero`, copies the others. -/
def negate_matrix (m : Mat3) : Mat3 :=
  fun i j => if !(is_zero (m i j)) then -(m i j) else m i j

/-- Function `determinant`. -/
def determinant (m : Mat3) : ℚ :=
  m 0 0 * (m 1 1 * m 2 2 - m 1 2 * m 2 1) +
  m 1 0 * (m 2 1 * m 0 2 - m 0 1 * m 2 2) +
  m 2 0 * (m 0 1 * m 1 2 - m 0 2 * m 1 1)

/-- Function `trace`: `tr = 0.0; tr += m[i][i]` for `i = 0, 1, 2`. -/
def trace (m : Mat3) : ℚ := ((0 + m 0 0) + m 1 1) + m 2 2

/-! ## symm_mat.h / symm_mat.c : the operator codec -/

/-- Macro `BCM_ERROR`. -/
def BCM_ERROR : Nat := 0x2aaaa

/-- Macro `INVERSION_BCM`. -/
def INVERSION_BCM : Nat := 0x20202

/-- The local table `offset_table` of `encode_value` and `decode_value`. -/
def offset_table : Fin 3 → Fin 3 → Nat :=
  ![![0, 2, 4], ![6, 8, 10], ![12, 14, 16]]

/-- Function `encode_value` of `symm_mat.c`. -/
def encode_value (val : ℚ) (row col : Fin 3) (codex : Nat) : Nat :=
  if is_equal val 1 then codex ||| (0x1 <<< offset_table row col)
  else if is_zero val then codex ||| (0x0 <<< offset_table row col)
  else if is_equal val (-1) then codex ||| (0x2 <<< offset_table row col)
  else BCM_ERROR

/-- Function `decode_value` of `symm_mat.c`.  In the `default:` branch the C
code prints a message and returns an uninitialised `double`; that
indeterminate result is `none`. -/
def decode_value (cs : Nat) (row col : Fin 3) : Option ℚ :=
  let extracted := 0x3 &&& (cs >>> offset_table row col)
  if extracted = 0x0 then some 0
  else if extracted = 0x1 then some 1
  else if extracted = 0x2 then some (-1)
  else none

/-- The `(i, j)` pairs visited by `for (i ...) for (j ...)` over a 3x3 matrix,
in the order of the visit. -/
def positions : List (Fin 3 × Fin 3) :=
  [(0, 0), (0, 1), (0, 2), (1, 0), (1, 1), (1, 2), (2, 0), (2, 1), (2, 2)]

/-- The double loop of `encode_matrix` from a given position on, with its
early `return cmx` as soon as `BCM_ERROR == cmx`. -/
def encode_loop (fm : Mat3) : List (Fin 3 × Fin 3) → Nat → Nat
  | [], cmx => cmx
  | p :: rest, cmx =>
    let cmx1 := encode_value (fm p.1 p.2) p.1 p.2 cmx
    if BCM_ERROR = cmx1 then cmx1 else encode_loop fm rest cmx1

/-- Function `encode_matrix` of `symm_mat.c`. -/
def encode_matrix (fm : Mat3) : Nat := encode_loop fm positions 0

/-- Function `decode_matrix` of `symm_mat.c`: entry `[i][j]` is
`decode_value( cmx, i, j )`; the result is `none` when some entry is
indeterminate. -/
def decode_matrix (cmx : Nat) : Option Mat3 :=
  if ∀ p ∈ positions, (decode_value cmx p.1 p.2).isSome then
    some (fun i j => (decode_value cmx i j).getD 0)
  else none

/-! ## symm_mat.h / symm_mat.c : operators and the point-group catalog -/

/-- The C type `struct symm_op`. -/
structure symm_op where
  truefalse : Bool
  mat : Mat3
  bcm : Nat
  n_fold : Int
  rotation_angle : ℚ
  eig_val : ℚ
  eig_vec : Fin 3 → ℚ
  deriving DecidableEq

/-- The static initialiser `{True, m, 0,0,0.0,0.0,{0.0,0.0,0.0}}` used for
every entry of `ops_432` and `ops_622`. -/
def static_op (m : Mat3) : symm_op :=
  { truefalse := true, mat := m, bcm := 0, n_fold := 0, rotation_angle := 0,
    eig_val := 0, eig_vec := ![0, 0, 0] }

/-- An element of freshly `malloc`ed memory.  The C code leaves the fields it
does not assign indeterminate; they are zero here. -/
def malloc_op : symm_op :=
  { truefalse := false, mat := fun _ _ => 0, bcm := 0, n_fold := 0,
    rotation_angle := 0, eig_val := 0, eig_vec := ![0, 0, 0] }

/-- Static table `ops_432` (operators of point group 432, Flack's order). -/
def ops_432 : List symm_op := [
  static_op ![![1, 0, 0], ![0, 1, 0], ![0, 0, 1]],
  static_op ![![-1, 0, 0], ![0, 1, 0], ![0, 0, -1]],
  static_op ![![-1, 0, 0], ![0, -1, 0], ![0, 0, 1]],
  static_op ![![1, 0, 0], ![0, -1, 0], ![0, 0, -1]],
  static_op ![![0, 1, 0], ![1, 0, 0], ![0, 0, -1]],
  static_op ![![0, -1, 0], ![-1, 0, 0], ![0, 0, -1]],
  static_op ![![-1, 0, 0], ![0, 0, 1], ![0, 1, 0]],
  static_op ![![-1, 0, 0], ![0, 0, -1], ![0, -1, 0]],
  static_op ![![0, 0, 1], ![0, -1, 0], ![1, 0, 0]],
  static_op ![![0, 0, -1], ![0, -1, 0], ![-1, 0, 0]],
  static_op ![![0, -1, 0], ![1, 0, 0], ![0, 0, 1]],
  static_op ![![0, 1, 0], ![-1, 0, 0], ![0, 0, 1]],
  static_op ![![0, 0, 1], ![1, 0, 0], ![0, 1, 0]],
  static_op ![![0, 0, 1], ![-1, 0, 0], ![0, -1, 0]],
  static_op ![![0, 0, -1], ![-1, 0, 0], ![0, 1, 0]],
  static_op ![![0, 0, -1], ![1, 0, 0], ![0, -1, 0]],
  static_op ![![0, 1, 0], ![0, 0, 1], ![1, 0, 0]],
  static_op ![![0, -1, 0], ![0, 0, 1], ![-1, 0, 0]],
  static_op ![![0, 1, 0], ![0, 0, -1], ![-1, 0, 0]],
  static_op ![![0, -1, 0], ![0, 0, -1], ![1, 0, 0]],
  static_op ![![1, 0, 0], ![0, 0, 1], ![0, -1, 0]],
  static_op ![![1, 0, 0], ![0, 0, -1], ![0, 1, 0]],
  static_op ![![0, 0, 1], ![0, 1, 0], ![-1, 0, 0]],
  static_op ![![0, 0, -1], ![0, 1, 0], ![1, 0, 0]]]

/-- Static table `ops_622` (operators of point group 622, Flack's order). -/
def ops_622 : List symm_op := [
  static_op ![![1, 0, 0], ![0, 1, 0], ![0, 0, 1]],
  static_op ![![0, 1, 0], ![1, 0, 0], ![0, 0, -1]],
  static_op ![![1, 0, 0], ![-1, -1, 0], ![0, 0, -1]],
  static_op ![![-1, -1, 0], ![0, 1, 0], ![0, 0, -1]],
  static_op ![![-1, 0, 0], ![0, -1, 0], ![0, 0, 1]],
  static_op ![![0, -1, 0], ![-1, 0, 0], ![0, 0, -1]],
  static_op ![![-1, 0, 0], ![1, 1, 0], ![0, 0, -1]],
  static_op ![![1, 1, 0], ![0, -1, 0], ![0, 0, -1]],
  static_op ![![-1, -1, 0], ![1, 0, 0], ![0, 0, 1]],
  static_op ![![0, 1, 0], ![-1, -1, 0], ![0, 0, 1]],
  static_op ![![1, 1, 0], ![-1, 0, 0], ![0, 0, 1]],
  static_op ![![0, -1, 0], ![1, 1, 0], ![0, 0, 1]]]
/-- Macros `Centric` and `Acentric` as the two values of `is_centric`. -/
def Centric : Nat := 1

/-- Macro `Acentric`. -/
def Acentric : Nat := 0

/-- Function `lookup_supergroup`: linear search of the name table `stab`,
`-1` when no name matches. -/
def lookup_supergroup (s : String) : Int :=
  let stab : List (String × Int) :=
    [("-1", 1), ("2/m", 2), ("mmm", 222), ("4/mmm", 422), ("-3m", 32),
     ("6/mmm", 622), ("m-3m", 432)]
  match stab.find? (fun e => e.1 == s) with
  | some e => e.2
  | none => -1

/-- The local matrix `invcen` of `select_symm_ops`. -/
def invcen : Mat3 := ![![-1, 0, 0], ![0, -1, 0], ![0, 0, -1]]

/-- The copy loop of `select_symm_ops` and the sentinel: element `i` is
`sp[ip[i]]` with flag `True` and its fingerprint, element `n_elem + i` is its
product with `invcen`, element `2 * n_elem` is the sentinel. -/
def build_ops (ip : List Nat) (sp : List symm_op) : List symm_op :=
  let first := ip.map (fun k =>
    let s := sp.getD k malloc_op
    { s with truefalse := true, bcm := encode_matrix s.mat })
  let second := first.map (fun r =>
    { malloc_op with
      mat := matrix_multiply3x3 r.mat invcen
      bcm := encode_matrix (matrix_multiply3x3 r.mat invcen)
      truefalse := true })
  first ++ second ++ [{ malloc_op with bcm := 0, truefalse := false }]

/-- Function `select_symm_ops`: the returned array (`none` for `NULL`) and the
value stored in `*ierr`.  `malloc` is taken to succeed. -/
def select_symm_ops (pt_group : Int) : Option (List symm_op) × Int :=
  let m432 : List Nat := [0,1,2,3,4,5,6,7,8,9,10,11,12,13,14,15,16,17,18,19,20,21,22,23]
  let m422 : List Nat := [0,1,2,3,4,5,10,11]
  let m222 : List Nat := [0,1,2,3]
  let m2 : List Nat := [0,1]
  let m1 : List Nat := [0]
  let m622 : List Nat := [0,1,2,3,4,5,6,7,8,9,10,11]
  let m32 : List Nat := [0,1,2,3,8,9]
  if pt_group = 432 then (some (build_ops m432 ops_432), 0)
  else if pt_group = 622 then (some (build_ops m622 ops_622), 0)
  else if pt_group = 32 then (some (build_ops m32 ops_622), 0)
  else if pt_group = 422 then (some (build_ops m422 ops_432), 0)
  else if pt_group = 222 then (some (build_ops m222 ops_432), 0)
  else if pt_group = 2 then (some (build_ops m2 ops_432), 0)
  else if pt_group = 1 then (some (build_ops m1 ops_432), 0)
  else (none, -1)

/-- Function `count_ops`: number of elements before the sentinel. -/
def count_ops : List symm_op → Nat
  | [] => 0
  | s :: rest => if s.bcm = 0 then 0 else count_ops rest + 1

/-- Function `is_centric`: `1` when an element before the sentinel has the
fingerprint `INVERSION_BCM`, else `0`. -/
def is_centric : List symm_op → Nat
  | [] => 0
  | s :: rest =>
    if s.bcm = 0 then 0
    else if INVERSION_BCM = s.bcm then 1
    else is_centric rest

/-! ## coset.c : Flack's algorithms A and B -/

/-- The assignment `G_k->truefalse = False`. -/
def set_false (g : symm_op) : symm_op := { g with truefalse := false }

/-- Innermost loop of algorithm A,
`for (G_k = &G[i+1]; 0 != G_k->bcm; G_k++) if (prod.bcm == G_k->bcm) G_k->truefalse = False;`
acting on the elements of `G` from index `i+1` on. -/
def A_loop_k (prod_bcm : Nat) : List symm_op → List symm_op
  | [] => []
  | g :: rest =>
    if g.bcm = 0 then g :: rest
    else (if prod_bcm = g.bcm then set_false g else g) :: A_loop_k prod_bcm rest

/-- Loop `for (j = ...; 0 != H[j].bcm; j++)` of algorithm A for a fixed
`G[i]`: the first argument is `H` from index `j` on, the second the elements
of `G` from index `i+1` on. -/
def A_loop_j (gi : symm_op) : List symm_op → List symm_op → List symm_op
  | [], Gt => Gt
  | h :: Hrest, Gt =>
    if h.bcm = 0 then Gt
    else
      let prod_bcm := encode_matrix (matrix_multiply3x3 gi.mat h.mat)
      A_loop_j gi Hrest (A_loop_k prod_bcm Gt)

/-- Outer loop `for (i = ...; 0 != G[i].bcm; i++)` of algorithm A on the
elements of `G` from index `i` on.  The first argument bounds the number of
iterations; the length of the list is always enough. -/
def A_loop_i (H : List symm_op) : Nat → List symm_op → List symm_op
  | 0, G => G
  | _ + 1, [] => []
  | n + 1, g :: rest =>
    if g.bcm = 0 then g :: rest
    else
      g :: A_loop_i H n (if g.truefalse = true then A_loop_j g (H.drop 1) rest else rest)

/-- Function `coset_decomposition_A`: the array `G` after the call. -/
def coset_decomposition_A (G H : List symm_op) : List symm_op :=
  A_loop_i H G.length G

/-- Loop `for (i = G_count; 0 != G[i].bcm; i++) G[i].truefalse = False;` of
algorithm B on the elements of `G` from index `G_count` on. -/
def B_turn_off : List symm_op → List symm_op
  | [] => []
  | g :: rest => if g.bcm = 0 then g :: rest else set_false g :: B_turn_off rest

/-- Innermost loop of algorithm B,
`for (G_k = &G[i+1]; G_k < &G[G_count]; G_k++)`, on the elements of `G` from
index `i+1` on; the first argument is `G_count - (i+1)`. -/
def B_loop_k (pos_bcm neg_bcm : Nat) : Nat → List symm_op → List symm_op
  | 0, Gt => Gt
  | _ + 1, [] => []
  | n + 1, g :: rest =>
    (if pos_bcm = g.bcm ∨ neg_bcm = g.bcm then set_false g else g)
      :: B_loop_k pos_bcm neg_bcm n rest

/-- Loop `for (j = ...; j < H_count; j++)` of algorithm B for a fixed `G[i]`:
the first list holds `H[j] .. H[H_count - 1]`, `n` is `G_count - (i+1)` and
the last list the elements of `G` from index `i+1` on. -/
def B_loop_j (gi : symm_op) (n : Nat) : List symm_op → List symm_op → List symm_op
  | [], Gt => Gt
  | h :: Hrest, Gt =>
    let prod_pos := matrix_multiply3x3 gi.mat h.mat
    let prod_neg := negate_matrix prod_pos
    B_loop_j gi n Hrest (B_loop_k (encode_matrix prod_pos) (encode_matrix prod_neg) n Gt)

/-- Main loop `for (i = ...; i < G_count; i++)` of algorithm B on the elements
of `G` from index `i` on; the first argument is `G_count - i`, `Hgen` holds
`H[1] .. H[H_count - 1]`. -/
def B_loop_i (Hgen : List symm_op) : Nat → List symm_op → List symm_op
  | 0, G => G
  | _ + 1, [] => []
  | n + 1, g :: rest =>
    g :: B_loop_i Hgen n (if g.truefalse = true then B_loop_j g n Hgen rest else rest)

/-- The assignment `G[j].truefalse = True`. -/
def set_true (g : symm_op) : symm_op := { g with truefalse := true }

/-- Inner loop of the extended completion step,
`for (j = G_count; 0 != G[j].bcm; j++) if (bcm == G[j].bcm) G[j].truefalse = True;`
on the elements of `G` from index `G_count` on. -/
def B_ext_mark (bcm : Nat) : List symm_op → List symm_op
  | [] => []
  | g :: rest =>
    if g.bcm = 0 then g :: rest
    else (if bcm = g.bcm then set_true g else g) :: B_ext_mark bcm rest

/-- Outer loop of the extended completion step over `G[0] .. G[G_count - 1]`
(first list), updating the elements of `G` from index `G_count` on. -/
def B_ext_loop : List symm_op → List symm_op → List symm_op
  | [], back => back
  | g :: rest, back =>
    B_ext_loop rest
      (if g.truefalse = true then B_ext_mark (encode_matrix (negate_matrix g.mat)) back
       else back)

/-- The value of `G_count` in `coset_decomposition_B`. -/
def B_G_count (G : List symm_op) : Nat := count_ops G / 2

/-- The value of `H_count` in `coset_decomposition_B` when the main loop
starts: `count_ops( H )`, halved when `H` is centric. -/
def B_H_count (H : List symm_op) : Nat :=
  if Centric = is_centric H then count_ops H / 2 else count_ops H

/-- Function `coset_decomposition_B`: the array `G` after the call.  The flag
says whether the code is compiled with `USE_EXTENDED_B_ALGORITHM`. -/
def coset_decomposition_B (USE_EXTENDED_B_ALGORITHM : Bool) (G H : List symm_op) :
    List symm_op :=
  let G_count := B_G_count G
  let H_count := B_H_count H
  let G1 := G.take G_count ++ B_turn_off (G.drop G_count)
  let G2 := B_loop_i ((H.take H_count).drop 1) G_count G1
  if USE_EXTENDED_B_ALGORITHM = true ∧ Acentric = is_centric H then
    G2.take G_count ++ B_ext_loop (G2.take G_count) (G2.drop G_count)
  else G2

/-! ## float_util.c and matrix.c : rounding, signs, inverse and transpose -/

/-- The C conversion `(int) x` of a `double`: truncation toward zero. -/
def int_cast (x : ℚ) : Int := if 0 ≤ x then Rat.floor x else Rat.ceil x

/-- Function `round_to_nearest_int` of `float_util.c`. -/
def round_to_nearest_int (f : ℚ) : Int :=
  if f > 0 then int_cast (f + 1 / 2) else int_cast (f - 1 / 2)

/-- Function `signof` of `float_util.c`: `signbit( a ) ? -1 : 1`.  A rational
has its sign bit set exactly when it is negative (there is no `-0.0`). -/
def signof (a : ℚ) : Int := if a < 0 then -1 else 1

/-- Function `match_signs` of `float_util.c`. -/
def match_signs (a b : ℚ) : Bool := decide (signof a = signof b)

/-- Macro `M_PI` of `float_util.h`, the decimal literal
`3.14159265358979323846264338327`. -/
def M_PI : ℚ := 314159265358979323846264338327 / 100000000000000000000000000000

/-- Macro `RAD2DEG(rad)`: `( (180./M_PI) * (rad) )`. -/
def RAD2DEG (rad : ℚ) : ℚ := (180 / M_PI) * rad

/-- Function `invert_matrix` of `matrix.c`. -/
def invert_matrix (det : ℚ) (m : Mat3) : Mat3 :=
  ![![(m 1 1 * m 2 2 - m 1 2 * m 2 1) / det,
      -(m 0 1 * m 2 2 - m 0 2 * m 2 1) / det,
      (m 0 1 * m 1 2 - m 0 2 * m 1 1) / det],
    ![-(m 1 0 * m 2 2 - m 2 0 * m 1 2) / det,
      (m 0 0 * m 2 2 - m 0 2 * m 2 0) / det,
      -(m 0 0 * m 1 2 - m 0 2 * m 1 0) / det],
    ![(m 1 0 * m 2 1 - m 2 0 * m 1 1) / det,
      -(m 0 0 * m 2 1 - m 0 1 * m 2 0) / det,
      (m 0 0 * m 1 1 - m 0 1 * m 1 0) / det]]

/-- The three statements `tmp = m[i][j]; m[i][j] = m[j][i]; m[j][i] = tmp;`. -/
def swap_entries (m : Mat3) (i j : Fin 3) : Mat3 :=
  fun a b => if a = i ∧ b = j then m j i else if a = j ∧ b = i then m i j else m a b

/-- Function `transpose_matrix` of `matrix.c`: the swaps for
`(i, j) = (1, 0), (2, 0), (2, 1)`, in that order. -/
def transpose_matrix (m : Mat3) : Mat3 :=
  swap_entries (swap_entries (swap_entries m 1 0) 2 0) 2 1

/-- Function `similarity_transform` of `matrix.c`. -/
def similarity_transform (mat trans_mat : Mat3) : Mat3 :=
  let det := determinant trans_mat
  let invrt := invert_matrix det trans_mat
  let tmp := matrix_multiply3x3 mat invrt
  matrix_multiply3x3 trans_mat tmp

/-- Function `copy_matrix` of `matrix.c`. -/
def copy_matrix (src : Mat3) : Mat3 := fun i j => src i j

/-! ## symm_mat.h : table sizes -/

/-- Macro `N_SYMM_OPS_432`. -/
def N_SYMM_OPS_432 : Nat := 24

/-- Macro `N_SYMM_OPS_622`. -/
def N_SYMM_OPS_622 : Nat := 12

/-- Macro `N_SYMM_OPS_422`. -/
def N_SYMM_OPS_422 : Nat := 8

/-- Macro `N_SYMM_OPS_32`. -/
def N_SYMM_OPS_32 : Nat := 6

/-- Macro `N_SYMM_OPS_222`. -/
def N_SYMM_OPS_222 : Nat := 4

/-- Macro `N_SYMM_OPS_2`. -/
def N_SYMM_OPS_2 : Nat := 2

/-- Macro `N_SYMM_OPS_1`. -/
def N_SYMM_OPS_1 : Nat := 1

/-! ## eigen.h / eigen_gsl.c -/

/-- The C type `struct real_eigen_data` of `eigen.h`. -/
structure real_eigen_data where
  eig_value : ℚ
  eig_vector : Fin 3 → ℚ

/-- The C type `struct complex_eigen_data` of `eigen.h`; a `double complex` is
the pair of its real and imaginary part. -/
structure complex_eigen_data where
  eig_value : ℚ × ℚ
  eig_vector : Fin 3 → ℚ × ℚ

/-- What `analyze_symm_op` takes from outside the repository: `acos` of the C
library and the two eigen-solvers of the linear algebra library.  A solver
that reports failure (the error handler then calls `exit`) returns `none`. -/
structure external where
  acos : ℚ → ℚ
  symm_eigen_solve : Mat3 → Option (Fin 3 → real_eigen_data)
  non_symm_eigen_solve : Mat3 → Option (Fin 3 → complex_eigen_data)

/-- Function `is_real_eigen_value` of `eigen_gsl.c`. -/
def is_real_eigen_value (d : complex_eigen_data) : Bool := is_zero d.eig_value.2

/-- Loop of `convert_complex_eig_to_real_eig` over the components `i, i+1, ..`
given as a list: a component with zero imaginary part is copied, any other one
decrements the error code. -/
def convert_loop (inp : complex_eigen_data) :
    List (Fin 3) → Int × real_eigen_data → Int × real_eigen_data
  | [], r => r
  | i :: rest, (err_code, out) =>
    if is_zero (inp.eig_vector i).2 then
      convert_loop inp rest
        (err_code, { out with eig_vector := Function.update out.eig_vector i (inp.eig_vector i).1 })
    else convert_loop inp rest (err_code - 1, out)

/-- Function `convert_complex_eig_to_real_eig` of `eigen_gsl.c`: the returned
error code and the contents of `*out` after the call. -/
def convert_complex_eig_to_real_eig (inp : complex_eigen_data) (out : real_eigen_data) :
    Int × real_eigen_data :=
  let r : Int × real_eigen_data :=
    if is_real_eigen_value inp then (0, { out with eig_value := inp.eig_value.1 })
    else (-1, out)
  convert_loop inp [0, 1, 2] r

/-! ## symm_mat.c : operator analysis and change of basis -/

/-- Function `is_symmetric` of `symm_mat.c` (C `int` 1/0 as `Bool`). -/
def is_symmetric (s : symm_op) : Bool :=
  decide (encode_matrix (transpose_matrix s.mat) = s.bcm)

/-- Function `unitize_eigen_vector` of `symm_mat.c`. -/
def unitize_eigen_vector (s : symm_op) : symm_op :=
  let arr : Fin 3 → ℚ := fun i =>
    if is_zero |s.eig_vec i| then 9999 / 100 else |s.eig_vec i|
  let smallest0 := arr 0
  let smallest1 := if arr 1 < smallest0 then arr 1 else smallest0
  let smallest := if arr 2 < smallest1 then arr 2 else smallest1
  { s with eig_vec := fun i => s.eig_vec i / smallest }

/-- The ways in which `analyze_symm_op` ends the process with
`exit( EXIT_FAILURE )`, one per error message. -/
inductive exit_reason where
  | no_point_symmetry (i_det i_tr : Int)
  | determinant_not_unit
  | invalid_conversion (i : Fin 3)
  | solver_failed
  deriving DecidableEq

/-- The two `switch( i_tr )` statements of `analyze_symm_op`: the fold for a
pair `(i_det, i_tr)`, or the reason for the `exit`. -/
def classify_fold (i_det i_tr : Int) : Except exit_reason Int :=
  if 1 = i_det then
    if i_tr = -1 then .ok 2
    else if i_tr = 0 then .ok 3
    else if i_tr = 1 then .ok 4
    else if i_tr = 2 then .ok 6
    else if i_tr = 3 then .ok 1
    else .error (.no_point_symmetry i_det i_tr)
  else if -1 = i_det then
    if i_tr = -3 then .ok (-1)
    else if i_tr = -2 then .ok (-6)
    else if i_tr = -1 then .ok (-4)
    else if i_tr = 0 then .ok (-3)
    else if i_tr = 1 then .ok (-2)
    else .error (.no_point_symmetry i_det i_tr)
  else .error .determinant_not_unit

/-- Loop `for( i = 0; i < 3; i++ )` of the symmetric branch of
`analyze_symm_op`: every eigenpair whose eigenvalue has the sign of `det` is
copied to the operator. -/
def pick_real_eigen (det : ℚ) (real_eig : Fin 3 → real_eigen_data) :
    List (Fin 3) → symm_op → symm_op
  | [], s => s
  | i :: rest, s =>
    if match_signs det (real_eig i).eig_value then
      pick_real_eigen det real_eig rest
        { s with eig_val := (real_eig i).eig_value, eig_vec := (real_eig i).eig_vector }
    else pick_real_eigen det real_eig rest s

/-- The local `struct real_eigen_data tmp` of `analyze_symm_op` before it is
written; the indeterminate contents are zero here. -/
def tmp_uninit : real_eigen_data := { eig_value := 0, eig_vector := ![0, 0, 0] }

/-- Loop `for( i = 0; i < 3; i++ )` of the non-symmetric branch of
`analyze_symm_op`: the operator at the end of the loop or at the `exit`, with
the reason of the `exit` if there is one. -/
def pick_complex_eigen (det : ℚ) (cmplx_eig : Fin 3 → complex_eigen_data) :
    List (Fin 3) → symm_op → symm_op × Option exit_reason
  | [], s => (s, none)
  | i :: rest, s =>
    if is_real_eigen_value (cmplx_eig i) then
      let r := convert_complex_eig_to_real_eig (cmplx_eig i) tmp_uninit
      if 0 ≠ r.1 then (s, some (.invalid_conversion i))
      else if match_signs det r.2.eig_value then
        pick_complex_eigen det cmplx_eig rest
          { s with eig_val := r.2.eig_value, eig_vec := r.2.eig_vector }
      else pick_complex_eigen det cmplx_eig rest s
    else pick_complex_eigen det cmplx_eig rest s

/-- Function `analyze_symm_op` of `symm_mat.c`: the contents of `*s` when the
function returns or calls `exit`, and the reason of the `exit` if there is one.
The conversion `(float)` of the angle is the identity here. -/
def analyze_symm_op (ext : external) (s : symm_op) : symm_op × Option exit_reason :=
  let det := determinant s.mat
  let tr := trace s.mat
  let phi := ext.acos ((tr / det - 1) / 2)
  let s1 := { s with rotation_angle := RAD2DEG phi }
  let i_tr := round_to_nearest_int tr
  let i_det := round_to_nearest_int det
  match classify_fold i_det i_tr with
  | .error e => (s1, some e)
  | .ok n =>
    let s2 := { s1 with n_fold := n }
    if is_symmetric s2 then
      match ext.symm_eigen_solve s2.mat with
      | none => (s2, some .solver_failed)
      | some real_eig => (unitize_eigen_vector (pick_real_eigen det real_eig [0, 1, 2] s2), none)
    else
      match ext.non_symm_eigen_solve s2.mat with
      | none => (s2, some .solver_failed)
      | some cmplx_eig =>
        match pick_complex_eigen det cmplx_eig [0, 1, 2] s2 with
        | (s3, some e) => (s3, some e)
        | (s3, none) => (unitize_eigen_vector s3, none)

/-- Loop of `transform_group` on the elements of `g` from index `i` on: up to
the sentinel every matrix is replaced by its similarity transform and the
fingerprint is derived again. -/
def transform_group (tm : Mat3) : List symm_op → List symm_op
  | [] => []
  | g :: rest =>
    if g.bcm = 0 then g :: rest
    else
      let tmp := similarity_transform g.mat tm
      { g with mat := copy_matrix tmp, bcm := encode_matrix (copy_matrix tmp) }
        :: transform_group tm rest

/-! ## sll.c / queue.c -/

/-- The C type `struct sll_elem`.  A pointer to an element is its address in
the heap, `none` is `NULL`, and the `void *data` is a number. -/
structure sll_elem where
  next : Option Nat
  data : Nat
  deriving DecidableEq

/-- The C type `struct sll`, without the function pointers `destroy` and
`match`, which `sll_insert_next` and `sll_remove_next` do not use. -/
structure sll where
  size : Int
  head : Option Nat
  tail : Option Nat
  deriving DecidableEq

/-- The memory holding the list elements: address `a` holds `some e` while it
is allocated and `none` once it is freed.  `malloc` returns the first address
never used before. -/
abbrev sll_heap := List (Option sll_elem)

/-- Function `sll_init`. -/
def sll_init : sll := { size := 0, head := none, tail := none }

/-- Function `sll_insert_next` (`malloc` succeeds): the list, the heap and the
return value after the call.  The result is `none` when the call dereferences
a pointer to a freed element (`elem->next`), which is undefined in C. -/
def sll_insert_next (list : sll) (heap : sll_heap) (elem : Option Nat) (data : Nat) :
    Option (sll × sll_heap × Int) :=
  let new_elem := heap.length
  match elem with
  | none =>
    let tail := if 0 = list.size then some new_elem else list.tail
    some ({ size := list.size + 1, head := some new_elem, tail := tail },
      heap ++ [some { next := list.head, data := data }], 0)
  | some e =>
    match heap.getD e none with
    | none => none
    | some ee =>
      let tail := if ee.next = none then some new_elem else list.tail
      some ({ size := list.size + 1, head := list.head, tail := tail },
        heap.set e (some { ee with next := some new_elem }) ++
          [some { next := ee.next, data := data }], 0)

/-- Function `sll_remove_next`: the list, the heap, the return value and the
value stored in `*data` (if any) after the call.  The test
`0 == sll_list_size(list)` that guards `list->tail = NULL` is evaluated before
`list->size--`.  The result is `none` when the call dereferences `NULL` or a
pointer to a freed element. -/
def sll_remove_next (list : sll) (heap : sll_heap) (elem : Option Nat) :
    Option (sll × sll_heap × Int × Option Nat) :=
  if 0 = list.size then some (list, heap, -1, none)
  else
    match elem with
    | none =>
      match list.head with
      | none => none
      | some old_elem =>
        match heap.getD old_elem none with
        | none => none
        | some h =>
          let tail := if 0 = list.size then none else list.tail
          some ({ size := list.size - 1, head := h.next, tail := tail },
            heap.set old_elem none, 0, some h.data)
    | some e =>
      match heap.getD e none with
      | none => none
      | some ee =>
        match ee.next with
        | none => some (list, heap, -1, none)
        | some old_elem =>
          match heap.getD old_elem none with
          | none => none
          | some oe =>
            let tail := if oe.next = none then some e else list.tail
            some ({ size := list.size - 1, head := list.head, tail := tail },
              (heap.set e (some { ee with next := oe.next })).set old_elem none, 0,
              some oe.data)

/-- Function `queue_enqueue`. -/
def queue_enqueue (queue : sll) (heap : sll_heap) (data : Nat) : Option (sll × sll_heap × Int) :=
  sll_insert_next queue heap queue.tail data

/-- Function `queue_dequeue`. -/
def queue_dequeue (queue : sll) (heap : sll_heap) : Option (sll × sll_heap × Int × Option Nat) :=
  sll_remove_next queue heap none

/-! ## coset.c : algorithm A with checked array accesses -/

/-- Outcome of a run in which every array access is checked: the array `G`
after the call, a read beyond the end of an array, or a loop that did not end
within the given number of iterations. -/
inductive checked_run where
  | done (G : List symm_op)
  | out_of_bounds
  | out_of_fuel
  deriving DecidableEq

/-- Continue a checked run with the next statement. -/
def checked_run.andThen (r : checked_run) (f : List symm_op → checked_run) : checked_run :=
  match r with
  | .done G => f G
  | .out_of_bounds => .out_of_bounds
  | .out_of_fuel => .out_of_fuel

/-- Innermost loop of algorithm A as in `A_loop_k`.  The list is the array `G`
from the current `G_k` to its last allocated element; with nothing left, the
read `G_k->bcm` is out of bounds. -/
def A_loop_k_checked (prod_bcm : Nat) : List symm_op → checked_run
  | [] => .out_of_bounds
  | g :: rest =>
    if g.bcm = 0 then .done (g :: rest)
    else (A_loop_k_checked prod_bcm rest).andThen
      (fun r => .done ((if prod_bcm = g.bcm then set_false g else g) :: r))

/-- Loop over `j` of algorithm A as in `A_loop_j`.  The first list is the array
`H` from index `j` to its last allocated element; with nothing left, the read
`H[j].bcm` is out of bounds. -/
def A_loop_j_checked (gi : symm_op) : List symm_op → List symm_op → checked_run
  | [], _ => .out_of_bounds
  | h :: Hrest, Gt =>
    if h.bcm = 0 then .done Gt
    else
      let prod_bcm := encode_matrix (matrix_multiply3x3 gi.mat h.mat)
      (A_loop_k_checked prod_bcm Gt).andThen (fun Gt1 => A_loop_j_checked gi Hrest Gt1)

/-- Outer loop of algorithm A as in `A_loop_i`, on the array `G` from index `i`
to its last allocated element; the first number bounds the iterations. -/
def A_loop_i_checked (H : List symm_op) : Nat → List symm_op → checked_run
  | 0, _ => .out_of_fuel
  | _ + 1, [] => .out_of_bounds
  | n + 1, g :: rest =>
    if g.bcm = 0 then .done (g :: rest)
    else
      ((if g.truefalse = true then A_loop_j_checked g (H.drop 1) rest else .done rest).andThen
        (A_loop_i_checked H n)).andThen (fun r => .done (g :: r))

/-- Function `coset_decomposition_A` with checked accesses: `G` and `H` are the
arrays up to their last allocated element. -/
def coset_decomposition_A_checked (G H : List symm_op) : checked_run :=
  A_loop_i_checked H G.length G

/-! ## Vocabulary of the specification -/

/-- The 2-bit code the specification assigns to an entry:
`0 -> 0b00`, `+1 -> 0b01`, `-1 -> 0b10`. -/
def code (x : ℚ) : Nat := if x = 0 then 0 else if x = 1 then 1 else 2

/-- An entry that is one of `-1`, `0`, `1`. -/
def ValidEntry (x : ℚ) : Prop := x = -1 ∨ x = 0 ∨ x = 1

instance (x : ℚ) : Decidable (ValidEntry x) := by
  unfold ValidEntry
  infer_instance

/-- An entry whose relative difference from each of `-1`, `0` and `1` exceeds
the tolerance. -/
def OutOfTolerance (x : ℚ) : Prop :=
  TOLERANCE < relative_difference x (-1) ∧ TOLERANCE < relative_difference x 0 ∧
    TOLERANCE < relative_difference x 1

instance (x : ℚ) : Decidable (OutOfTolerance x) := by
  unfold OutOfTolerance
  infer_instance

/-- The identity matrix. -/
def identity_matrix : Mat3 := ![![1, 0, 0], ![0, 1, 0], ![0, 0, 1]]

/-- The matrix whose nine entries are all `-1`. -/
def all_minus_one : Mat3 := fun _ _ => -1

/-- The identity matrix with entry `[0][0]` replaced by `1 + 1e-8`. -/
def near_identity : Mat3 := ![![1 + 1 / 100000000, 0, 0], ![0, 1, 0], ![0, 0, 1]]

/-- The identifiers accepted by `select_symm_ops`. -/
def supported_point_groups : List Int := [1, 2, 222, 422, 32, 622, 432]

/-- The coset index of the specification: the number of elements before the
sentinel whose flag is `True`. -/
def count_active : List symm_op → Nat
  | [] => 0
  | s :: rest =>
    if s.bcm = 0 then 0
    else (if s.truefalse = true then 1 else 0) + count_active rest

/-- The flags (`truefalse`) of an array, in order. -/
def flags (G : List symm_op) : List Bool := G.map (fun g => g.truefalse)

/-- The matrices of an operator list, in order. -/
def mats (L : List symm_op) : List Mat3 := L.map (fun g => g.mat)

/-- The invariant of an operator set (its elements before the sentinel): every
fingerprint is the encoding of the element's matrix, is not the sentinel value
0 and is not the ERROR value. -/
def OperatorSet (L : List symm_op) : Prop :=
  ∀ g ∈ L, g.bcm = encode_matrix g.mat ∧ g.bcm ≠ 0 ∧ g.bcm ≠ BCM_ERROR

instance (L : List symm_op) : Decidable (OperatorSet L) := by
  unfold OperatorSet
  infer_instance

/-- A list of matrices that forms a group under `matrix_multiply3x3`: it holds
the identity, is closed under products and holds a two-sided inverse of each
of its members. -/
def IsGroup (M : List Mat3) : Prop :=
  identity_matrix ∈ M ∧ (∀ a ∈ M, ∀ b ∈ M, matrix_multiply3x3 a b ∈ M) ∧
    ∀ a ∈ M, ∃ b ∈ M, matrix_multiply3x3 a b = identity_matrix ∧
      matrix_multiply3x3 b a = identity_matrix

instance (M : List Mat3) : Decidable (IsGroup M) := by
  unfold IsGroup
  infer_instance

/-- The operators `H` form a subgroup of the group formed by the operators `G`. -/
def IsSubgroupOf (H G : List symm_op) : Prop :=
  IsGroup (mats G) ∧ IsGroup (mats H) ∧ ∀ h ∈ mats H, h ∈ mats G

instance (H G : List symm_op) : Decidable (IsSubgroupOf H G) := by
  unfold IsSubgroupOf
  infer_instance

/-- Matrix `a` lies in the left coset `b * H`. -/
def InLeftCoset (H : List symm_op) (a b : Mat3) : Prop :=
  ∃ h ∈ mats H, a = matrix_multiply3x3 b h

instance (H : List symm_op) (a b : Mat3) : Decidable (InLeftCoset H a b) := by
  unfold InLeftCoset
  infer_instance

/-- The sentinel element written by `select_symm_ops`. -/
def sentinel : symm_op := { malloc_op with bcm := 0, truefalse := false }

/-- The operators `select_symm_ops` returns for a point group, without the
sentinel (empty for an unknown point group). -/
def catalog_ops (pt_group : Int) : List symm_op :=
  ((select_symm_ops pt_group).1.getD []).dropLast

/-- The canonical order of the catalog: the list has even length `2 * m` and
the element at index `m + j` is the negation of the element at index `j`. -/
def CanonicalOrder (L : List symm_op) : Prop :=
  L.length % 2 = 0 ∧
    ∀ j, j < L.length / 2 →
      (L.getD (L.length / 2 + j) malloc_op).mat = negate_matrix (L.getD j malloc_op).mat

instance (L : List symm_op) : Decidable (CanonicalOrder L) := by
  unfold CanonicalOrder
  infer_instance

/-- The operators of point group 2 listed as `I, -I, A, -A` rather than in the
catalog order `I, A, -I, -A`. -/
def reordered_pg2 : List symm_op :=
  [0, 2, 1, 3].map (fun k => (catalog_ops 2).getD k malloc_op)

/-- The names accepted by `lookup_supergroup`. -/
def supergroup_names : List String := ["-1", "2/m", "mmm", "4/mmm", "-3m", "6/mmm", "m-3m"]

/-- For each supported point group: its identifier, the size of its index
table (`N_SYMM_OPS_*`) and the number of operators the specification gives. -/
def catalog_table : List (Int × Nat × Nat) :=
  [(1, N_SYMM_OPS_1, 2), (2, N_SYMM_OPS_2, 4), (222, N_SYMM_OPS_222, 8),
   (422, N_SYMM_OPS_422, 16), (32, N_SYMM_OPS_32, 12), (622, N_SYMM_OPS_622, 24),
   (432, N_SYMM_OPS_432, 48)]

/-- The classification table of the specification: rounded determinant,
rounded trace and the fold assigned to that pair. -/
def fold_table : List (Int × Int × Int) :=
  [(1, -1, 2), (1, 0, 3), (1, 1, 4), (1, 2, 6), (1, 3, 1),
   (-1, -3, -1), (-1, -2, -6), (-1, -1, -4), (-1, 0, -3), (-1, 1, -2)]

/-- The process ended in the classification step of `analyze_symm_op`. -/
def IsClassificationFailure (r : Option exit_reason) : Prop :=
  (∃ i_det i_tr, r = some (.no_point_symmetry i_det i_tr)) ∨ r = some .determinant_not_unit

/-- A sample transformation matrix with determinant 2. -/
def sample_transformation : Mat3 := ![![1, 1, 0], ![0, 1, 0], ![0, 0, 2]]

/-- A sample of the external functions: `acos` and both solvers are constant. -/
def sample_external : external :=
  { acos := fun _ => 0
    symm_eigen_solve := fun _ => some (fun _ => { eig_value := 1, eig_vector := ![0, 0, 1] })
    non_symm_eigen_solve := fun _ =>
      some (fun _ => { eig_value := (1, 0), eig_vector := ![(0, 0), (0, 0), (1, 0)] }) }

/-- The addresses met from pointer `p` along `next`, in order; `none` when the
walk meets a freed element or does not end within `fuel` elements. -/
def sll_reachable (heap : sll_heap) : Nat → Option Nat → Option (List Nat)
  | _, none => some []
  | 0, some _ => none
  | fuel + 1, some a =>
    match heap.getD a none with
    | none => none
    | some e => (sll_reachable heap fuel e.next).map (fun l => a :: l)

/-- The linked-list invariant of the specification: the elements reachable
from `head` are allocated, `size` is their number, `tail` is the last of them,
and `head` and `tail` are both `NULL` when `size = 0`. -/
def sll_well_formed (list : sll) (heap : sll_heap) : Prop :=
  match sll_reachable heap heap.length list.head with
  | none => False
  | some l =>
    list.size = l.length ∧ list.tail = l.getLast? ∧
      (list.size = 0 → list.head = none ∧ list.tail = none)

instance (list : sll) (heap : sll_heap) : Decidable (sll_well_formed list heap) := by
  unfold sll_well_formed
  split <;> infer_instance

/-- The matrix `c * m`. -/
def scale_matrix (c : ℚ) (m : Mat3) : Mat3 := fun i j => c * m i j

/-- The power `m ^ k` by repeated `matrix_multiply3x3`. -/
def matrix_power (m : Mat3) : Nat → Mat3
  | 0 => identity_matrix
  | k + 1 => matrix_multiply3x3 (matrix_power m k) m

/-- The number `k` is the order of `m`: the least positive `k` with `m ^ k` the
identity. -/
def IsOrder (m : Mat3) (k : Nat) : Prop :=
  0 < k ∧ matrix_power m k = identity_matrix ∧
    ∀ j < k, 0 < j → matrix_power m j ≠ identity_matrix

instance (m : Mat3) (k : Nat) : Decidable (IsOrder m k) := by
  unfold IsOrder
  infer_instance

/-- The fingerprint invariant of the specification: every element before the
sentinel has the fingerprint `encode_matrix` of its matrix. -/
def FingerprintInvariant (G : List symm_op) : Prop :=
  ∀ g ∈ G.take (count_ops G), g.bcm = encode_matrix g.mat

instance (G : List symm_op) : Decidable (FingerprintInvariant G) := by
  unfold FingerprintInvariant
  infer_instance

/-- The number `m` is the smallest absolute value among the non-zero components
of `v`. -/
def IsSmallestNonzeroAbs (v : Fin 3 → ℚ) (m : ℚ) : Prop :=
  (∃ i, v i ≠ 0 ∧ |v i| = m) ∧ ∀ i, v i ≠ 0 → m ≤ |v i|

instance (v : Fin 3 → ℚ) (m : ℚ) : Decidable (IsSmallestNonzeroAbs v m) := by
  unfold IsSmallestNonzeroAbs
  infer_instance

/-- An operator whose axis is `(0, 100, 200)`. -/
def large_axis_op : symm_op := { malloc_op with eig_vec := ![0, 100, 200] }

/-- Conditional deactivation: `set_false` when the condition holds. -/
def kill (c : Bool) (g : symm_op) : symm_op := if c = true then set_false g else g

/-- The test of algorithm A for a representative with matrix `gm` against a
fingerprint `b`: some generator `h` has `encode_matrix (gm * h) = b`. -/
def hits_A (Hgen : List symm_op) (gm : Mat3) (b : Nat) : Bool :=
  Hgen.any (fun h => decide (encode_matrix (matrix_multiply3x3 gm h.mat) = b))

/-- The test of algorithm B: some generator `h` has `encode_matrix (gm * h) = b`
or `encode_matrix (negate_matrix (gm * h)) = b`. -/
def hits_B (Hgen : List symm_op) (gm : Mat3) (b : Nat) : Bool :=
  Hgen.any (fun h =>
    decide (encode_matrix (matrix_multiply3x3 gm h.mat) = b ∨
      encode_matrix (negate_matrix (matrix_multiply3x3 gm h.mat)) = b))

/-- Left-to-right sieve over a list without sentinel: every element that is
still active deactivates the later elements it hits. -/
def sieve (R : Mat3 → Nat → Bool) : Nat → List symm_op → List symm_op
  | 0, L => L
  | _ + 1, [] => []
  | n + 1, g :: rest =>
    g :: sieve R n (if g.truefalse = true then rest.map (fun x => kill (R g.mat x.bcm) x) else rest)

/-- Conditional reactivation: `set_true` when the condition holds. -/
def revive (c : Bool) (g : symm_op) : symm_op := if c = true then set_true g else g

/-- The test of the extended completion step for an element with fingerprint
`b`: some active element `g` of the first half has
`encode_matrix (negate_matrix g.mat) = b`. -/
def hits_ext (F : List symm_op) (b : Nat) : Bool :=
  F.any (fun g => g.truefalse && decide (encode_matrix (negate_matrix g.mat) = b))

/-- The matrix with the given integer entries, listed row by row. -/
def int_matrix (e : List Int) : Mat3 := fun i j => ((e.getD (3 * i.val + j.val) 0 : Int) : ℚ)

/-- The product of two integer matrices listed row by row. -/
def int_multiply (a b : List Int) : List Int :=
  (List.range 9).map (fun p =>
    a.getD (3 * (p / 3)) 0 * b.getD (p % 3) 0 + a.getD (3 * (p / 3) + 1) 0 * b.getD (3 + p % 3) 0 +
      a.getD (3 * (p / 3) + 2) 0 * b.getD (6 + p % 3) 0)

/-- The product `T[w0] * (T[w1] * ... (T[wk] * b))` of a word of positions in a
table with a last factor `b`. -/
def int_word (T : List (List Int)) (w : List Nat) (b : List Int) : List Int :=
  w.foldr (fun g acc => int_multiply (T.getD g []) acc) b

/-- The integer identity matrix. -/
def int_identity : List Int := [1, 0, 0, 0, 1, 0, 0, 0, 1]

/-- The entries of the operators of each catalog set as integers, row by row,
in the order of the set. -/
def int_table (pt_group : Int) : List (List Int) :=
  if pt_group = 1 then
    [[1, 0, 0, 0, 1, 0, 0, 0, 1], [-1, 0, 0, 0, -1, 0, 0, 0, -1]]
  else if pt_group = 2 then
    [[1, 0, 0, 0, 1, 0, 0, 0, 1], [-1, 0, 0, 0, 1, 0, 0, 0, -1], [-1, 0, 0, 0, -1, 0, 0, 0, -1],
     [1, 0, 0, 0, -1, 0, 0, 0, 1]]
  else if pt_group = 222 then
    [[1, 0, 0, 0, 1, 0, 0, 0, 1], [-1, 0, 0, 0, 1, 0, 0, 0, -1], [-1, 0, 0, 0, -1, 0, 0, 0, 1],
     [1, 0, 0, 0, -1, 0, 0, 0, -1], [-1, 0, 0, 0, -1, 0, 0, 0, -1], [1, 0, 0, 0, -1, 0, 0, 0, 1],
     [1, 0, 0, 0, 1, 0, 0, 0, -1], [-1, 0, 0, 0, 1, 0, 0, 0, 1]]
  else if pt_group = 422 then
    [[1, 0, 0, 0, 1, 0, 0, 0, 1], [-1, 0, 0, 0, 1, 0, 0, 0, -1], [-1, 0, 0, 0, -1, 0, 0, 0, 1],
     [1, 0, 0, 0, -1, 0, 0, 0, -1], [0, 1, 0, 1, 0, 0, 0, 0, -1], [0, -1, 0, -1, 0, 0, 0, 0, -1],
     [0, -1, 0, 1, 0, 0, 0, 0, 1], [0, 1, 0, -1, 0, 0, 0, 0, 1], [-1, 0, 0, 0, -1, 0, 0, 0, -1],
     [1, 0, 0, 0, -1, 0, 0, 0, 1], [1, 0, 0, 0, 1, 0, 0, 0, -1], [-1, 0, 0, 0, 1, 0, 0, 0, 1],
     [0, -1, 0, -1, 0, 0, 0, 0, 1], [0, 1, 0, 1, 0, 0, 0, 0, 1], [0, 1, 0, -1, 0, 0, 0, 0, -1],
     [0, -1, 0, 1, 0, 0, 0, 0, -1]]
  else if pt_group = 32 then
    [[1, 0, 0, 0, 1, 0, 0, 0, 1], [0, 1, 0, 1, 0, 0, 0, 0, -1], [1, 0, 0, -1, -1, 0, 0, 0, -1],
     [-1, -1, 0, 0, 1, 0, 0, 0, -1], [-1, -1, 0, 1, 0, 0, 0, 0, 1], [0, 1, 0, -1, -1, 0, 0, 0, 1],
     [-1, 0, 0, 0, -1, 0, 0, 0, -1], [0, -1, 0, -1, 0, 0, 0, 0, 1], [-1, 0, 0, 1, 1, 0, 0, 0, 1],
     [1, 1, 0, 0, -1, 0, 0, 0, 1], [1, 1, 0, -1, 0, 0, 0, 0, -1], [0, -1, 0, 1, 1, 0, 0, 0, -1]]
  else if pt_group = 622 then
    [[1, 0, 0, 0, 1, 0, 0, 0, 1], [0, 1, 0, 1, 0, 0, 0, 0, -1], [1, 0, 0, -1, -1, 0, 0, 0, -1],
     [-1, -1, 0, 0, 1, 0, 0, 0, -1], [-1, 0, 0, 0, -1, 0, 0, 0, 1],
     [0, -1, 0, -1, 0, 0, 0, 0, -1], [-1, 0, 0, 1, 1, 0, 0, 0, -1], [1, 1, 0, 0, -1, 0, 0, 0, -1],
     [-1, -1, 0, 1, 0, 0, 0, 0, 1], [0, 1, 0, -1, -1, 0, 0, 0, 1], [1, 1, 0, -1, 0, 0, 0, 0, 1],
     [0, -1, 0, 1, 1, 0, 0, 0, 1], [-1, 0, 0, 0, -1, 0, 0, 0, -1], [0, -1, 0, -1, 0, 0, 0, 0, 1],
     [-1, 0, 0, 1, 1, 0, 0, 0, 1], [1, 1, 0, 0, -1, 0, 0, 0, 1], [1, 0, 0, 0, 1, 0, 0, 0, -1],
     [0, 1, 0, 1, 0, 0, 0, 0, 1], [1, 0, 0, -1, -1, 0, 0, 0, 1], [-1, -1, 0, 0, 1, 0, 0, 0, 1],
     [1, 1, 0, -1, 0, 0, 0, 0, -1], [0, -1, 0, 1, 1, 0, 0, 0, -1], [-1, -1, 0, 1, 0, 0, 0, 0, -1],
     [0, 1, 0, -1, -1, 0, 0, 0, -1]]
  else if pt_group = 432 then
    [[1, 0, 0, 0, 1, 0, 0, 0, 1], [-1, 0, 0, 0, 1, 0, 0, 0, -1], [-1, 0, 0, 0, -1, 0, 0, 0, 1],
     [1, 0, 0, 0, -1, 0, 0, 0, -1], [0, 1, 0, 1, 0, 0, 0, 0, -1], [0, -1, 0, -1, 0, 0, 0, 0, -1],
     [-1, 0, 0, 0, 0, 1, 0, 1, 0], [-1, 0, 0, 0, 0, -1, 0, -1, 0], [0, 0, 1, 0, -1, 0, 1, 0, 0],
     [0, 0, -1, 0, -1, 0, -1, 0, 0], [0, -1, 0, 1, 0, 0, 0, 0, 1], [0, 1, 0, -1, 0, 0, 0, 0, 1],
     [0, 0, 1, 1, 0, 0, 0, 1, 0], [0, 0, 1, -1, 0, 0, 0, -1, 0], [0, 0, -1, -1, 0, 0, 0, 1, 0],
     [0, 0, -1, 1, 0, 0, 0, -1, 0], [0, 1, 0, 0, 0, 1, 1, 0, 0], [0, -1, 0, 0, 0, 1, -1, 0, 0],
     [0, 1, 0, 0, 0, -1, -1, 0, 0], [0, -1, 0, 0, 0, -1, 1, 0, 0], [1, 0, 0, 0, 0, 1, 0, -1, 0],
     [1, 0, 0, 0, 0, -1, 0, 1, 0], [0, 0, 1, 0, 1, 0, -1, 0, 0], [0, 0, -1, 0, 1, 0, 1, 0, 0],
     [-1, 0, 0, 0, -1, 0, 0, 0, -1], [1, 0, 0, 0, -1, 0, 0, 0, 1], [1, 0, 0, 0, 1, 0, 0, 0, -1],
     [-1, 0, 0, 0, 1, 0, 0, 0, 1], [0, -1, 0, -1, 0, 0, 0, 0, 1], [0, 1, 0, 1, 0, 0, 0, 0, 1],
     [1, 0, 0, 0, 0, -1, 0, -1, 0], [1, 0, 0, 0, 0, 1, 0, 1, 0], [0, 0, -1, 0, 1, 0, -1, 0, 0],
     [0, 0, 1, 0, 1, 0, 1, 0, 0], [0, 1, 0, -1, 0, 0, 0, 0, -1], [0, -1, 0, 1, 0, 0, 0, 0, -1],
     [0, 0, -1, -1, 0, 0, 0, -1, 0], [0, 0, -1, 1, 0, 0, 0, 1, 0], [0, 0, 1, 1, 0, 0, 0, -1, 0],
     [0, 0, 1, -1, 0, 0, 0, 1, 0], [0, -1, 0, 0, 0, -1, -1, 0, 0], [0, 1, 0, 0, 0, -1, 1, 0, 0],
     [0, -1, 0, 0, 0, 1, 1, 0, 0], [0, 1, 0, 0, 0, 1, -1, 0, 0], [-1, 0, 0, 0, 0, -1, 0, 1, 0],
     [-1, 0, 0, 0, 0, 1, 0, -1, 0], [0, 0, -1, 0, -1, 0, 1, 0, 0], [0, 0, 1, 0, -1, 0, -1, 0, 0]]
  else []

/-- Positions in `int_table` of a few operators that generate the set. -/
def int_generators (pt_group : Int) : List Nat :=
  if pt_group = 1 then
    [1]
  else if pt_group = 2 then
    [1, 2]
  else if pt_group = 222 then
    [1, 2, 4]
  else if pt_group = 422 then
    [1, 4, 14]
  else if pt_group = 32 then
    [1, 10]
  else if pt_group = 622 then
    [1, 6, 20]
  else if pt_group = 432 then
    [10, 13, 36]
  else []

/-- For each operator of `int_table`, a word in the generators (as positions) whose
product it is. -/
def int_words (pt_group : Int) : List (List Nat) :=
  if pt_group = 1 then
    [[], [1]]
  else if pt_group = 2 then
    [[], [1], [2], [2, 1]]
  else if pt_group = 222 then
    [[], [1], [2], [2, 1], [4], [4, 1], [4, 2], [4, 2, 1]]
  else if pt_group = 422 then
    [[], [1], [14, 14], [14, 14, 1], [4], [1, 4, 1], [1, 4], [4, 1], [14, 4, 1], [14, 4],
     [4, 14, 1], [4, 14], [1, 14], [14, 1], [14], [1, 14, 1]]
  else if pt_group = 32 then
    [[], [1], [10, 10, 1], [1, 10, 10], [1, 10, 10, 1], [10, 10], [10, 10, 10], [10, 10, 10, 1],
     [1, 10], [10, 1], [10], [1, 10, 1]]
  else if pt_group = 622 then
    [[], [1], [20, 20, 1], [6, 1, 6], [6, 20, 20, 1], [6, 20, 20], [6], [1, 6, 1], [6, 1, 6, 1],
     [20, 20], [1, 6], [6, 1], [20, 20, 20], [20, 20, 20, 1], [1, 20], [20, 1], [20, 6, 1],
     [20, 6], [20, 1, 6, 1], [6, 20], [20], [1, 20, 1], [6, 20, 1], [20, 1, 6]]
  else if pt_group = 432 then
    [[], [36, 13, 36], [10, 10], [13, 36, 36], [36, 13, 36, 10], [13, 10, 13], [10, 13, 10, 10],
     [13, 13, 10], [10, 13, 13], [10, 10, 13, 10], [10], [10, 10, 10], [13, 10, 10], [13],
     [36, 13, 36, 13], [10, 10, 13], [36, 36], [10, 13, 10], [13, 13, 10, 10], [13, 13], [10, 13],
     [13, 10, 13, 13], [13, 10], [10, 36, 36], [36, 36, 36], [13, 36, 13], [13, 13, 36],
     [36, 13, 13], [13, 10, 36], [36, 13, 13, 10], [10, 36], [13, 10, 13, 36], [36, 10],
     [10, 36, 13], [36, 10, 13], [13, 13, 36, 10], [36], [36, 10, 10], [10, 10, 36],
     [13, 13, 36, 13], [10, 36, 10], [36, 13], [13, 36], [13, 36, 10, 10], [10, 36, 10, 10],
     [13, 36, 10], [10, 13, 36], [10, 10, 36, 10]]
  else []

/-- For each operator of `int_table`, the position of its inverse. -/
def int_inverse (pt_group : Int) : List Nat :=
  if pt_group = 1 then
    [0, 1]
  else if pt_group = 2 then
    [0, 1, 2, 3]
  else if pt_group = 222 then
    [0, 1, 2, 3, 4, 5, 6, 7]
  else if pt_group = 422 then
    [0, 1, 2, 3, 4, 5, 7, 6, 8, 9, 10, 11, 12, 13, 15, 14]
  else if pt_group = 32 then
    [0, 1, 2, 3, 5, 4, 6, 7, 8, 9, 11, 10]
  else if pt_group = 622 then
    [0, 1, 2, 3, 4, 5, 6, 7, 9, 8, 11, 10, 12, 13, 14, 15, 16, 17, 18, 19, 21, 20, 23, 22]
  else if pt_group = 432 then
    [0, 1, 2, 3, 4, 5, 6, 7, 8, 9, 11, 10, 16, 19, 17, 18, 12, 14, 15, 13, 21, 20, 23, 22, 24, 25,
     26, 27, 28, 29, 30, 31, 32, 33, 35, 34, 40, 43, 41, 42, 36, 38, 39, 37, 45, 44, 47, 46]
  else []

/-- The operator `-h`: the matrix negated and the fingerprint derived from it. -/
def neg_op (h : symm_op) : symm_op :=
  { h with mat := negate_matrix h.mat, bcm := encode_matrix (negate_matrix h.mat) }

/-- The operators of `H` followed by their negations. -/
def centric_closure (Hops : List symm_op) : List symm_op := Hops ++ Hops.map neg_op

/-! ## The operator codec -/

theorem ABS_eq_abs (x : ℚ) : ABS x = |x| := by
  unfold ABS
  split_ifs with h
  · exact (abs_of_neg h).symm
  · exact (abs_of_nonneg (not_lt.mp h)).symm

theorem relative_difference_zero_right (a : ℚ) :
    relative_difference a 0 = if a = 0 then 0 else 1 := by
  by_cases h : a = 0
  · subst h
    simp [relative_difference, ABS, MAX]
  · have hpos : 0 < |a| := abs_pos.mpr h
    simp only [relative_difference, ABS_eq_abs, MAX, abs_zero, sub_zero, gt_iff_lt, hpos,
      if_true, if_neg h, if_neg (ne_of_gt hpos)]
    exact div_self (ne_of_gt hpos)

theorem is_zero_iff (a : ℚ) : is_zero a = true ↔ a = 0 := by
  unfold is_zero
  rw [relative_difference_zero_right, decide_eq_true_iff]
  by_cases h : a = 0
  · simp [h, TOLERANCE]
  · simp only [if_neg h, h, iff_false, not_le, TOLERANCE]
    norm_num

theorem is_equal_iff (a b : ℚ) : is_equal a b = true ↔ a = b := by
  unfold is_equal
  simp only [is_zero_iff, sub_eq_zero]

theorem is_zero_eq (a : ℚ) : is_zero a = decide (a = 0) := by
  rw [Bool.eq_iff_iff, is_zero_iff, decide_eq_true_iff]

theorem is_equal_eq (a b : ℚ) : is_equal a b = decide (a = b) := by
  rw [Bool.eq_iff_iff, is_equal_iff, decide_eq_true_iff]

theorem encode_value_eq (val : ℚ) (row col : Fin 3) (codex : Nat) :
    encode_value val row col codex =
      if val = 1 then codex ||| (1 <<< offset_table row col)
      else if val = 0 then codex
      else if val = -1 then codex ||| (2 <<< offset_table row col)
      else BCM_ERROR := by
  unfold encode_value
  simp only [is_zero_eq, is_equal_eq, decide_eq_true_iff, Nat.zero_shiftLeft, Nat.or_zero]

theorem code_le (x : ℚ) : code x ≤ 2 := by
  unfold code; split_ifs <;> omega

theorem or_shift_eq_add (codex cv n : Nat) (h : codex < 2 ^ n) :
    codex ||| (cv <<< n) = codex + cv * 2 ^ n := by
  rw [Nat.shiftLeft_eq, Nat.or_comm, Nat.mul_comm cv, ← Nat.mul_add_lt_is_or h, Nat.add_comm]

theorem encode_value_valid (val : ℚ) (hv : ValidEntry val) (row col : Fin 3) (codex : Nat)
    (h : codex < 2 ^ offset_table row col) :
    encode_value val row col codex = codex + code val * 2 ^ offset_table row col := by
  rw [encode_value_eq]
  rcases hv with hv | hv | hv <;> subst hv
  · norm_num [code, or_shift_eq_add _ _ _ h]
  · norm_num [code]
  · norm_num [code, or_shift_eq_add _ _ _ h]

theorem encode_loop_step (m : Mat3) (p : Fin 3 × Fin 3) (rest : List (Fin 3 × Fin 3))
    (cmx : Nat) (hv : ValidEntry (m p.1 p.2)) (h : cmx < 2 ^ offset_table p.1 p.2)
    (hoff : offset_table p.1 p.2 ≤ 14) :
    encode_loop m (p :: rest) cmx =
      encode_loop m rest (cmx + code (m p.1 p.2) * 2 ^ offset_table p.1 p.2) := by
  have hc := code_le (m p.1 p.2)
  have hpow : 2 ^ offset_table p.1 p.2 ≤ 2 ^ 14 := Nat.pow_le_pow_right (by norm_num) hoff
  have hne : BCM_ERROR ≠ cmx + code (m p.1 p.2) * 2 ^ offset_table p.1 p.2 := by
    have : code (m p.1 p.2) * 2 ^ offset_table p.1 p.2 ≤ 2 * 2 ^ 14 :=
      Nat.mul_le_mul hc hpow
    unfold BCM_ERROR
    omega
  simp only [encode_loop, encode_value_valid _ hv _ _ _ h, if_neg hne]

theorem encode_loop_last (m : Mat3) (p : Fin 3 × Fin 3) (cmx : Nat)
    (hv : ValidEntry (m p.1 p.2)) (h : cmx < 2 ^ offset_table p.1 p.2) :
    encode_loop m [p] cmx = cmx + code (m p.1 p.2) * 2 ^ offset_table p.1 p.2 := by
  simp only [encode_loop, encode_value_valid _ hv _ _ _ h, ite_self]

/-- Fingerprint of a matrix with entries in {-1, 0, 1} as a base-4 number. -/
theorem encode_matrix_valid (m : Mat3) (hv : ∀ i j, ValidEntry (m i j)) :
    encode_matrix m =
      code (m 0 0) + code (m 0 1) * 4 + code (m 0 2) * 16 + code (m 1 0) * 64 +
      code (m 1 1) * 256 + code (m 1 2) * 1024 + code (m 2 0) * 4096 +
      code (m 2 1) * 16384 + code (m 2 2) * 65536 := by
  have c00 := code_le (m 0 0)
  have c01 := code_le (m 0 1)
  have c02 := code_le (m 0 2)
  have c10 := code_le (m 1 0)
  have c11 := code_le (m 1 1)
  have c12 := code_le (m 1 2)
  have c20 := code_le (m 2 0)
  have c21 := code_le (m 2 1)
  unfold encode_matrix positions
  rw [encode_loop_step m (0, 0) _ _ (hv 0 0) (by simp [offset_table]) (by simp [offset_table]),
    encode_loop_step m (0, 1) _ _ (hv 0 1) (by simp [offset_table]; omega) (by simp [offset_table]),
    encode_loop_step m (0, 2) _ _ (hv 0 2) (by simp [offset_table]; omega) (by simp [offset_table]),
    encode_loop_step m (1, 0) _ _ (hv 1 0) (by simp [offset_table]; omega) (by simp [offset_table]),
    encode_loop_step m (1, 1) _ _ (hv 1 1) (by simp [offset_table]; omega) (by simp [offset_table]),
    encode_loop_step m (1, 2) _ _ (hv 1 2) (by simp [offset_table]; omega) (by simp [offset_table]),
    encode_loop_step m (2, 0) _ _ (hv 2 0) (by simp [offset_table]; omega) (by simp [offset_table]),
    encode_loop_step m (2, 1) _ _ (hv 2 1) (by simp [offset_table]; omega) (by simp [offset_table]),
    encode_loop_last m (2, 2) _ (hv 2 2) (by simp [offset_table]; omega)]
  simp [offset_table]

theorem extract_eq (cs off : Nat) : 0x3 &&& (cs >>> off) = cs / 2 ^ off % 4 := by
  rw [Nat.and_comm, Nat.shiftRight_eq_div_pow]
  exact Nat.and_pow_two_sub_one_eq_mod _ 2

theorem decode_value_encode (m : Mat3) (hv : ∀ i j, ValidEntry (m i j)) (i j : Fin 3) :
    decode_value (encode_matrix m) i j = some (m i j) := by
  have hsum := encode_matrix_valid m hv
  have c00 := code_le (m 0 0)
  have c01 := code_le (m 0 1)
  have c02 := code_le (m 0 2)
  have c10 := code_le (m 1 0)
  have c11 := code_le (m 1 1)
  have c12 := code_le (m 1 2)
  have c20 := code_le (m 2 0)
  have c21 := code_le (m 2 1)
  have c22 := code_le (m 2 2)
  have key : encode_matrix m / 2 ^ offset_table i j % 4 = code (m i j) := by
    rw [hsum]
    fin_cases i <;> fin_cases j <;> simp [offset_table] <;> omega
  unfold decode_value
  simp only [extract_eq, key]
  rcases hv i j with h | h | h <;> rw [h] <;> norm_num [code]

theorem decode_matrix_encode_matrix (m : Mat3) (hv : ∀ i j, ValidEntry (m i j)) :
    decode_matrix (encode_matrix m) = some m := by
  unfold decode_matrix
  simp only [decode_value_encode m hv, Option.isSome_some, implies_true, if_true,
    Option.getD_some]

theorem valid_identity_matrix : ∀ i j, ValidEntry (identity_matrix i j) := by decide!

theorem valid_invcen : ∀ i j, ValidEntry (invcen i j) := by decide!

/-- Claim C2. Codec round trip: decoding the fingerprint of a matrix whose nine
entries are each -1, 0 or 1 gives back that matrix, entry for entry. -/
theorem codec_round_trip (m : Mat3) (hv : ∀ i j, ValidEntry (m i j)) :
    decode_matrix (encode_matrix m) = some m :=
  decode_matrix_encode_matrix m hv

theorem codec_round_trip_witness :
    (∀ i j, ValidEntry (invcen i j)) ∧ decode_matrix (encode_matrix invcen) = some invcen :=
  ⟨by decide!, codec_round_trip invcen (by decide!)⟩

theorem encode_matrix_injective (m1 m2 : Mat3) (h1 : ∀ i j, ValidEntry (m1 i j))
    (h2 : ∀ i j, ValidEntry (m2 i j)) (h : encode_matrix m1 = encode_matrix m2) : m1 = m2 := by
  have e1 := decode_matrix_encode_matrix m1 h1
  have e2 := decode_matrix_encode_matrix m2 h2
  rw [h, e2] at e1
  exact (Option.some.inj e1).symm

/-- Claim C3. The encoding is injective on matrices with entries in {-1, 0, 1}:
two such matrices with the same fingerprint are equal. -/
theorem encode_injective_on_valid (m1 m2 : Mat3) (h1 : ∀ i j, ValidEntry (m1 i j))
    (h2 : ∀ i j, ValidEntry (m2 i j)) (h : encode_matrix m1 = encode_matrix m2) : m1 = m2 :=
  encode_matrix_injective m1 m2 h1 h2 h

theorem encode_injective_on_valid_witness :
    (∀ i j, ValidEntry (identity_matrix i j)) ∧ (∀ i j, ValidEntry ((ops_432.getD 0 malloc_op).mat i j)) ∧
      encode_matrix identity_matrix = encode_matrix (ops_432.getD 0 malloc_op).mat ∧
      identity_matrix = (ops_432.getD 0 malloc_op).mat :=
  ⟨by decide!, by decide!, by decide!,
    encode_injective_on_valid identity_matrix (ops_432.getD 0 malloc_op).mat
      (by decide!) (by decide!) (by decide!)⟩

/-- Claim C4. Bit layout: the fingerprint of a matrix with entries in
{-1, 0, 1} is the sum over rows i and columns j of the 2-bit code of entry
(i, j) shifted left by 2 * (3 * i + j) bits; the identity encodes to 0x10101
and the inversion to 0x20202. -/
theorem fingerprint_bit_layout :
    (∀ m : Mat3, (∀ i j, ValidEntry (m i j)) →
      encode_matrix m = ∑ i : Fin 3, ∑ j : Fin 3, code (m i j) <<< (2 * (3 * i.val + j.val))) ∧
    encode_matrix identity_matrix = 0x10101 ∧ encode_matrix invcen = 0x20202 := by
  refine ⟨fun m hv => ?_, by decide!, by decide!⟩
  rw [encode_matrix_valid m hv]
  simp only [Fin.sum_univ_three, Nat.shiftLeft_eq]
  norm_num
  ring

theorem relative_difference_self (x : ℚ) : relative_difference x x = 0 := by
  unfold relative_difference
  simp [ABS]

theorem not_valid_of_outOfTolerance (x : ℚ) (h : OutOfTolerance x) : ¬ ValidEntry x := by
  have hpos : (0 : ℚ) < TOLERANCE := by norm_num [TOLERANCE]
  rintro (hx | hx | hx) <;> subst hx
  · have := h.1; rw [relative_difference_self] at this; exact absurd this (not_lt.mpr hpos.le)
  · have := h.2.1; rw [relative_difference_self] at this; exact absurd this (not_lt.mpr hpos.le)
  · have := h.2.2; rw [relative_difference_self] at this; exact absurd this (not_lt.mpr hpos.le)

theorem encode_value_invalid (val : ℚ) (h : ¬ ValidEntry val) (row col : Fin 3) (codex : Nat) :
    encode_value val row col codex = BCM_ERROR := by
  rw [encode_value_eq]
  unfold ValidEntry at h
  push_neg at h
  simp [h.1, h.2.1, h.2.2]

theorem encode_loop_invalid (m : Mat3) (ps : List (Fin 3 × Fin 3)) (cmx : Nat)
    (h : ∃ p ∈ ps, ¬ ValidEntry (m p.1 p.2)) : encode_loop m ps cmx = BCM_ERROR := by
  induction ps generalizing cmx with
  | nil => simp at h
  | cons q rest ih =>
    simp only [encode_loop]
    split_ifs with hq
    · exact hq.symm
    · apply ih
      obtain ⟨p, hp, hbad⟩ := h
      rcases List.mem_cons.mp hp with rfl | hp
      · exact absurd (encode_value_invalid _ hbad _ _ _).symm hq
      · exact ⟨p, hp, hbad⟩

theorem mem_positions (i j : Fin 3) : (i, j) ∈ positions := by
  fin_cases i <;> fin_cases j <;> simp [positions]

theorem encode_matrix_invalid (m : Mat3) (h : ∃ i j, ¬ ValidEntry (m i j)) :
    encode_matrix m = BCM_ERROR := by
  obtain ⟨i, j, hbad⟩ := h
  exact encode_loop_invalid m positions 0 ⟨(i, j), mem_positions i j, hbad⟩

/-- Claim C5. Encoding error: a matrix with at least one entry whose relative
difference from each of -1, 0 and 1 exceeds the tolerance encodes to the ERROR
fingerprint 0x2AAAA, whatever the other entries and the position of that entry. -/
theorem encode_error_on_bad_entry (m : Mat3) (h : ∃ i j, OutOfTolerance (m i j)) :
    encode_matrix m = 0x2AAAA := by
  obtain ⟨i, j, hbad⟩ := h
  exact encode_matrix_invalid m ⟨i, j, not_valid_of_outOfTolerance _ hbad⟩

theorem encode_error_on_bad_entry_witness :
    (∃ i j, OutOfTolerance ((![![1, 0, 0], ![0, 1 / 2, 0], ![0, 2, 1]] : Mat3) i j)) ∧
      encode_matrix ![![1, 0, 0], ![0, 1 / 2, 0], ![0, 2, 1]] = 0x2AAAA :=
  ⟨by decide!, encode_error_on_bad_entry _ (by decide!)⟩

/-- Claim C6, as stated, fails: the matrix whose nine entries are all -1 has
entries in {-1, 0, 1} and its fingerprint is the ERROR value 0x2AAAA. -/
theorem error_fingerprint_collision :
    (∀ i j, ValidEntry (all_minus_one i j)) ∧ encode_matrix all_minus_one = 0x2AAAA := by
  decide!

theorem encode_matrix_ne_error (m : Mat3) (hv : ∀ i j, ValidEntry (m i j))
    (hne : ∃ i j, m i j ≠ -1) : encode_matrix m ≠ BCM_ERROR := by
  intro h
  have hall : ∀ i j, ValidEntry (all_minus_one i j) := fun _ _ => Or.inl rfl
  have e : encode_matrix all_minus_one = BCM_ERROR := by decide!
  have := encode_matrix_injective m all_minus_one hv hall (h.trans e.symm)
  obtain ⟨i, j, hij⟩ := hne
  exact hij (by rw [this]; rfl)

/-- Claim C6, amended. For every matrix with all entries in {-1, 0, 1} that has
at least one entry different from -1, the fingerprint differs from the ERROR
value 0x2AAAA. -/
theorem valid_encoding_ne_error (m : Mat3) (hv : ∀ i j, ValidEntry (m i j))
    (hne : ∃ i j, m i j ≠ -1) : encode_matrix m ≠ 0x2AAAA :=
  encode_matrix_ne_error m hv hne

theorem valid_encoding_ne_error_witness :
    (∀ i j, ValidEntry (invcen i j)) ∧ (∃ i j, invcen i j ≠ -1) ∧
      encode_matrix invcen ≠ 0x2AAAA :=
  ⟨by decide!, by decide!, valid_encoding_ne_error invcen (by decide!) (by decide!)⟩

/-- Claim C7 at the failing input: `1 + 1e-8` is within relative difference
1e-7 of 1, yet `is_equal` rejects it and the identity matrix with that entry
at `[0][0]` encodes to the ERROR fingerprint instead of 0x10101. -/
theorem tolerance_not_applied :
    relative_difference (1 + 1 / 100000000) 1 ≤ TOLERANCE ∧
      is_equal (1 + 1 / 100000000) 1 = false ∧
      encode_matrix near_identity = BCM_ERROR ∧
      encode_matrix identity_matrix = 0x10101 := by
  decide!

/-! ## Concrete runs of the coset engine -/

/-- Claim C8. End-to-end count: with G the 48 operators selected for "m-3m" and
H the 2 operators (I and -I) selected for "-1", algorithm B leaves exactly 24
elements of G active, with or without the extended completion step. -/
theorem end_to_end_m3m_over_1 :
    ((select_symm_ops (lookup_supergroup "m-3m")).1.isSome = true ∧
     (select_symm_ops (lookup_supergroup "-1")).1.isSome = true) ∧
    ∀ G ∈ (select_symm_ops (lookup_supergroup "m-3m")).1,
    ∀ H ∈ (select_symm_ops (lookup_supergroup "-1")).1,
      count_ops G = 48 ∧ count_ops H = 2 ∧
      (H.take 2).map (fun h => h.mat) = [identity_matrix, invcen] ∧
      ∀ ext : Bool, count_active (coset_decomposition_B ext G H) = 24 := by
  decide!

/-- Claim C9. Subgroup equal to supergroup: for each of the seven catalog sets
G (all flags active), algorithm A and algorithm B (with or without the extended
step) run with H an identical copy of G leave exactly one element active,
namely G[0], the identity. -/
theorem subgroup_equal_supergroup :
    ∀ pg ∈ supported_point_groups,
      (select_symm_ops pg).1.isSome = true ∧
      ∀ G ∈ (select_symm_ops pg).1,
        flags G = List.replicate (G.length - 1) true ++ [false] ∧
        G.head?.map (fun g => g.mat) = some identity_matrix ∧
        flags (coset_decomposition_A G G) = true :: List.replicate (G.length - 1) false ∧
        count_active (coset_decomposition_A G G) = 1 ∧
        ∀ ext : Bool,
          flags (coset_decomposition_B ext G G) = true :: List.replicate (G.length - 1) false ∧
          count_active (coset_decomposition_B ext G G) = 1 := by
  decide!

theorem subgroup_equal_supergroup_witness :
    (432 : Int) ∈ supported_point_groups ∧
      (select_symm_ops 432).1.isSome = true ∧
      ∀ G ∈ (select_symm_ops 432).1,
        flags G = List.replicate (G.length - 1) true ++ [false] ∧
        G.head?.map (fun g => g.mat) = some identity_matrix ∧
        flags (coset_decomposition_A G G) = true :: List.replicate (G.length - 1) false ∧
        count_active (coset_decomposition_A G G) = 1 ∧
        ∀ ext : Bool,
          flags (coset_decomposition_B ext G G) = true :: List.replicate (G.length - 1) false ∧
          count_active (coset_decomposition_B ext G G) = 1 :=
  ⟨by decide, subgroup_equal_supergroup 432 (by decide)⟩

/-! ## Algorithm A yields left-coset representatives -/

@[simp] theorem kill_bcm (c : Bool) (g : symm_op) : (kill c g).bcm = g.bcm := by
  unfold kill set_false; split_ifs <;> rfl

@[simp] theorem kill_mat (c : Bool) (g : symm_op) : (kill c g).mat = g.mat := by
  unfold kill set_false; split_ifs <;> rfl

theorem kill_truefalse (c : Bool) (g : symm_op) :
    (kill c g).truefalse = (g.truefalse && !c) := by
  unfold kill set_false; cases c <;> simp

theorem kill_false (g : symm_op) : kill false g = g := rfl

theorem kill_kill (c1 c2 : Bool) (g : symm_op) : kill c2 (kill c1 g) = kill (c1 || c2) g := by
  cases c1 <;> cases c2 <;> rfl

theorem A_loop_k_eq (p : Nat) (s : symm_op) (hs : s.bcm = 0) (tl : List symm_op) :
    ∀ L : List symm_op, (∀ g ∈ L, g.bcm ≠ 0) →
      A_loop_k p (L ++ s :: tl) = L.map (fun x => kill (decide (p = x.bcm)) x) ++ s :: tl
  | [], _ => by simp [A_loop_k, hs]
  | g :: L, h => by
    have hg : g.bcm ≠ 0 := h g (List.mem_cons_self _ _)
    have ih := A_loop_k_eq p s hs tl L (fun x hx => h x (List.mem_cons_of_mem _ hx))
    rw [List.cons_append, A_loop_k, if_neg hg, ih, List.map_cons]
    simp only [kill, decide_eq_true_eq, List.cons_append]

theorem A_loop_j_eq (gi : symm_op) (sH : symm_op) (hsH : sH.bcm = 0) (tlH : List symm_op)
    (s : symm_op) (hs : s.bcm = 0) (tl : List symm_op) :
    ∀ (Hs L : List symm_op), (∀ h ∈ Hs, h.bcm ≠ 0) → (∀ g ∈ L, g.bcm ≠ 0) →
      A_loop_j gi (Hs ++ sH :: tlH) (L ++ s :: tl) =
        L.map (fun x => kill (hits_A Hs gi.mat x.bcm) x) ++ s :: tl
  | [], L, _, _ => by simp [A_loop_j, hsH, hits_A, kill_false]
  | h :: Hs, L, hH, hL => by
    have hh : h.bcm ≠ 0 := hH h (List.mem_cons_self _ _)
    have hL1 : ∀ g ∈ L.map (fun x =>
        kill (decide (encode_matrix (matrix_multiply3x3 gi.mat h.mat) = x.bcm)) x), g.bcm ≠ 0 := by
      intro g hg
      obtain ⟨x, hx, rfl⟩ := List.mem_map.mp hg
      simpa using hL x hx
    have ih := A_loop_j_eq gi sH hsH tlH s hs tl Hs _ (fun x hx => hH x (List.mem_cons_of_mem _ hx)) hL1
    rw [List.cons_append, A_loop_j, if_neg hh]
    simp only [A_loop_k_eq _ s hs tl L hL, ih, List.map_map]
    congr 1
    apply List.map_congr_left
    intro x _
    simp only [Function.comp, kill_kill, kill_bcm, hits_A, List.any_cons]

theorem A_loop_i_eq (H : List symm_op) (Hs : List symm_op) (sH : symm_op) (hsH : sH.bcm = 0)
    (tlH : List symm_op) (hH : H.drop 1 = Hs ++ sH :: tlH) (hHs : ∀ h ∈ Hs, h.bcm ≠ 0)
    (s : symm_op) (hs : s.bcm = 0) (tl : List symm_op) :
    ∀ (n : Nat) (L : List symm_op), (∀ g ∈ L, g.bcm ≠ 0) →
      A_loop_i H n (L ++ s :: tl) = sieve (hits_A Hs) n L ++ s :: tl
  | 0, L, _ => by simp [A_loop_i, sieve]
  | n + 1, [], _ => by simp [A_loop_i, sieve, hs]
  | n + 1, g :: L, hL => by
    have hg : g.bcm ≠ 0 := hL g (List.mem_cons_self _ _)
    have hL' : ∀ x ∈ L, x.bcm ≠ 0 := fun x hx => hL x (List.mem_cons_of_mem _ hx)
    rw [List.cons_append, A_loop_i, if_neg hg, sieve, hH]
    by_cases hf : g.truefalse = true
    · simp only [if_pos hf, A_loop_j_eq g sH hsH tlH s hs tl Hs L hHs hL']
      rw [A_loop_i_eq H Hs sH hsH tlH hH hHs s hs tl n, List.cons_append]
      intro x hx
      obtain ⟨y, hy, rfl⟩ := List.mem_map.mp hx
      simpa using hL' y hy
    · simp only [if_neg hf]
      rw [A_loop_i_eq H Hs sH hsH tlH hH hHs s hs tl n L hL', List.cons_append]

theorem kill_malloc_op (c : Bool) : kill c malloc_op = malloc_op := by
  cases c <;> rfl

theorem getD_map_kill (f : symm_op → Bool) (L : List symm_op) (k : Nat) :
    (L.map (fun x => kill (f x) x)).getD k malloc_op = kill (f (L.getD k malloc_op)) (L.getD k malloc_op) := by
  induction L generalizing k with
  | nil => simp [kill_malloc_op]
  | cons a L ih =>
    cases k with
    | zero => simp
    | succ k => simpa using ih k

theorem sieve_length (R : Mat3 → Nat → Bool) :
    ∀ (n : Nat) (L : List symm_op), (sieve R n L).length = L.length
  | 0, _ => rfl
  | _ + 1, [] => rfl
  | n + 1, g :: rest => by
    rw [sieve, List.length_cons, sieve_length R n, List.length_cons]
    split_ifs <;> simp

theorem sieve_getD (R : Mat3 → Nat → Bool) :
    ∀ (n : Nat) (L : List symm_op) (k : Nat), L.length ≤ n →
      ((sieve R n L).getD k malloc_op).mat = (L.getD k malloc_op).mat ∧
      ((sieve R n L).getD k malloc_op).bcm = (L.getD k malloc_op).bcm ∧
      (((sieve R n L).getD k malloc_op).truefalse = true ↔
        (L.getD k malloc_op).truefalse = true ∧
        ∀ i < k, ((sieve R n L).getD i malloc_op).truefalse = true →
          R (L.getD i malloc_op).mat (L.getD k malloc_op).bcm = false)
  | 0, L, k, h => by
    have : L = [] := List.length_eq_zero.mp (Nat.le_zero.mp h)
    subst this
    simp [sieve, malloc_op]
  | n + 1, [], k, _ => by simp [sieve, malloc_op]
  | n + 1, g :: rest, 0, _ => by simp [sieve]
  | n + 1, g :: rest, k + 1, h => by
    have hlen : (if g.truefalse = true then rest.map (fun x => kill (R g.mat x.bcm) x)
        else rest).length ≤ n := by
      have := Nat.le_of_succ_le_succ h
      split_ifs <;> simpa using this
    have ih := fun j => sieve_getD R n
      (if g.truefalse = true then rest.map (fun x => kill (R g.mat x.bcm) x) else rest) j hlen
    have hrest : ∀ j, ((if g.truefalse = true then rest.map (fun x => kill (R g.mat x.bcm) x)
        else rest).getD j malloc_op) =
        kill (g.truefalse && R g.mat (rest.getD j malloc_op).bcm) (rest.getD j malloc_op) := by
      intro j
      by_cases hg : g.truefalse = true
      · rw [if_pos hg, getD_map_kill (fun x => R g.mat x.bcm), hg, Bool.true_and]
      · rw [if_neg hg, Bool.not_eq_true] at *
        simp [hg, kill_false]
    simp only [sieve, List.getD_cons_succ]
    obtain ⟨h1, h2, h3⟩ := ih k
    refine ⟨by rw [h1, hrest, kill_mat], by rw [h2, hrest, kill_bcm], ?_⟩
    rw [h3, hrest, kill_truefalse, kill_bcm]
    constructor
    · rintro ⟨hk, hall⟩
      simp only [Bool.and_eq_true, Bool.not_eq_true', Bool.and_eq_false_imp] at hk
      refine ⟨hk.1, ?_⟩
      intro i hi
      cases i with
      | zero =>
        simp only [List.getD_cons_zero]
        exact hk.2
      | succ i =>
        simp only [List.getD_cons_succ]
        intro hf
        have := hall i (Nat.lt_of_succ_lt_succ hi) hf
        rwa [hrest, kill_mat] at this
    · rintro ⟨hk, hall⟩
      constructor
      · simp only [Bool.and_eq_true, Bool.not_eq_true', Bool.and_eq_false_imp]
        refine ⟨hk, ?_⟩
        have := hall 0 (Nat.succ_pos _)
        simpa using this
      · intro i hi hf
        have := hall (i + 1) (Nat.succ_lt_succ hi)
        simp only [List.getD_cons_succ] at this
        rw [hrest, kill_mat]
        exact this hf

theorem sieve_first_in_class (R : Mat3 → Nat → Bool) (L : List symm_op) (n : Nat)
    (hn : L.length ≤ n) (hall : ∀ g ∈ L, g.truefalse = true) (E : Nat → Nat → Prop)
    (hRE : ∀ i k, i < k → k < L.length →
      (R (L.getD i malloc_op).mat (L.getD k malloc_op).bcm = true ↔ E i k))
    (htrans : ∀ i j k, i < j → j < k → k < L.length → E i j → E j k → E i k) :
    ∀ k, k < L.length →
      (((sieve R n L).getD k malloc_op).truefalse = true ↔ ¬ ∃ i, i < k ∧ E i k) := by
  intro k
  induction k using Nat.strong_induction_on with
  | _ k IH =>
    intro hk
    have hok : (L.getD k malloc_op).truefalse = true := by
      rw [List.getD_eq_getElem _ _ hk]
      exact hall _ (List.getElem_mem _)
    rw [(sieve_getD R n L k hn).2.2]
    constructor
    · rintro ⟨_, hno⟩ ⟨i, hi, hE⟩
      -- an active earlier element of the same class exists
      have key : ∀ i, i < k → E i k →
          ∃ i0, i0 < k ∧ ((sieve R n L).getD i0 malloc_op).truefalse = true ∧ E i0 k := by
        intro i
        induction i using Nat.strong_induction_on with
        | _ i IHi =>
          intro hi hE
          by_cases hf : ((sieve R n L).getD i malloc_op).truefalse = true
          · exact ⟨i, hi, hf, hE⟩
          · have := (IH i hi (Nat.lt_trans hi hk)).not.mp hf
            rw [not_not] at this
            obtain ⟨i', hi', hE'⟩ := this
            exact IHi i' hi' (Nat.lt_trans hi' hi) (htrans i' i k hi' hi hk hE' hE)
      obtain ⟨i0, hi0, hf0, hE0⟩ := key i hi hE
      have h1 := hno i0 hi0 hf0
      have h2 := (hRE i0 k hi0 hk).mpr hE0
      rw [h1] at h2
      exact Bool.false_ne_true h2
    · intro hno
      refine ⟨hok, fun i hi _ => ?_⟩
      rw [Bool.eq_false_iff]
      intro hR
      exact hno ⟨i, hi, (hRE i k hi hk).mp hR⟩

theorem matrix_multiply3x3_assoc (a b c : Mat3) :
    matrix_multiply3x3 (matrix_multiply3x3 a b) c =
      matrix_multiply3x3 a (matrix_multiply3x3 b c) := by
  funext i j
  simp only [matrix_multiply3x3]
  ring

theorem identity_matrix_apply : ∀ i j : Fin 3, identity_matrix i j = if i = j then 1 else 0 := by
  decide!

theorem matrix_multiply3x3_identity (a : Mat3) :
    matrix_multiply3x3 a identity_matrix = a := by
  funext i j
  fin_cases j <;> simp [matrix_multiply3x3, identity_matrix_apply]

theorem identity_matrix_multiply3x3 (a : Mat3) :
    matrix_multiply3x3 identity_matrix a = a := by
  funext i j
  fin_cases i <;> simp [matrix_multiply3x3, identity_matrix_apply]

theorem valid_of_encode_ne_error (m : Mat3) (h : encode_matrix m ≠ BCM_ERROR) :
    ∀ i j, ValidEntry (m i j) := by
  intro i j
  by_contra hbad
  exact h (encode_matrix_invalid m ⟨i, j, hbad⟩)

theorem eq_of_encode_eq (a b : Mat3) (h : encode_matrix a = encode_matrix b)
    (hb : encode_matrix b ≠ BCM_ERROR) : a = b :=
  encode_matrix_injective a b (valid_of_encode_ne_error a (h ▸ hb))
    (valid_of_encode_ne_error b hb) h

theorem hits_A_iff (Hgen : List symm_op) (gm : Mat3) (b : Nat) :
    hits_A Hgen gm b = true ↔
      ∃ h ∈ Hgen, encode_matrix (matrix_multiply3x3 gm h.mat) = b := by
  simp [hits_A, List.any_eq_true]

theorem inLeftCoset_refl (H : List symm_op) (hH : IsGroup (mats H)) (a : Mat3) :
    InLeftCoset H a a :=
  ⟨identity_matrix, hH.1, (matrix_multiply3x3_identity a).symm⟩

theorem inLeftCoset_symm (H : List symm_op) (hH : IsGroup (mats H)) (a b : Mat3)
    (h : InLeftCoset H a b) : InLeftCoset H b a := by
  obtain ⟨x, hx, rfl⟩ := h
  obtain ⟨y, hy, hxy, _⟩ := hH.2.2 x hx
  exact ⟨y, hy, by rw [matrix_multiply3x3_assoc, hxy, matrix_multiply3x3_identity]⟩

theorem inLeftCoset_trans (H : List symm_op) (hH : IsGroup (mats H)) (a b c : Mat3)
    (h1 : InLeftCoset H a b) (h2 : InLeftCoset H b c) : InLeftCoset H a c := by
  obtain ⟨x, hx, rfl⟩ := h1
  obtain ⟨y, hy, rfl⟩ := h2
  exact ⟨matrix_multiply3x3 y x, hH.2.1 y hy x hx, matrix_multiply3x3_assoc c y x⟩

theorem getD_mem (L : List symm_op) (k : Nat) (hk : k < L.length) :
    L.getD k malloc_op ∈ L := by
  rw [List.getD_eq_getElem _ _ hk]
  exact List.getElem_mem _

theorem bcm_getD_injective (L : List symm_op) (hd : (L.map (fun g => g.bcm)).Nodup)
    (i k : Nat) (hi : i < L.length) (hk : k < L.length)
    (h : (L.getD i malloc_op).bcm = (L.getD k malloc_op).bcm) : i = k := by
  rw [List.getD_eq_getElem _ _ hi, List.getD_eq_getElem _ _ hk] at h
  have hi' : i < (L.map (fun g => g.bcm)).length := by simpa using hi
  have hk' : k < (L.map (fun g => g.bcm)).length := by simpa using hk
  have : (L.map (fun g => g.bcm))[i] = (L.map (fun g => g.bcm))[k] := by
    simpa using h
  exact (List.Nodup.getElem_inj_iff hd).mp this

/-- For distinct positions of an operator set, the test of algorithm A with
the generators `H[1..]` is membership in the same left coset of `H`. -/
theorem hits_A_iff_inLeftCoset (Gops : List symm_op) (h0 : symm_op) (Htail : List symm_op)
    (hG : OperatorSet Gops) (hGd : (Gops.map (fun g => g.bcm)).Nodup)
    (hgrp : IsGroup (mats (h0 :: Htail))) (hH0 : h0.mat = identity_matrix)
    (i k : Nat) (hik : i ≠ k) (hi : i < Gops.length) (hk : k < Gops.length) :
    hits_A Htail (Gops.getD i malloc_op).mat (Gops.getD k malloc_op).bcm = true ↔
      InLeftCoset (h0 :: Htail) (Gops.getD i malloc_op).mat (Gops.getD k malloc_op).mat := by
  obtain ⟨hkb, _, hke⟩ := hG _ (getD_mem Gops k hk)
  obtain ⟨hib, _, _⟩ := hG _ (getD_mem Gops i hi)
  rw [hits_A_iff]
  constructor
  · rintro ⟨h, hh, he⟩
    have hmat : matrix_multiply3x3 (Gops.getD i malloc_op).mat h.mat =
        (Gops.getD k malloc_op).mat := by
      apply eq_of_encode_eq
      · rw [he, hkb]
      · rw [← hkb]; exact hke
    apply inLeftCoset_symm _ hgrp
    exact ⟨h.mat, List.mem_map.mpr ⟨h, List.mem_cons_of_mem _ hh, rfl⟩, hmat.symm⟩
  · intro hE
    obtain ⟨x, hx, hxe⟩ := inLeftCoset_symm _ hgrp _ _ hE
    obtain ⟨h, hh, rfl⟩ := List.mem_map.mp hx
    rcases List.mem_cons.mp hh with rfl | hh
    · exfalso
      rw [hH0, matrix_multiply3x3_identity] at hxe
      apply hik
      apply bcm_getD_injective Gops hGd i k hi hk
      rw [hib, hkb, hxe]
    · exact ⟨h, hh, by rw [← hxe, hkb]⟩

theorem coset_decomposition_A_eq_sieve (Gops : List symm_op) (h0 : symm_op)
    (Htail : List symm_op) (sG sH : symm_op) (hsG : sG.bcm = 0) (hsH : sH.bcm = 0)
    (hGb : ∀ g ∈ Gops, g.bcm ≠ 0) (hHb : ∀ h ∈ Htail, h.bcm ≠ 0) :
    coset_decomposition_A (Gops ++ [sG]) (h0 :: Htail ++ [sH]) =
      sieve (hits_A Htail) (Gops ++ [sG]).length Gops ++ [sG] :=
  A_loop_i_eq (h0 :: Htail ++ [sH]) Htail sH hsH [] rfl hHb sG hsG [] _ Gops hGb

theorem getD_append_sentinel (L : List symm_op) (s : symm_op) (k : Nat) (hk : k < L.length) :
    (L ++ [s]).getD k malloc_op = L.getD k malloc_op := by
  rw [List.getD_eq_getElem _ _ hk, List.getD_eq_getElem _ _ (by simp; omega),
    List.getElem_append_left hk]

/-- Final flags of algorithm A: an element stays active exactly when no earlier
element lies in its left coset. -/
theorem algorithm_A_flags (Gops : List symm_op) (h0 : symm_op)
    (Htail : List symm_op) (sG sH : symm_op) (hsG : sG.bcm = 0) (hsH : sH.bcm = 0)
    (hG : OperatorSet Gops) (hH : OperatorSet (h0 :: Htail))
    (hGd : (Gops.map (fun g => g.bcm)).Nodup)
    (hact : ∀ g ∈ Gops, g.truefalse = true)
    (hgrp : IsGroup (mats (h0 :: Htail))) (hH0 : h0.mat = identity_matrix)
    (k : Nat) (hk : k < Gops.length) :
    ((coset_decomposition_A (Gops ++ [sG]) (h0 :: Htail ++ [sH])).getD k malloc_op).truefalse
        = true ↔
      ¬ ∃ i, i < k ∧ InLeftCoset (h0 :: Htail) (Gops.getD i malloc_op).mat
        (Gops.getD k malloc_op).mat := by
  rw [coset_decomposition_A_eq_sieve Gops h0 Htail sG sH hsG hsH (fun g hg => (hG g hg).2.1)
    (fun h hh => (hH h (List.mem_cons_of_mem _ hh)).2.1),
    getD_append_sentinel _ _ _ (by rw [sieve_length]; exact hk)]
  apply sieve_first_in_class (hits_A Htail) Gops _ (by simp) hact
    (fun i k => InLeftCoset (h0 :: Htail) (Gops.getD i malloc_op).mat
      (Gops.getD k malloc_op).mat)
  · intro i k hik hk
    exact hits_A_iff_inLeftCoset Gops h0 Htail hG hGd hgrp hH0 i k (Nat.ne_of_lt hik)
      (Nat.lt_trans hik hk) hk
  · intro i j k _ _ _ h1 h2
    exact inLeftCoset_trans _ hgrp _ _ _ h1 h2
  · exact hk

/-- Among the positions whose element lies in the left coset of `g`, the
least one is active and no other one is. -/
theorem unique_active_of_first_in_class (H Gops : List symm_op) (hgrp : IsGroup (mats H))
    (final : Nat → Prop)
    (hfinal : ∀ k, k < Gops.length → (final k ↔ ¬ ∃ i, i < k ∧
      InLeftCoset H (Gops.getD i malloc_op).mat (Gops.getD k malloc_op).mat))
    (g : Mat3) (hg : g ∈ mats Gops) :
    ∃! k, k < Gops.length ∧ final k ∧ InLeftCoset H (Gops.getD k malloc_op).mat g := by
  classical
  obtain ⟨x, hx, rfl⟩ := List.mem_map.mp hg
  obtain ⟨m, hm, rfl⟩ := List.getElem_of_mem hx
  have hex : ∃ k, k < Gops.length ∧ InLeftCoset H (Gops.getD k malloc_op).mat Gops[m].mat :=
    ⟨m, hm, by rw [List.getD_eq_getElem _ _ hm]; exact inLeftCoset_refl H hgrp _⟩
  have hk0 := Nat.find_spec hex
  have hmin := fun i (hi : i < Nat.find hex) => Nat.find_min hex hi
  have hfin0 : final (Nat.find hex) := by
    rw [hfinal _ hk0.1]
    rintro ⟨i, hi, hE⟩
    exact hmin i hi ⟨Nat.lt_trans hi hk0.1, inLeftCoset_trans H hgrp _ _ _ hE hk0.2⟩
  refine ⟨Nat.find hex, ⟨hk0.1, hfin0, hk0.2⟩, ?_⟩
  rintro k ⟨hk, hfk, hEk⟩
  have hE1 : InLeftCoset H (Gops.getD k malloc_op).mat (Gops.getD (Nat.find hex) malloc_op).mat :=
    inLeftCoset_trans H hgrp _ _ _ hEk (inLeftCoset_symm H hgrp _ _ hk0.2)
  rcases Nat.lt_trichotomy k (Nat.find hex) with hlt | heq | hgt
  · exact absurd ⟨hk, hEk⟩ (hmin k hlt)
  · exact heq
  · exfalso
    exact (hfinal k hk).mp hfk ⟨_, hgt, inLeftCoset_symm H hgrp _ _ hE1⟩

theorem count_active_append_sentinel (s : symm_op) (hs : s.bcm = 0) (tl : List symm_op) :
    ∀ L : List symm_op, (∀ g ∈ L, g.bcm ≠ 0) →
      count_active (L ++ s :: tl) = (L.filter (fun g => g.truefalse)).length
  | [], _ => by simp [count_active, hs]
  | g :: L, h => by
    have hg : g.bcm ≠ 0 := h g (List.mem_cons_self _ _)
    have ih := count_active_append_sentinel s hs tl L (fun x hx => h x (List.mem_cons_of_mem _ hx))
    rw [List.cons_append, count_active, if_neg hg, ih, List.filter_cons]
    by_cases hf : g.truefalse = true
    · simp [hf, Nat.add_comm]
    · simp [hf]

theorem sieve_map_mat (R : Mat3 → Nat → Bool) :
    ∀ (n : Nat) (L : List symm_op), mats (sieve R n L) = mats L
  | 0, _ => rfl
  | _ + 1, [] => rfl
  | n + 1, g :: rest => by
    simp only [sieve, mats, List.map_cons]
    have := sieve_map_mat R n
      (if g.truefalse = true then rest.map (fun x => kill (R g.mat x.bcm) x) else rest)
    simp only [mats] at this
    rw [this]
    split_ifs <;> simp [Function.comp_def]

theorem sieve_map_bcm (R : Mat3 → Nat → Bool) :
    ∀ (n : Nat) (L : List symm_op),
      (sieve R n L).map (fun g => g.bcm) = L.map (fun g => g.bcm)
  | 0, _ => rfl
  | _ + 1, [] => rfl
  | n + 1, g :: rest => by
    simp only [sieve, List.map_cons]
    rw [sieve_map_bcm R n]
    split_ifs <;> simp [Function.comp_def]

theorem nodup_mats (L : List symm_op) (hL : OperatorSet L)
    (hd : (L.map (fun g => g.bcm)).Nodup) : (mats L).Nodup := by
  have : L.map (fun g => g.bcm) = (mats L).map encode_matrix := by
    simp only [mats, List.map_map]
    exact List.map_congr_left (fun g hg => (hL g hg).1)
  rw [this] at hd
  exact List.Nodup.of_map _ hd

theorem mul_left_cancel_of_group (M : List Mat3) (hM : IsGroup M) (r : Mat3) (hr : r ∈ M)
    (a b : Mat3) (h : matrix_multiply3x3 r a = matrix_multiply3x3 r b) : a = b := by
  obtain ⟨r', _, _, hinv⟩ := hM.2.2 r hr
  have := congrArg (matrix_multiply3x3 r') h
  rwa [← matrix_multiply3x3_assoc, ← matrix_multiply3x3_assoc, hinv,
    identity_matrix_multiply3x3, identity_matrix_multiply3x3] at this

/-- Counting: when exactly the first element of every left coset is kept, the
number of kept elements times `|H|` is `|G|`. -/
theorem card_representatives_mul (H Gops L : List symm_op)
    (hG : OperatorSet Gops) (hH : OperatorSet H)
    (hGd : (Gops.map (fun g => g.bcm)).Nodup) (hHd : (H.map (fun h => h.bcm)).Nodup)
    (hsub : IsSubgroupOf H Gops)
    (hlen : L.length = Gops.length)
    (hmat : ∀ k, (L.getD k malloc_op).mat = (Gops.getD k malloc_op).mat)
    (hfinal : ∀ k, k < Gops.length → ((L.getD k malloc_op).truefalse = true ↔ ¬ ∃ i, i < k ∧
      InLeftCoset H (Gops.getD i malloc_op).mat (Gops.getD k malloc_op).mat)) :
    Gops.length = (L.filter (fun g => g.truefalse)).length * H.length := by
  classical
  obtain ⟨hGgrp, hHgrp, hHG⟩ := hsub
  have hmatsL : mats L = mats Gops := by
    apply List.ext_getElem (by simp [mats, hlen])
    intro k h1 h2
    have hk : k < L.length := by simpa [mats] using h1
    have := hmat k
    rw [List.getD_eq_getElem _ _ hk, List.getD_eq_getElem _ _ (hlen ▸ hk)] at this
    simpa [mats] using this
  have hndG := nodup_mats Gops hG hGd
  have hndH := nodup_mats H hH hHd
  have hndR : ((L.filter (fun g => g.truefalse)).map (fun g => g.mat)).Nodup := by
    have hsubl : List.Sublist ((L.filter (fun g => g.truefalse)).map (fun g => g.mat))
        (L.map (fun g => g.mat)) := List.Sublist.map _ (List.filter_sublist _)
    have hndL : (mats L).Nodup := by rw [hmatsL]; exact hndG
    exact List.Nodup.sublist hsubl hndL
  -- membership in the set of kept matrices
  have hmemR : ∀ r, r ∈ (L.filter (fun g => g.truefalse)).map (fun g => g.mat) ↔
      ∃ k, k < Gops.length ∧ (L.getD k malloc_op).truefalse = true ∧
        (Gops.getD k malloc_op).mat = r := by
    intro r
    simp only [List.mem_map, List.mem_filter]
    constructor
    · rintro ⟨x, ⟨hx, hf⟩, rfl⟩
      obtain ⟨k, hk, rfl⟩ := List.getElem_of_mem hx
      refine ⟨k, hlen ▸ hk, ?_, ?_⟩
      · rw [List.getD_eq_getElem _ _ hk]; exact hf
      · rw [← hmat k, List.getD_eq_getElem _ _ hk]
    · rintro ⟨k, hk, hf, rfl⟩
      have hk' : k < L.length := hlen ▸ hk
      refine ⟨L.getD k malloc_op, ⟨?_, hf⟩, hmat k⟩
      rw [List.getD_eq_getElem _ _ hk']
      exact List.getElem_mem _
  have hRG : ∀ r, r ∈ (L.filter (fun g => g.truefalse)).map (fun g => g.mat) → r ∈ mats Gops := by
    intro r hr
    obtain ⟨k, hk, _, rfl⟩ := (hmemR r).mp hr
    exact List.mem_map.mpr ⟨_, getD_mem Gops k hk, rfl⟩
  -- the partition of G into the cosets of the kept elements
  have hcover : (mats Gops).toFinset =
      (((L.filter (fun g => g.truefalse)).map (fun g => g.mat)).toFinset).biUnion
        (fun r => (mats H).toFinset.image (matrix_multiply3x3 r)) := by
    ext g
    simp only [List.mem_toFinset, Finset.mem_biUnion, Finset.mem_image]
    constructor
    · intro hg
      obtain ⟨k, ⟨hk, hfk, hE⟩, _⟩ :=
        unique_active_of_first_in_class H Gops hHgrp
          (fun k => (L.getD k malloc_op).truefalse = true) hfinal g hg
      obtain ⟨h, hh, he⟩ := inLeftCoset_symm H hHgrp _ _ hE
      exact ⟨_, (hmemR _).mpr ⟨k, hk, hfk, rfl⟩, h, hh, he.symm⟩
    · rintro ⟨r, hr, h, hh, rfl⟩
      exact hGgrp.2.1 r (hRG r hr) h (hHG h hh)
  have hdisj : ∀ r1 ∈ ((L.filter (fun g => g.truefalse)).map (fun g => g.mat)).toFinset,
      ∀ r2 ∈ ((L.filter (fun g => g.truefalse)).map (fun g => g.mat)).toFinset, r1 ≠ r2 →
      Disjoint ((mats H).toFinset.image (matrix_multiply3x3 r1))
        ((mats H).toFinset.image (matrix_multiply3x3 r2)) := by
    intro r1 hr1 r2 hr2 hne
    rw [Finset.disjoint_left]
    intro x hx1 hx2
    simp only [List.mem_toFinset, Finset.mem_image] at hr1 hr2 hx1 hx2
    obtain ⟨h1, hh1, rfl⟩ := hx1
    obtain ⟨h2, hh2, he⟩ := hx2
    obtain ⟨k1, hk1, hf1, rfl⟩ := (hmemR r1).mp hr1
    obtain ⟨k2, hk2, hf2, rfl⟩ := (hmemR r2).mp hr2
    -- the two kept elements lie in one coset
    have hE12 : InLeftCoset H (Gops.getD k1 malloc_op).mat (Gops.getD k2 malloc_op).mat := by
      have a1 : InLeftCoset H (Gops.getD k1 malloc_op).mat
          (matrix_multiply3x3 (Gops.getD k1 malloc_op).mat h1) :=
        inLeftCoset_symm H hHgrp _ _ ⟨h1, hh1, rfl⟩
      have a2 : InLeftCoset H (matrix_multiply3x3 (Gops.getD k1 malloc_op).mat h1)
          (Gops.getD k2 malloc_op).mat := ⟨h2, hh2, he.symm⟩
      exact inLeftCoset_trans H hHgrp _ _ _ a1 a2
    rcases Nat.lt_trichotomy k1 k2 with hlt | heq | hgt
    · exact (hfinal k2 hk2).mp hf2 ⟨k1, hlt, hE12⟩
    · exact hne (by rw [heq])
    · exact (hfinal k1 hk1).mp hf1 ⟨k2, hgt, inLeftCoset_symm H hHgrp _ _ hE12⟩
  have hcard : ∀ r ∈ ((L.filter (fun g => g.truefalse)).map (fun g => g.mat)).toFinset,
      ((mats H).toFinset.image (matrix_multiply3x3 r)).card = H.length := by
    intro r hr
    rw [Finset.card_image_of_injOn, List.toFinset_card_of_nodup hndH]
    · simp [mats]
    · intro a _ b _ hab
      exact mul_left_cancel_of_group (mats Gops) hGgrp r (hRG r (List.mem_toFinset.mp hr)) a b hab
  have hcount : Gops.length = (L.filter (fun g => g.truefalse)).length * H.length := by
    have h1 : ((mats Gops).toFinset).card = Gops.length := by
      rw [List.toFinset_card_of_nodup hndG]; simp [mats]
    rw [← h1, hcover, Finset.card_biUnion hdisj, Finset.sum_congr rfl hcard, Finset.sum_const,
      List.toFinset_card_of_nodup hndR, smul_eq_mul, List.length_map]
  exact hcount

/-- Counting: when exactly the first element of every left coset is kept, the
kept elements number `|G| / |H|`. -/
theorem card_representatives (H Gops L : List symm_op)
    (hG : OperatorSet Gops) (hH : OperatorSet H)
    (hGd : (Gops.map (fun g => g.bcm)).Nodup) (hHd : (H.map (fun h => h.bcm)).Nodup)
    (hsub : IsSubgroupOf H Gops)
    (hlen : L.length = Gops.length)
    (hmat : ∀ k, (L.getD k malloc_op).mat = (Gops.getD k malloc_op).mat)
    (hfinal : ∀ k, k < Gops.length → ((L.getD k malloc_op).truefalse = true ↔ ¬ ∃ i, i < k ∧
      InLeftCoset H (Gops.getD i malloc_op).mat (Gops.getD k malloc_op).mat)) :
    (L.filter (fun g => g.truefalse)).length = Gops.length / H.length := by
  have hcount := card_representatives_mul H Gops L hG hH hGd hHd hsub hlen hmat hfinal
  have hpos : 0 < H.length := by
    have : identity_matrix ∈ mats H := hsub.2.1.1
    exact List.length_pos_of_mem (List.mem_map.mp this).choose_spec.1
  exact (Nat.div_eq_of_eq_mul_left hpos hcount).symm

/-- Claim C1. Algorithm A yields a system of left-coset representatives: for an
operator set G with pairwise distinct fingerprints and all flags active, and an
operator set H that is a subgroup of G with H[0] the identity, after
coset_decomposition_A(G, H) the element G[k] is active if and only if no earlier
element G[i] (i < k) lies in the left coset G[k]·H; exactly one element of each
left coset is active, and the number of active elements is |G| / |H|. -/
theorem algorithm_A_left_coset_representatives
    (Gops Hops : List symm_op) (sG sH : symm_op) (hsG : sG.bcm = 0) (hsH : sH.bcm = 0)
    (hG : OperatorSet Gops) (hH : OperatorSet Hops)
    (hGd : (Gops.map (fun g => g.bcm)).Nodup) (hHd : (Hops.map (fun h => h.bcm)).Nodup)
    (hact : ∀ g ∈ Gops, g.truefalse = true)
    (hsub : IsSubgroupOf Hops Gops)
    (hH0 : (Hops.getD 0 malloc_op).mat = identity_matrix) :
    (∀ k, k < Gops.length →
      (((coset_decomposition_A (Gops ++ [sG]) (Hops ++ [sH])).getD k malloc_op).truefalse = true ↔
        ¬ ∃ i, i < k ∧
          InLeftCoset Hops (Gops.getD i malloc_op).mat (Gops.getD k malloc_op).mat)) ∧
    (∀ g ∈ Gops, ∃! k, k < Gops.length ∧
      ((coset_decomposition_A (Gops ++ [sG]) (Hops ++ [sH])).getD k malloc_op).truefalse = true ∧
      InLeftCoset Hops (Gops.getD k malloc_op).mat g.mat) ∧
    count_active (coset_decomposition_A (Gops ++ [sG]) (Hops ++ [sH])) =
      Gops.length / Hops.length := by
  cases Hops with
  | nil => exact absurd hsub.2.1.1 (by simp [mats])
  | cons h0 Htail =>
    have hH0' : h0.mat = identity_matrix := by simpa using hH0
    have hflags := algorithm_A_flags Gops h0 Htail sG sH hsG hsH hG hH hGd hact hsub.2.1 hH0'
    refine ⟨hflags, ?_, ?_⟩
    · intro g hg
      exact unique_active_of_first_in_class (h0 :: Htail) Gops hsub.2.1 _ hflags g.mat
        (List.mem_map.mpr ⟨g, hg, rfl⟩)
    · have hGb : ∀ g ∈ Gops, g.bcm ≠ 0 := fun g hg => (hG g hg).2.1
      have hHb : ∀ h ∈ Htail, h.bcm ≠ 0 := fun h hh => (hH h (List.mem_cons_of_mem _ hh)).2.1
      have hsv := coset_decomposition_A_eq_sieve Gops h0 Htail sG sH hsG hsH hGb hHb
      have hbs : ∀ g ∈ sieve (hits_A Htail) (Gops ++ [sG]).length Gops, g.bcm ≠ 0 := by
        intro g hg
        have h1 : g.bcm ∈ (sieve (hits_A Htail) (Gops ++ [sG]).length Gops).map
            (fun g => g.bcm) := List.mem_map.mpr ⟨g, hg, rfl⟩
        rw [sieve_map_bcm] at h1
        obtain ⟨x, hx, hxe⟩ := List.mem_map.mp h1
        rw [← hxe]
        exact hGb x hx
      rw [hsv, count_active_append_sentinel sG hsG [] _ hbs]
      apply card_representatives (h0 :: Htail) Gops _ hG hH hGd hHd hsub (sieve_length _ _ _)
      · intro k
        exact (sieve_getD (hits_A Htail) _ Gops k (by simp)).1
      · intro k hk
        have := hflags k hk
        rwa [hsv, getD_append_sentinel _ _ _ (by rw [sieve_length]; exact hk)] at this

theorem algorithm_A_left_coset_representatives_witness :
    sentinel.bcm = 0 ∧ OperatorSet (catalog_ops 2) ∧ OperatorSet (catalog_ops 1) ∧
    ((catalog_ops 2).map (fun g => g.bcm)).Nodup ∧ ((catalog_ops 1).map (fun h => h.bcm)).Nodup ∧
    (∀ g ∈ catalog_ops 2, g.truefalse = true) ∧ IsSubgroupOf (catalog_ops 1) (catalog_ops 2) ∧
    ((catalog_ops 1).getD 0 malloc_op).mat = identity_matrix ∧
    count_active (coset_decomposition_A (catalog_ops 2 ++ [sentinel])
      (catalog_ops 1 ++ [sentinel])) = (catalog_ops 2).length / (catalog_ops 1).length :=
  ⟨by decide!, by decide!, by decide!, by decide!, by decide!, by decide!, by decide!, by decide!,
    (algorithm_A_left_coset_representatives (catalog_ops 2) (catalog_ops 1) sentinel sentinel
      (by decide!) (by decide!) (by decide!) (by decide!) (by decide!) (by decide!) (by decide!)
      (by decide!) (by decide!)).2.2⟩

/-! ## Algorithm B against algorithm A -/

theorem count_ops_append_sentinel (s : symm_op) (hs : s.bcm = 0) (tl : List symm_op) :
    ∀ L : List symm_op, (∀ g ∈ L, g.bcm ≠ 0) → count_ops (L ++ s :: tl) = L.length
  | [], _ => by simp [count_ops, hs]
  | g :: L, h => by
    have hg : g.bcm ≠ 0 := h g (List.mem_cons_self _ _)
    rw [List.cons_append, count_ops, if_neg hg,
      count_ops_append_sentinel s hs tl L (fun x hx => h x (List.mem_cons_of_mem _ hx)),
      List.length_cons]

theorem is_centric_append_sentinel (s : symm_op) (hs : s.bcm = 0) (tl : List symm_op) :
    ∀ L : List symm_op, (∀ g ∈ L, g.bcm ≠ 0) →
      (is_centric (L ++ s :: tl) = 1 ↔ ∃ g ∈ L, g.bcm = INVERSION_BCM)
  | [], _ => by simp [is_centric, hs]
  | g :: L, h => by
    have hg : g.bcm ≠ 0 := h g (List.mem_cons_self _ _)
    have ih := is_centric_append_sentinel s hs tl L (fun x hx => h x (List.mem_cons_of_mem _ hx))
    rw [List.cons_append, is_centric, if_neg hg]
    by_cases hc : INVERSION_BCM = g.bcm
    · simp [hc]
    · rw [if_neg hc, ih]
      simp [Ne.symm hc]

theorem B_turn_off_eq (s : symm_op) (hs : s.bcm = 0) (tl : List symm_op) :
    ∀ L : List symm_op, (∀ g ∈ L, g.bcm ≠ 0) →
      B_turn_off (L ++ s :: tl) = L.map set_false ++ s :: tl
  | [], _ => by simp [B_turn_off, hs]
  | g :: L, h => by
    have hg : g.bcm ≠ 0 := h g (List.mem_cons_self _ _)
    rw [List.cons_append, B_turn_off, if_neg hg,
      B_turn_off_eq s hs tl L (fun x hx => h x (List.mem_cons_of_mem _ hx)), List.map_cons,
      List.cons_append]

theorem B_loop_k_eq (pos neg : Nat) (tl : List symm_op) :
    ∀ (n : Nat) (L : List symm_op), L.length = n →
      B_loop_k pos neg n (L ++ tl) =
        L.map (fun x => kill (decide (pos = x.bcm ∨ neg = x.bcm)) x) ++ tl
  | 0, L, h => by
    have : L = [] := List.length_eq_zero.mp h
    subst this
    simp [B_loop_k]
  | n + 1, [], h => by simp at h
  | n + 1, g :: L, h => by
    have hL : L.length = n := by simpa using h
    rw [List.cons_append, B_loop_k, B_loop_k_eq pos neg tl n L hL, List.map_cons,
      List.cons_append]
    simp only [kill, decide_eq_true_eq]

theorem B_loop_j_eq (gi : symm_op) (n : Nat) (tl : List symm_op) :
    ∀ (Hgen L : List symm_op), L.length = n →
      B_loop_j gi n Hgen (L ++ tl) =
        L.map (fun x => kill (hits_B Hgen gi.mat x.bcm) x) ++ tl
  | [], L, _ => by simp [B_loop_j, hits_B, kill_false]
  | h :: Hgen, L, hL => by
    rw [B_loop_j]
    simp only [B_loop_k_eq _ _ tl n L hL]
    rw [B_loop_j_eq gi n tl Hgen _ (by simpa using hL), List.map_map]
    congr 1
    apply List.map_congr_left
    intro x _
    simp only [Function.comp, kill_kill, kill_bcm, hits_B, List.any_cons]

theorem B_loop_i_eq (Hgen : List symm_op) (tl : List symm_op) :
    ∀ (n : Nat) (L : List symm_op), L.length = n →
      B_loop_i Hgen n (L ++ tl) = sieve (hits_B Hgen) n L ++ tl
  | 0, L, h => by
    have : L = [] := List.length_eq_zero.mp h
    subst this
    simp [B_loop_i, sieve]
  | n + 1, [], h => by simp at h
  | n + 1, g :: L, h => by
    have hL : L.length = n := by simpa using h
    rw [List.cons_append, B_loop_i, sieve]
    by_cases hf : g.truefalse = true
    · simp only [if_pos hf, B_loop_j_eq g n tl Hgen L hL]
      rw [B_loop_i_eq Hgen tl n _ (by simpa using hL), List.cons_append]
    · simp only [if_neg hf]
      rw [B_loop_i_eq Hgen tl n L hL, List.cons_append]

theorem negate_matrix_apply (m : Mat3) (i j : Fin 3) : negate_matrix m i j = -(m i j) := by
  unfold negate_matrix
  by_cases h : m i j = 0
  · simp [h, (is_zero_iff 0).mpr rfl]
  · have : is_zero (m i j) = false := by
      rw [Bool.eq_false_iff]; exact fun hz => h ((is_zero_iff _).mp hz)
    simp [this]

theorem matrix_multiply3x3_negate (a b : Mat3) :
    matrix_multiply3x3 a (negate_matrix b) = negate_matrix (matrix_multiply3x3 a b) := by
  funext i j
  simp only [matrix_multiply3x3, negate_matrix_apply]
  ring

theorem matrix_multiply3x3_negate_identity (a : Mat3) :
    matrix_multiply3x3 a (negate_matrix identity_matrix) = negate_matrix a := by
  rw [matrix_multiply3x3_negate, matrix_multiply3x3_identity]

theorem negate_negate (a : Mat3) : negate_matrix (negate_matrix a) = a := by
  funext i j
  simp only [negate_matrix_apply, neg_neg]

theorem mem_generators_iff (L : List symm_op) (m : Nat) (h : symm_op) :
    h ∈ (L.take m).drop 1 ↔
      ∃ j, 1 ≤ j ∧ j < m ∧ j < L.length ∧ L.getD j malloc_op = h := by
  constructor
  · intro hh
    obtain ⟨j, hj, rfl⟩ := List.getElem_of_mem hh
    have hj' : j < ((L.take m).length - 1) := by simpa using hj
    have hlt : j + 1 < (L.take m).length := by omega
    have hlt2 : j + 1 < m ∧ j + 1 < L.length := by
      rw [List.length_take] at hlt; omega
    refine ⟨j + 1, by omega, hlt2.1, hlt2.2, ?_⟩
    rw [List.getD_eq_getElem _ _ hlt2.2]
    simp [List.getElem_drop, List.getElem_take, Nat.add_comm]
  · rintro ⟨j, hj1, hjm, hjL, rfl⟩
    rw [List.getD_eq_getElem _ _ hjL]
    have hlt : j - 1 < ((L.take m).drop 1).length := by
      simp only [List.length_drop, List.length_take]; omega
    have : ((L.take m).drop 1)[j - 1] = L[j] := by
      simp only [List.getElem_drop, List.getElem_take]
      congr 1; omega
    rw [← this]
    exact List.getElem_mem _

theorem hits_B_iff (Hgen : List symm_op) (gm : Mat3) (b : Nat) :
    hits_B Hgen gm b = true ↔
      ∃ h ∈ Hgen, encode_matrix (matrix_multiply3x3 gm h.mat) = b ∨
        encode_matrix (negate_matrix (matrix_multiply3x3 gm h.mat)) = b := by
  simp [hits_B, List.any_eq_true]

/-- For distinct positions in the first half of a canonically ordered operator
set, the test of algorithm B with the generators `H[1 .. |H|/2 - 1]` of a
canonically ordered group `H` is membership in the same left coset of `H`. -/
theorem hits_B_iff_inLeftCoset (Gops Hops : List symm_op)
    (hG : OperatorSet Gops) (hGd : (Gops.map (fun g => g.bcm)).Nodup)
    (hGc : CanonicalOrder Gops) (hHc : CanonicalOrder Hops)
    (hgrp : IsGroup (mats Hops)) (hH0 : (Hops.getD 0 malloc_op).mat = identity_matrix)
    (i k : Nat) (hik : i ≠ k) (hi : i < Gops.length / 2) (hk : k < Gops.length / 2) :
    hits_B ((Hops.take (Hops.length / 2)).drop 1) (Gops.getD i malloc_op).mat
        (Gops.getD k malloc_op).bcm = true ↔
      InLeftCoset Hops (Gops.getD i malloc_op).mat (Gops.getD k malloc_op).mat := by
  have hi' : i < Gops.length := by omega
  have hk' : k < Gops.length := by omega
  obtain ⟨hkb, _, hke⟩ := hG _ (getD_mem Gops k hk')
  obtain ⟨hib, _, _⟩ := hG _ (getD_mem Gops i hi')
  have hke' : encode_matrix (Gops.getD k malloc_op).mat ≠ BCM_ERROR := by rw [← hkb]; exact hke
  rw [hits_B_iff]
  constructor
  · rintro ⟨h, hh, he⟩
    obtain ⟨j, hj1, hjm, hjL, rfl⟩ := (mem_generators_iff Hops _ h).mp hh
    apply inLeftCoset_symm _ hgrp
    rcases he with he | he
    · have hmat := eq_of_encode_eq _ _ (he.trans hkb) hke'
      exact ⟨_, List.mem_map.mpr ⟨_, getD_mem Hops j hjL, rfl⟩, hmat.symm⟩
    · have hmat := eq_of_encode_eq _ _ (he.trans hkb) hke'
      rw [← matrix_multiply3x3_negate, ← hHc.2 j hjm] at hmat
      have hlt : Hops.length / 2 + j < Hops.length := by have := hHc.1; omega
      exact ⟨_, List.mem_map.mpr ⟨_, getD_mem Hops _ hlt, rfl⟩, hmat.symm⟩
  · intro hE
    obtain ⟨x, hx, hxe⟩ := inLeftCoset_symm _ hgrp _ _ hE
    obtain ⟨h, hh, rfl⟩ := List.mem_map.mp hx
    obtain ⟨j, hj, rfl⟩ := List.getElem_of_mem hh
    rw [← List.getD_eq_getElem _ malloc_op hj] at hxe
    by_cases hjm : j < Hops.length / 2
    · rcases Nat.eq_zero_or_pos j with rfl | hpos
      · exfalso
        rw [hH0, matrix_multiply3x3_identity] at hxe
        exact hik (bcm_getD_injective Gops hGd i k hi' hk' (by rw [hib, hkb, hxe]))
      · refine ⟨Hops.getD j malloc_op, (mem_generators_iff Hops _ _).mpr ⟨j, hpos, hjm, hj, rfl⟩,
          Or.inl ?_⟩
        rw [← hxe, hkb]
    · have hj2 : j = Hops.length / 2 + (j - Hops.length / 2) := by omega
      have hjm' : j - Hops.length / 2 < Hops.length / 2 := by have := hHc.1; omega
      rw [hj2, hHc.2 _ hjm'] at hxe
      rcases Nat.eq_zero_or_pos (j - Hops.length / 2) with h0 | hpos
      · exfalso
        rw [h0, hH0, matrix_multiply3x3_negate_identity, ← hGc.2 i hi] at hxe
        have hlt : Gops.length / 2 + i < Gops.length := by have := hGc.1; omega
        obtain ⟨hib', _, _⟩ := hG _ (getD_mem Gops _ hlt)
        have := bcm_getD_injective Gops hGd k _ hk' hlt (by rw [hkb, hib', hxe])
        omega
      · refine ⟨Hops.getD (j - Hops.length / 2) malloc_op,
          (mem_generators_iff Hops _ _).mpr ⟨_, hpos, hjm', by omega, rfl⟩, Or.inr ?_⟩
        rw [← matrix_multiply3x3_negate, ← hxe, hkb]

theorem B_H_count_centric (Hops : List symm_op) (sH : symm_op) (hsH : sH.bcm = 0)
    (hHb : ∀ h ∈ Hops, h.bcm ≠ 0) (hcen : is_centric (Hops ++ [sH]) = Centric) :
    B_H_count (Hops ++ [sH]) = count_ops (Hops ++ [sH]) / 2 ∧
      count_ops (Hops ++ [sH]) = Hops.length := by
  unfold B_H_count
  rw [hcen, if_pos rfl, count_ops_append_sentinel sH hsH [] Hops hHb]
  exact ⟨rfl, rfl⟩

theorem coset_decomposition_B_centric_eq (Gops Hops : List symm_op) (sG sH : symm_op)
    (hsG : sG.bcm = 0) (hsH : sH.bcm = 0) (hGb : ∀ g ∈ Gops, g.bcm ≠ 0)
    (hHb : ∀ h ∈ Hops, h.bcm ≠ 0) (hcen : is_centric (Hops ++ [sH]) = Centric) (ext : Bool) :
    coset_decomposition_B ext (Gops ++ [sG]) (Hops ++ [sH]) =
      sieve (hits_B ((Hops.take (Hops.length / 2)).drop 1)) (Gops.length / 2)
          (Gops.take (Gops.length / 2)) ++
        ((Gops.drop (Gops.length / 2)).map set_false ++ [sG]) := by
  obtain ⟨hc1, hc2⟩ := B_H_count_centric Hops sH hsH hHb hcen
  have hnot : ¬ (ext = true ∧ Acentric = is_centric (Hops ++ [sH])) := by
    rw [hcen]; rintro ⟨_, h⟩; exact absurd h (by decide)
  unfold coset_decomposition_B
  simp only [if_neg hnot, hc1, hc2, B_G_count, count_ops_append_sentinel sG hsG [] Gops hGb]
  rw [List.take_append_of_le_length (Nat.div_le_self _ _),
    List.take_append_of_le_length (Nat.div_le_self _ _),
    List.drop_append_of_le_length (Nat.div_le_self _ _),
    B_turn_off_eq sG hsG [] _ (fun g hg => hGb g (List.mem_of_mem_drop hg)),
    B_loop_i_eq _ _ _ _ (by simp [Nat.div_le_self])]

theorem getD_take_of_lt (L : List symm_op) (m k : Nat) (hk : k < m) :
    (L.take m).getD k malloc_op = L.getD k malloc_op := by
  simp only [List.getD_eq_getElem?_getD, List.getElem?_take, if_pos hk]

theorem count_active_congr (s : symm_op) (hs : s.bcm = 0) (L1 L2 : List symm_op)
    (h1 : ∀ g ∈ L1, g.bcm ≠ 0) (h2 : ∀ g ∈ L2, g.bcm ≠ 0) (hlen : L1.length = L2.length)
    (hf : ∀ k, k < L1.length →
      (L1.getD k malloc_op).truefalse = (L2.getD k malloc_op).truefalse) :
    count_active (L1 ++ [s]) = count_active (L2 ++ [s]) := by
  rw [count_active_append_sentinel s hs [] L1 h1, count_active_append_sentinel s hs [] L2 h2]
  have hmap : L1.map (fun g => g.truefalse) = L2.map (fun g => g.truefalse) := by
    apply List.ext_getElem (by simp [hlen])
    intro k hk1 hk2
    have hk : k < L1.length := by simpa using hk1
    have := hf k hk
    rw [List.getD_eq_getElem _ _ hk, List.getD_eq_getElem _ _ (hlen ▸ hk)] at this
    simpa using this
  have key : ∀ L : List symm_op, (L.filter (fun g => g.truefalse)).length =
      ((L.map (fun g => g.truefalse)).filter id).length := by
    intro L
    rw [List.filter_map, List.length_map]
    rfl
  rw [key L1, key L2, hmap]

/-- On canonically ordered operator sets with a centric group `H`, algorithm B
leaves the same number of elements active as algorithm A. -/
theorem count_B_eq_count_A (Gops Hops : List symm_op) (sG sH : symm_op)
    (hsG : sG.bcm = 0) (hsH : sH.bcm = 0)
    (hG : OperatorSet Gops) (hH : OperatorSet Hops)
    (hGd : (Gops.map (fun g => g.bcm)).Nodup)
    (hact : ∀ g ∈ Gops, g.truefalse = true)
    (hGc : CanonicalOrder Gops) (hHc : CanonicalOrder Hops)
    (hgrp : IsGroup (mats Hops)) (hH0 : (Hops.getD 0 malloc_op).mat = identity_matrix)
    (hcen : is_centric (Hops ++ [sH]) = Centric) (ext : Bool) :
    count_active (coset_decomposition_B ext (Gops ++ [sG]) (Hops ++ [sH])) =
      count_active (coset_decomposition_A (Gops ++ [sG]) (Hops ++ [sH])) := by
  have hGb : ∀ g ∈ Gops, g.bcm ≠ 0 := fun g hg => (hG g hg).2.1
  have hHb : ∀ h ∈ Hops, h.bcm ≠ 0 := fun h hh => (hH h hh).2.1
  have hB := coset_decomposition_B_centric_eq Gops Hops sG sH hsG hsH hGb hHb hcen ext
  cases hHops : Hops with
  | nil => rw [hHops] at hgrp; exact absurd hgrp.1 (by simp [mats])
  | cons h0 Htail =>
    rw [← hHops]
    have hH0' : h0.mat = identity_matrix := by rw [hHops] at hH0; simpa using hH0
    have hA := coset_decomposition_A_eq_sieve Gops h0 Htail sG sH hsG hsH hGb
      (fun h hh => hHb h (by rw [hHops]; exact List.mem_cons_of_mem _ hh))
    have hAflags := fun k hk => algorithm_A_flags Gops h0 Htail sG sH hsG hsH hG
      (hHops ▸ hH) hGd hact (hHops ▸ hgrp) hH0' k hk
    rw [← hHops] at hA hAflags
    rw [hB, hA, ← List.append_assoc]
    have hmG : Gops.length / 2 ≤ Gops.length := Nat.div_le_self _ _
    have hlenF : (Gops.take (Gops.length / 2)).length = Gops.length / 2 := by
      rw [List.length_take]; omega
    have hbcm_of : ∀ (R : Mat3 → Nat → Bool) (n : Nat) (L : List symm_op),
        (∀ g ∈ L, g.bcm ≠ 0) → ∀ g ∈ sieve R n L, g.bcm ≠ 0 := by
      intro R n L hL g hg
      have h1 : g.bcm ∈ (sieve R n L).map (fun g => g.bcm) := List.mem_map.mpr ⟨g, hg, rfl⟩
      rw [sieve_map_bcm] at h1
      obtain ⟨x, hx, hxe⟩ := List.mem_map.mp h1
      rw [← hxe]
      exact hL x hx
    apply count_active_congr sG hsG
    · intro g hg
      rcases List.mem_append.mp hg with hg | hg
      · exact hbcm_of _ _ _ (fun x hx => hGb x (List.mem_of_mem_take hx)) g hg
      · obtain ⟨x, hx, rfl⟩ := List.mem_map.mp hg
        exact hGb x (List.mem_of_mem_drop hx)
    · exact hbcm_of _ _ _ hGb
    · simp only [List.length_append, sieve_length, List.length_map, List.length_take,
        List.length_drop]
      omega
    · intro k hk
      have hkG : k < Gops.length := by
        simp only [List.length_append, sieve_length, List.length_map, List.length_take,
          List.length_drop] at hk
        omega
      have hAk := hAflags k hkG
      rw [hA, getD_append_sentinel _ _ _ (by rw [sieve_length]; exact hkG)] at hAk
      by_cases hlt : k < Gops.length / 2
      · -- first half: both sieves keep the first element of each coset
        rw [List.getD_append _ _ _ _ (by rw [sieve_length, hlenF]; exact hlt)]
        have hBk := sieve_first_in_class (hits_B ((Hops.take (Hops.length / 2)).drop 1))
          (Gops.take (Gops.length / 2)) (Gops.length / 2) (by rw [hlenF])
          (fun g hg => hact g (List.mem_of_mem_take hg))
          (fun i k => InLeftCoset Hops (Gops.getD i malloc_op).mat (Gops.getD k malloc_op).mat)
          (by
            intro i k hik hk
            rw [hlenF] at hk
            rw [getD_take_of_lt _ _ _ hk, getD_take_of_lt _ _ _ (Nat.lt_trans hik hk)]
            exact hits_B_iff_inLeftCoset Gops Hops hG hGd hGc hHc hgrp hH0 i k
              (Nat.ne_of_lt hik) (Nat.lt_trans hik hk) hk)
          (fun i j k _ _ _ h1 h2 => inLeftCoset_trans _ hgrp _ _ _ h1 h2)
          k (by rw [hlenF]; exact hlt)
        rw [Bool.eq_iff_iff, hBk, hAk]
      · -- second half: switched off by B, and A finds the partner in the first half
        have hge : Gops.length / 2 ≤ k := Nat.le_of_not_lt hlt
        rw [List.getD_append_right _ _ _ _ (by rw [sieve_length, hlenF]; exact hge)]
        have hBfalse : ((List.map set_false (List.drop (Gops.length / 2) Gops)).getD
            (k - (sieve (hits_B ((Hops.take (Hops.length / 2)).drop 1)) (Gops.length / 2)
              (Gops.take (Gops.length / 2))).length) malloc_op).truefalse = false := by
          rw [List.getD_eq_getElem?_getD, List.getElem?_map]
          cases (List.drop (Gops.length / 2) Gops)[k - (sieve (hits_B
            ((Hops.take (Hops.length / 2)).drop 1)) (Gops.length / 2)
              (Gops.take (Gops.length / 2))).length]? <;> rfl
        rw [hBfalse]
        symm
        rw [Bool.eq_false_iff]
        intro hAtrue
        apply hAk.mp hAtrue
        have hkm : k - Gops.length / 2 < Gops.length / 2 := by have := hGc.1; omega
        refine ⟨k - Gops.length / 2, by have := hGc.1; omega, ?_⟩
        have hkk : k = Gops.length / 2 + (k - Gops.length / 2) := by omega
        have hmH : 0 < Hops.length / 2 := by
          have h1 : 0 < Hops.length := by rw [hHops]; simp
          have := hHc.1; omega
        have hinv := hHc.2 0 hmH
        rw [hH0, Nat.add_zero] at hinv
        refine ⟨_, List.mem_map.mpr ⟨_, getD_mem Hops (Hops.length / 2)
          (by have := hHc.1; omega), rfl⟩, ?_⟩
        rw [hinv, matrix_multiply3x3_negate_identity]
        conv_rhs => rw [hkk]
        rw [hGc.2 _ hkm, negate_negate]

theorem catalog_facts : ∀ pg ∈ supported_point_groups,
    (select_symm_ops pg).1 = some (catalog_ops pg ++ [sentinel]) ∧
    OperatorSet (catalog_ops pg) ∧ ((catalog_ops pg).map (fun g => g.bcm)).Nodup ∧
    (∀ g ∈ catalog_ops pg, g.truefalse = true) ∧ CanonicalOrder (catalog_ops pg) := by
  decide!

/-- Claim C10, as stated, fails: for the catalog supergroup of point group 2
(`I, A, -I, -A`) and the operator set `I, -I, A, -A`, a subgroup of it that
contains the inversion and starts with the identity, algorithm A leaves 1
element active and algorithm B leaves 2. -/
theorem algorithm_B_differs_on_reordered_subgroup :
    (2 : Int) ∈ supported_point_groups ∧
    (select_symm_ops 2).1 = some (catalog_ops 2 ++ [sentinel]) ∧
    OperatorSet reordered_pg2 ∧ IsSubgroupOf reordered_pg2 (catalog_ops 2) ∧
    (reordered_pg2.getD 0 malloc_op).mat = identity_matrix ∧
    is_centric (reordered_pg2 ++ [sentinel]) = Centric ∧
    count_active (coset_decomposition_A (catalog_ops 2 ++ [sentinel])
      (reordered_pg2 ++ [sentinel])) = 1 ∧
    ∀ ext : Bool, count_active (coset_decomposition_B ext (catalog_ops 2 ++ [sentinel])
      (reordered_pg2 ++ [sentinel])) = 2 := by
  decide!

/-- Claim C10, amended. For every catalog supergroup G and every operator set H
(first element the identity) that is a subgroup of G, contains the inversion
and is listed in the canonical order of the catalog (|H| even and
H[|H|/2 + j] the negation of H[j]), coset_decomposition_B uses the loop bound
H_count = |H| / 2, so it iterates over the generators H[1] .. H[|H|/2 - 1], and
it leaves as many elements of G active as coset_decomposition_A. -/
theorem algorithm_B_agrees_with_A_on_centric (pg : Int) (hpg : pg ∈ supported_point_groups)
    (Hops : List symm_op) (sH : symm_op) (hsH : sH.bcm = 0) (hH : OperatorSet Hops)
    (hsub : IsSubgroupOf Hops (catalog_ops pg))
    (hH0 : (Hops.getD 0 malloc_op).mat = identity_matrix)
    (hcen : is_centric (Hops ++ [sH]) = Centric) (hHc : CanonicalOrder Hops) :
    (select_symm_ops pg).1 = some (catalog_ops pg ++ [sentinel]) ∧
    B_H_count (Hops ++ [sH]) = count_ops (Hops ++ [sH]) / 2 ∧
    count_ops (Hops ++ [sH]) = Hops.length ∧
    ∀ ext : Bool,
      count_active (coset_decomposition_B ext (catalog_ops pg ++ [sentinel]) (Hops ++ [sH])) =
        count_active (coset_decomposition_A (catalog_ops pg ++ [sentinel]) (Hops ++ [sH])) := by
  obtain ⟨hsel, hG, hGd, hact, hGc⟩ := catalog_facts pg hpg
  obtain ⟨hc1, hc2⟩ := B_H_count_centric Hops sH hsH (fun h hh => (hH h hh).2.1) hcen
  exact ⟨hsel, hc1, hc2, fun ext =>
    count_B_eq_count_A (catalog_ops pg) Hops sentinel sH rfl hsH hG hH hGd hact hGc hHc
      hsub.2.1 hH0 hcen ext⟩

theorem algorithm_B_agrees_with_A_on_centric_witness :
    (222 : Int) ∈ supported_point_groups ∧ sentinel.bcm = 0 ∧ OperatorSet (catalog_ops 2) ∧
    IsSubgroupOf (catalog_ops 2) (catalog_ops 222) ∧
    ((catalog_ops 2).getD 0 malloc_op).mat = identity_matrix ∧
    is_centric (catalog_ops 2 ++ [sentinel]) = Centric ∧ CanonicalOrder (catalog_ops 2) ∧
    B_H_count (catalog_ops 2 ++ [sentinel]) = count_ops (catalog_ops 2 ++ [sentinel]) / 2 ∧
    ∀ ext : Bool,
      count_active (coset_decomposition_B ext (catalog_ops 222 ++ [sentinel])
        (catalog_ops 2 ++ [sentinel])) =
      count_active (coset_decomposition_A (catalog_ops 222 ++ [sentinel])
        (catalog_ops 2 ++ [sentinel])) :=
  ⟨by decide!, by decide!, by decide!, by decide!, by decide!, by decide!, by decide!,
    (algorithm_B_agrees_with_A_on_centric 222 (by decide!) (catalog_ops 2) sentinel (by decide!)
      (by decide!) (by decide!) (by decide!) (by decide!) (by decide!)).2.1,
    (algorithm_B_agrees_with_A_on_centric 222 (by decide!) (catalog_ops 2) sentinel (by decide!)
      (by decide!) (by decide!) (by decide!) (by decide!) (by decide!)).2.2.2⟩

/-! ## Extended algorithm B on acentric subgroups -/

@[simp] theorem revive_bcm (c : Bool) (g : symm_op) : (revive c g).bcm = g.bcm := by
  unfold revive set_true; split_ifs <;> rfl

theorem revive_truefalse (c : Bool) (g : symm_op) :
    (revive c g).truefalse = (g.truefalse || c) := by
  unfold revive set_true; cases c <;> simp

theorem revive_false (g : symm_op) : revive false g = g := rfl

theorem revive_revive (c1 c2 : Bool) (g : symm_op) :
    revive c2 (revive c1 g) = revive (c1 || c2) g := by
  cases c1 <;> cases c2 <;> rfl

theorem B_ext_mark_eq (b : Nat) (s : symm_op) (hs : s.bcm = 0) (tl : List symm_op) :
    ∀ L : List symm_op, (∀ g ∈ L, g.bcm ≠ 0) →
      B_ext_mark b (L ++ s :: tl) = L.map (fun x => revive (decide (b = x.bcm)) x) ++ s :: tl
  | [], _ => by simp [B_ext_mark, hs]
  | g :: L, h => by
    have hg : g.bcm ≠ 0 := h g (List.mem_cons_self _ _)
    rw [List.cons_append, B_ext_mark, if_neg hg,
      B_ext_mark_eq b s hs tl L (fun x hx => h x (List.mem_cons_of_mem _ hx)), List.map_cons]
    simp only [revive, decide_eq_true_eq, List.cons_append]

theorem B_ext_loop_eq (s : symm_op) (hs : s.bcm = 0) (tl : List symm_op) :
    ∀ (F L : List symm_op), (∀ g ∈ L, g.bcm ≠ 0) →
      B_ext_loop F (L ++ s :: tl) = L.map (fun x => revive (hits_ext F x.bcm) x) ++ s :: tl
  | [], L, _ => by simp [B_ext_loop, hits_ext, revive_false]
  | g :: F, L, hL => by
    rw [B_ext_loop]
    by_cases hf : g.truefalse = true
    · rw [if_pos hf, B_ext_mark_eq _ s hs tl L hL, B_ext_loop_eq s hs tl F]
      · rw [List.map_map]
        congr 1
        apply List.map_congr_left
        intro x _
        simp only [Function.comp, revive_revive, revive_bcm, hits_ext, List.any_cons, hf,
          Bool.true_and, eq_comm]
      · intro x hx
        obtain ⟨y, hy, rfl⟩ := List.mem_map.mp hx
        simpa using hL y hy
    · rw [if_neg hf, B_ext_loop_eq s hs tl F L hL]
      congr 1
      apply List.map_congr_left
      intro x _
      simp only [hits_ext, List.any_cons, Bool.not_eq_true] at hf ⊢
      simp [hf]

theorem coset_decomposition_B_acentric_eq (Gops H : List symm_op) (sG : symm_op)
    (hsG : sG.bcm = 0) (hGb : ∀ g ∈ Gops, g.bcm ≠ 0) (hac : is_centric H = Acentric) :
    coset_decomposition_B true (Gops ++ [sG]) H =
      sieve (hits_B ((H.take (count_ops H)).drop 1)) (Gops.length / 2)
          (Gops.take (Gops.length / 2)) ++
        ((Gops.drop (Gops.length / 2)).map (fun x =>
            revive (hits_ext (sieve (hits_B ((H.take (count_ops H)).drop 1)) (Gops.length / 2)
              (Gops.take (Gops.length / 2))) x.bcm) (set_false x)) ++ [sG]) := by
  have hyes : (true = true ∧ Acentric = is_centric H) := ⟨rfl, hac.symm⟩
  have hHc : B_H_count H = count_ops H := by
    unfold B_H_count
    rw [hac, if_neg (by decide)]
  have hlenF : (sieve (hits_B ((H.take (count_ops H)).drop 1)) (Gops.length / 2)
      (Gops.take (Gops.length / 2))).length = Gops.length / 2 := by
    rw [sieve_length, List.length_take]
    exact Nat.min_eq_left (Nat.div_le_self _ _)
  unfold coset_decomposition_B
  simp only [if_pos hyes, hHc, B_G_count, count_ops_append_sentinel sG hsG [] Gops hGb]
  rw [List.take_append_of_le_length (Nat.div_le_self _ _),
    List.drop_append_of_le_length (Nat.div_le_self _ _),
    B_turn_off_eq sG hsG [] _ (fun g hg => hGb g (List.mem_of_mem_drop hg)),
    B_loop_i_eq _ _ _ _ (by simp [Nat.div_le_self]),
    List.take_left' hlenF, List.drop_left' hlenF,
    B_ext_loop_eq sG hsG [] _ _ (by
      intro x hx
      obtain ⟨y, hy, rfl⟩ := List.mem_map.mp hx
      exact hGb y (List.mem_of_mem_drop hy)),
    List.map_map, if_pos ⟨trivial, hac.symm⟩]
  rfl

theorem filter_length_congr (L1 L2 : List symm_op)
    (h : L1.map (fun g => g.truefalse) = L2.map (fun g => g.truefalse)) :
    (L1.filter (fun g => g.truefalse)).length = (L2.filter (fun g => g.truefalse)).length := by
  have key : ∀ L : List symm_op, (L.filter (fun g => g.truefalse)).length =
      ((L.map (fun g => g.truefalse)).filter id).length := by
    intro L
    rw [List.filter_map, List.length_map]
    rfl
  rw [key L1, key L2, h]

theorem getD_drop_add (L : List symm_op) (m i : Nat) :
    (L.drop m).getD i malloc_op = L.getD (m + i) malloc_op := by
  simp only [List.getD_eq_getElem?_getD, List.getElem?_drop]

theorem hits_ext_iff (F : List symm_op) (b : Nat) :
    hits_ext F b = true ↔
      ∃ i, i < F.length ∧ (F.getD i malloc_op).truefalse = true ∧
        encode_matrix (negate_matrix (F.getD i malloc_op).mat) = b := by
  simp only [hits_ext, List.any_eq_true, Bool.and_eq_true, decide_eq_true_eq]
  constructor
  · rintro ⟨g, hg, hf, he⟩
    obtain ⟨i, hi, rfl⟩ := List.getElem_of_mem hg
    exact ⟨i, hi, by rw [List.getD_eq_getElem _ _ hi]; exact hf,
      by rw [List.getD_eq_getElem _ _ hi]; exact he⟩
  · rintro ⟨i, hi, hf, he⟩
    exact ⟨_, getD_mem F i hi, hf, he⟩

/-- In a canonically ordered operator set the extended completion step
reactivates exactly the partner `G[|G|/2 + j]` of every active `G[j]`. -/
theorem hits_ext_partner (Gops F : List symm_op) (hG : OperatorSet Gops)
    (hGd : (Gops.map (fun g => g.bcm)).Nodup) (hGc : CanonicalOrder Gops)
    (hlen : F.length = Gops.length / 2)
    (hmat : ∀ k, (F.getD k malloc_op).mat = ((Gops.take (Gops.length / 2)).getD k malloc_op).mat)
    (j : Nat) (hj : j < Gops.length / 2) :
    hits_ext F (Gops.getD (Gops.length / 2 + j) malloc_op).bcm =
      (F.getD j malloc_op).truefalse := by
  have hpart : ∀ i, i < Gops.length / 2 →
      encode_matrix (negate_matrix (F.getD i malloc_op).mat) =
        (Gops.getD (Gops.length / 2 + i) malloc_op).bcm := by
    intro i hi
    have hlt : Gops.length / 2 + i < Gops.length := by have := hGc.1; omega
    rw [hmat i, getD_take_of_lt _ _ _ hi, ← hGc.2 i hi, (hG _ (getD_mem Gops _ hlt)).1]
  have hltj : Gops.length / 2 + j < Gops.length := by have := hGc.1; omega
  rw [Bool.eq_iff_iff, hits_ext_iff]
  constructor
  · rintro ⟨i, hi, hf, he⟩
    rw [hlen] at hi
    rw [hpart i hi] at he
    have hlti : Gops.length / 2 + i < Gops.length := by have := hGc.1; omega
    have := bcm_getD_injective Gops hGd _ _ hlti hltj he
    have hij : i = j := by omega
    rw [← hij]
    exact hf
  · intro hf
    exact ⟨j, by rw [hlen]; exact hj, hf, hpart j hj⟩

/-- Extended algorithm B on a canonically ordered operator set and an acentric
`H`: every element of the second half ends with the flag of its partner in the
first half, so the active elements number twice those of the first half. -/
theorem extended_B_pairs (Gops H : List symm_op) (sG : symm_op) (hsG : sG.bcm = 0)
    (hG : OperatorSet Gops) (hGd : (Gops.map (fun g => g.bcm)).Nodup)
    (hGc : CanonicalOrder Gops) (hac : is_centric H = Acentric) :
    (∀ i, i < Gops.length / 2 →
      ((coset_decomposition_B true (Gops ++ [sG]) H).getD (Gops.length / 2 + i)
          malloc_op).truefalse =
        ((coset_decomposition_B true (Gops ++ [sG]) H).getD i malloc_op).truefalse) ∧
    count_active (coset_decomposition_B true (Gops ++ [sG]) H) =
      2 * (((coset_decomposition_B true (Gops ++ [sG]) H).take (Gops.length / 2)).filter
        (fun g => g.truefalse)).length := by
  have hGb : ∀ g ∈ Gops, g.bcm ≠ 0 := fun g hg => (hG g hg).2.1
  rw [coset_decomposition_B_acentric_eq Gops H sG hsG hGb hac]
  generalize hF : sieve (hits_B ((H.take (count_ops H)).drop 1)) (Gops.length / 2)
    (Gops.take (Gops.length / 2)) = F
  have hlenT : (Gops.take (Gops.length / 2)).length = Gops.length / 2 := by
    rw [List.length_take]; exact Nat.min_eq_left (Nat.div_le_self _ _)
  have hlenF : F.length = Gops.length / 2 := by rw [← hF, sieve_length, hlenT]
  have hmat : ∀ k, (F.getD k malloc_op).mat =
      ((Gops.take (Gops.length / 2)).getD k malloc_op).mat := by
    intro k
    rw [← hF]
    exact (sieve_getD _ _ _ k (by rw [hlenT])).1
  have hFb : ∀ g ∈ F, g.bcm ≠ 0 := by
    intro g hg
    have h1 : g.bcm ∈ F.map (fun g => g.bcm) := List.mem_map.mpr ⟨g, hg, rfl⟩
    rw [← hF, sieve_map_bcm] at h1
    obtain ⟨x, hx, hxe⟩ := List.mem_map.mp h1
    rw [← hxe]
    exact hGb x (List.mem_of_mem_take hx)
  have hlenS : (Gops.drop (Gops.length / 2)).length = Gops.length / 2 := by
    rw [List.length_drop]; have := hGc.1; omega
  have hsub : Gops.length - Gops.length / 2 = Gops.length / 2 := by
    have := hGc.1; omega
  -- flag of the element at position `i` of the second half
  have hsecond : ∀ i, i < Gops.length / 2 →
      (((Gops.drop (Gops.length / 2)).map (fun x =>
        revive (hits_ext F x.bcm) (set_false x))).getD i malloc_op).truefalse =
        (F.getD i malloc_op).truefalse := by
    intro i hi
    have hi' : i < (Gops.drop (Gops.length / 2)).length := by rw [hlenS]; exact hi
    rw [List.getD_eq_getElem _ _ (by simpa using hi'), List.getElem_map, revive_truefalse,
      ← List.getD_eq_getElem _ malloc_op hi', getD_drop_add,
      hits_ext_partner Gops F hG hGd hGc hlenF hmat i hi]
    simp [set_false]
  constructor
  · intro i hi
    rw [← List.append_assoc,
      getD_append_sentinel _ _ _ (by simp [hlenF, hlenS]; omega),
      getD_append_sentinel _ _ _ (by simp [hlenF, hlenS]; omega),
      List.getD_append_right _ _ _ _ (by rw [hlenF]; omega),
      List.getD_append _ _ _ _ (by rw [hlenF]; exact hi), hlenF, Nat.add_sub_cancel_left]
    exact hsecond i hi
  · rw [List.take_left' hlenF, ← List.append_assoc,
      count_active_append_sentinel sG hsG [] _ (by
        intro g hg
        rcases List.mem_append.mp hg with hg | hg
        · exact hFb g hg
        · obtain ⟨x, hx, rfl⟩ := List.mem_map.mp hg
          simpa [set_false] using hGb x (List.mem_of_mem_drop hx)),
      List.filter_append, List.length_append, Nat.two_mul]
    congr 1
    apply filter_length_congr
    apply List.ext_getElem (by simp [hlenF, hsub])
    intro k hk1 hk2
    have hk : k < Gops.length / 2 := by simpa [hlenF] using hk2
    have := hsecond k hk
    rw [List.getD_eq_getElem _ _ (by simpa [hsub] using hk),
      List.getD_eq_getElem _ _ (by rw [hlenF]; exact hk)] at this
    simpa using this

/-- Claim C11. Extended algorithm B gives inversion pairs: for every catalog
supergroup G (all flags active) and every acentric operator set H,
coset_decomposition_B with the extended completion step leaves every
second-half element G[|G|/2 + i], the negation of G[i], with the flag of G[i];
the active elements are the active first-half elements together with their
negations, and their number is even. -/
theorem extended_B_gives_inversion_pairs (pg : Int) (hpg : pg ∈ supported_point_groups)
    (H : List symm_op) (hac : is_centric H = Acentric) :
    (select_symm_ops pg).1 = some (catalog_ops pg ++ [sentinel]) ∧
    (∀ g ∈ catalog_ops pg, g.truefalse = true) ∧
    (∀ i, i < (catalog_ops pg).length / 2 →
      ((catalog_ops pg).getD ((catalog_ops pg).length / 2 + i) malloc_op).mat =
        negate_matrix ((catalog_ops pg).getD i malloc_op).mat ∧
      ((coset_decomposition_B true (catalog_ops pg ++ [sentinel]) H).getD
          ((catalog_ops pg).length / 2 + i) malloc_op).truefalse =
        ((coset_decomposition_B true (catalog_ops pg ++ [sentinel]) H).getD i
          malloc_op).truefalse) ∧
    count_active (coset_decomposition_B true (catalog_ops pg ++ [sentinel]) H) =
      2 * (((coset_decomposition_B true (catalog_ops pg ++ [sentinel]) H).take
        ((catalog_ops pg).length / 2)).filter (fun g => g.truefalse)).length ∧
    count_active (coset_decomposition_B true (catalog_ops pg ++ [sentinel]) H) % 2 = 0 := by
  obtain ⟨hsel, hG, hGd, hact, hGc⟩ := catalog_facts pg hpg
  obtain ⟨hflags, hcount⟩ := extended_B_pairs (catalog_ops pg) H sentinel rfl hG hGd hGc hac
  refine ⟨hsel, hact, fun i hi => ⟨hGc.2 i hi, hflags i hi⟩, hcount, ?_⟩
  rw [hcount]
  exact Nat.mul_mod_right 2 _

theorem extended_B_gives_inversion_pairs_witness :
    (222 : Int) ∈ supported_point_groups ∧
    is_centric ((catalog_ops 2).take 2 ++ [sentinel]) = Acentric ∧
    count_active (coset_decomposition_B true (catalog_ops 222 ++ [sentinel])
      ((catalog_ops 2).take 2 ++ [sentinel])) % 2 = 0 :=
  ⟨by decide, by decide!,
    (extended_B_gives_inversion_pairs 222 (by decide) ((catalog_ops 2).take 2 ++ [sentinel])
      (by decide!)).2.2.2.2⟩

/-! ## The point-group catalog and the trivial subgroup -/

/-- Claim C13. Catalog sizes: for the identifiers 1, 2, 222, 422, 32, 622, 432
select_symm_ops reports error code 0 and returns exactly 2, 4, 8, 16, 12, 24,
48 operators (twice the table size, at most 48), each flagged active, followed
by one sentinel with fingerprint 0 and flag false. -/
theorem catalog_sizes :
    ∀ p ∈ catalog_table,
      (select_symm_ops p.1).2 = 0 ∧ (select_symm_ops p.1).1.isSome = true ∧
      p.2.2 = 2 * p.2.1 ∧ p.2.2 ≤ 48 ∧
      ∀ G ∈ (select_symm_ops p.1).1,
        count_ops G = p.2.2 ∧ G.length = p.2.2 + 1 ∧
        flags G = List.replicate p.2.2 true ++ [false] ∧
        (G.getD p.2.2 malloc_op).bcm = 0 := by
  decide!

theorem catalog_sizes_witness :
    ((432 : Int), N_SYMM_OPS_432, 48) ∈ catalog_table ∧
      (select_symm_ops 432).2 = 0 ∧ (select_symm_ops 432).1.isSome = true ∧
      48 = 2 * N_SYMM_OPS_432 ∧ 48 ≤ 48 ∧
      ∀ G ∈ (select_symm_ops 432).1,
        count_ops G = 48 ∧ G.length = 48 + 1 ∧
        flags G = List.replicate 48 true ++ [false] ∧
        (G.getD 48 malloc_op).bcm = 0 :=
  ⟨by decide, catalog_sizes (432, N_SYMM_OPS_432, 48) (by decide)⟩

/-- Claim C14. Unknown point group: for every integer identifier other than 1,
2, 222, 422, 32, 622 and 432, select_symm_ops returns no operator set (NULL)
and sets its error code to -1. -/
theorem unknown_point_group (pt_group : Int) (h : pt_group ∉ supported_point_groups) :
    select_symm_ops pt_group = (none, -1) := by
  simp only [supported_point_groups, List.mem_cons, List.mem_singleton, List.not_mem_nil,
    or_false, not_or] at h
  obtain ⟨h1, h2, h222, h422, h32, h622, h432⟩ := h
  simp only [select_symm_ops, if_neg h1, if_neg h2, if_neg h222, if_neg h422, if_neg h32,
    if_neg h622, if_neg h432]

theorem unknown_point_group_witness :
    (3 : Int) ∉ supported_point_groups ∧ select_symm_ops 3 = (none, -1) :=
  ⟨by decide, unknown_point_group 3 (by decide)⟩

theorem lookup_supergroup_unmatched (s : String) (h : s ∉ supergroup_names) :
    lookup_supergroup s = -1 := by
  simp only [supergroup_names, List.mem_cons, List.mem_singleton, List.not_mem_nil,
    or_false, not_or] at h
  obtain ⟨h1, h2, h3, h4, h5, h6, h7⟩ := h
  have b1 : ("-1" == s) = false := beq_false_of_ne (Ne.symm h1)
  have b2 : ("2/m" == s) = false := beq_false_of_ne (Ne.symm h2)
  have b3 : ("mmm" == s) = false := beq_false_of_ne (Ne.symm h3)
  have b4 : ("4/mmm" == s) = false := beq_false_of_ne (Ne.symm h4)
  have b5 : ("-3m" == s) = false := beq_false_of_ne (Ne.symm h5)
  have b6 : ("6/mmm" == s) = false := beq_false_of_ne (Ne.symm h6)
  have b7 : ("m-3m" == s) = false := beq_false_of_ne (Ne.symm h7)
  simp only [lookup_supergroup, List.find?, b1, b2, b3, b4, b5, b6, b7]

/-- Claim C15. Name lookup: lookup_supergroup returns 1, 2, 222, 422, 32, 622,
432 for "-1", "2/m", "mmm", "4/mmm", "-3m", "6/mmm", "m-3m" and -1 for every
other string; select_symm_ops applied to the result for an unmatched name
returns no set and error code -1. -/
theorem name_lookup :
    supergroup_names.map lookup_supergroup = [1, 2, 222, 422, 32, 622, 432] ∧
    ∀ s : String, s ∉ supergroup_names →
      lookup_supergroup s = -1 ∧ select_symm_ops (lookup_supergroup s) = (none, -1) := by
  refine ⟨by decide!, fun s h => ?_⟩
  have hl := lookup_supergroup_unmatched s h
  refine ⟨hl, ?_⟩
  rw [hl]
  decide!

theorem name_lookup_witness :
    "P1" ∉ supergroup_names ∧ lookup_supergroup "P1" = -1 ∧
      select_symm_ops (lookup_supergroup "P1") = (none, -1) :=
  ⟨by decide, name_lookup.2 "P1" (by decide)⟩

/-- Claim C20. Operator-set invariant of the catalog: for each of the seven
supported identifiers, every element before the sentinel of the set returned by
select_symm_ops has a fingerprint that is neither 0 nor the ERROR value
0x2AAAA, and the first element is the identity matrix (fingerprint 0x10101). -/
theorem catalog_operator_set_invariant :
    ∀ pg ∈ supported_point_groups,
      (select_symm_ops pg).1.isSome = true ∧
      ∀ G ∈ (select_symm_ops pg).1,
        count_ops G + 1 = G.length ∧
        (∀ g ∈ G.take (count_ops G), g.bcm ≠ 0 ∧ g.bcm ≠ 0x2AAAA) ∧
        (G.getD 0 malloc_op).mat = identity_matrix ∧ (G.getD 0 malloc_op).bcm = 0x10101 := by
  decide!

theorem catalog_operator_set_invariant_witness :
    (622 : Int) ∈ supported_point_groups ∧
      (select_symm_ops 622).1.isSome = true ∧
      ∀ G ∈ (select_symm_ops 622).1,
        count_ops G + 1 = G.length ∧
        (∀ g ∈ G.take (count_ops G), g.bcm ≠ 0 ∧ g.bcm ≠ 0x2AAAA) ∧
        (G.getD 0 malloc_op).mat = identity_matrix ∧ (G.getD 0 malloc_op).bcm = 0x10101 :=
  ⟨by decide, catalog_operator_set_invariant 622 (by decide)⟩

theorem A_loop_i_sentinel_only (H : List symm_op) (sH : symm_op) (tlH : List symm_op)
    (hH : H.drop 1 = sH :: tlH) (hsH : sH.bcm = 0) :
    ∀ (n : Nat) (G : List symm_op), A_loop_i H n G = G
  | 0, _ => rfl
  | _ + 1, [] => rfl
  | n + 1, g :: rest => by
    rw [A_loop_i, hH]
    have hj : A_loop_j g (sH :: tlH) rest = rest := by rw [A_loop_j, if_pos hsH]
    rw [hj, ite_self, A_loop_i_sentinel_only H sH tlH hH hsH n rest, ite_self]

/-- Claim C12. Trivial subgroup: for a sentinel-terminated operator set G and
the subgroup H that consists of the identity alone, coset_decomposition_A(G, H)
returns G unchanged, so no flag changes, every active element stays active,
and when all elements are active the coset count is |G|. -/
theorem trivial_subgroup_changes_nothing (Gops : List symm_op) (sG h0 sH : symm_op)
    (hsG : sG.bcm = 0) (hsH : sH.bcm = 0) (hGb : ∀ g ∈ Gops, g.bcm ≠ 0)
    (hI : h0.mat = identity_matrix ∧ h0.bcm = encode_matrix h0.mat) :
    coset_decomposition_A (Gops ++ [sG]) [h0, sH] = Gops ++ [sG] ∧
    flags (coset_decomposition_A (Gops ++ [sG]) [h0, sH]) = flags (Gops ++ [sG]) ∧
    count_ops [h0, sH] = 1 ∧
    ((∀ g ∈ Gops, g.truefalse = true) →
      count_active (coset_decomposition_A (Gops ++ [sG]) [h0, sH]) = Gops.length) := by
  have hres : coset_decomposition_A (Gops ++ [sG]) [h0, sH] = Gops ++ [sG] :=
    A_loop_i_sentinel_only [h0, sH] sH [] rfl hsH _ _
  have hh0 : h0.bcm ≠ 0 := by
    rw [hI.2, hI.1]
    decide!
  refine ⟨hres, by rw [hres], ?_, ?_⟩
  · simp [count_ops, hh0, hsH]
  · intro hall
    rw [hres, count_active_append_sentinel sG hsG [] Gops hGb, List.filter_eq_self.mpr]
    intro g hg
    exact hall g hg

theorem trivial_subgroup_changes_nothing_witness :
    sentinel.bcm = 0 ∧ (∀ g ∈ catalog_ops 422, g.bcm ≠ 0) ∧
    (((catalog_ops 1).getD 0 malloc_op).mat = identity_matrix ∧
      ((catalog_ops 1).getD 0 malloc_op).bcm =
        encode_matrix ((catalog_ops 1).getD 0 malloc_op).mat) ∧
    coset_decomposition_A (catalog_ops 422 ++ [sentinel])
      [(catalog_ops 1).getD 0 malloc_op, sentinel] = catalog_ops 422 ++ [sentinel] :=
  ⟨by decide!, by decide!, by decide!,
    (trivial_subgroup_changes_nothing (catalog_ops 422) sentinel
      ((catalog_ops 1).getD 0 malloc_op) sentinel (by decide!) (by decide!) (by decide!)
      (by decide!)).1⟩

theorem invert_matrix_mul_right (T : Mat3) (h : determinant T ≠ 0) :
    matrix_multiply3x3 T (invert_matrix (determinant T) T) = identity_matrix := by
  simp only [determinant] at h ⊢
  funext i j
  fin_cases i <;> fin_cases j <;>
    simp [matrix_multiply3x3, invert_matrix, identity_matrix_apply] <;>
    field_simp <;> ring

theorem invert_matrix_mul_left (T : Mat3) (h : determinant T ≠ 0) :
    matrix_multiply3x3 (invert_matrix (determinant T) T) T = identity_matrix := by
  simp only [determinant] at h ⊢
  funext i j
  fin_cases i <;> fin_cases j <;>
    simp [matrix_multiply3x3, invert_matrix, identity_matrix_apply] <;>
    field_simp <;> ring

theorem transform_group_eq (tm : Mat3) (s : symm_op) (hs : s.bcm = 0) (tl : List symm_op) :
    ∀ L : List symm_op, (∀ g ∈ L, g.bcm ≠ 0) →
      transform_group tm (L ++ s :: tl) =
        L.map (fun g => { g with mat := similarity_transform g.mat tm,
                                 bcm := encode_matrix (similarity_transform g.mat tm) })
          ++ s :: tl
  | [], _ => by simp [transform_group, hs]
  | g :: L, h => by
    have hg : g.bcm ≠ 0 := h g (List.mem_cons_self _ _)
    rw [List.cons_append, transform_group, if_neg hg,
      transform_group_eq tm s hs tl L (fun x hx => h x (List.mem_cons_of_mem _ hx)),
      List.map_cons, List.cons_append]
    rfl

theorem matrix_multiply3x3_eq_mul (a b : Mat3) :
    matrix_multiply3x3 a b = (Matrix.of a * Matrix.of b : Matrix (Fin 3) (Fin 3) ℚ) := by
  funext i j
  simp [matrix_multiply3x3, Matrix.mul_apply, Fin.sum_univ_three]

theorem identity_matrix_eq_one : identity_matrix = (1 : Matrix (Fin 3) (Fin 3) ℚ) := by
  funext i j
  rw [identity_matrix_apply, Matrix.one_apply]

theorem invert_matrix_eq_inv (T : Mat3) (h : determinant T ≠ 0) :
    invert_matrix (determinant T) T = (Matrix.of T : Matrix (Fin 3) (Fin 3) ℚ)⁻¹ := by
  have h1 := invert_matrix_mul_right T h
  rw [matrix_multiply3x3_eq_mul, identity_matrix_eq_one] at h1
  exact (Matrix.inv_eq_right_inv h1).symm

/-- Claim C19. Similarity transform: for a matrix T with non-zero determinant,
the matrix produced by invert_matrix(determinant(T), T) is a two-sided inverse
of T (and is the matrix inverse), similarity_transform(M, T) equals T·M·T^-1 in
exact arithmetic, and transform_group replaces the matrix of every operator
before the sentinel by that transform and derives its fingerprint again. -/
theorem similarity_transform_is_conjugation (M T : Mat3) (h : determinant T ≠ 0) :
    matrix_multiply3x3 T (invert_matrix (determinant T) T) = identity_matrix ∧
    matrix_multiply3x3 (invert_matrix (determinant T) T) T = identity_matrix ∧
    similarity_transform M T =
      matrix_multiply3x3 T (matrix_multiply3x3 M (invert_matrix (determinant T) T)) ∧
    similarity_transform M T =
      (Matrix.of T * Matrix.of M * (Matrix.of T)⁻¹ : Matrix (Fin 3) (Fin 3) ℚ) ∧
    ∀ (L : List symm_op) (s : symm_op) (tl : List symm_op), s.bcm = 0 →
      (∀ g ∈ L, g.bcm ≠ 0) →
      transform_group T (L ++ s :: tl) =
        L.map (fun g => { g with mat := similarity_transform g.mat T,
                                 bcm := encode_matrix (similarity_transform g.mat T) })
          ++ s :: tl := by
  refine ⟨invert_matrix_mul_right T h, invert_matrix_mul_left T h, rfl, ?_,
    fun L s tl hs hL => transform_group_eq T s hs tl L hL⟩
  unfold similarity_transform
  simp only [matrix_multiply3x3_eq_mul, invert_matrix_eq_inv T h]
  rw [Matrix.mul_assoc]
  rfl

theorem similarity_transform_is_conjugation_witness :
    determinant sample_transformation ≠ 0 ∧
    matrix_multiply3x3 sample_transformation
      (invert_matrix (determinant sample_transformation) sample_transformation) =
      identity_matrix ∧
    similarity_transform invcen sample_transformation =
      matrix_multiply3x3 sample_transformation (matrix_multiply3x3 invcen
        (invert_matrix (determinant sample_transformation) sample_transformation)) :=
  ⟨by decide!,
    (similarity_transform_is_conjugation invcen sample_transformation (by decide!)).1,
    (similarity_transform_is_conjugation invcen sample_transformation (by decide!)).2.2.1⟩

/-! ## Operator analysis -/

theorem unitize_eigen_vector_fields (s : symm_op) :
    (unitize_eigen_vector s).n_fold = s.n_fold ∧
      (unitize_eigen_vector s).rotation_angle = s.rotation_angle := ⟨rfl, rfl⟩

theorem pick_real_eigen_fields (det : ℚ) (real_eig : Fin 3 → real_eigen_data) :
    ∀ (l : List (Fin 3)) (s : symm_op),
      (pick_real_eigen det real_eig l s).n_fold = s.n_fold ∧
        (pick_real_eigen det real_eig l s).rotation_angle = s.rotation_angle
  | [], _ => ⟨rfl, rfl⟩
  | i :: rest, s => by
    rw [pick_real_eigen]
    split_ifs
    · exact pick_real_eigen_fields det real_eig rest _
    · exact pick_real_eigen_fields det real_eig rest s

theorem pick_complex_eigen_fields (det : ℚ) (cmplx_eig : Fin 3 → complex_eigen_data) :
    ∀ (l : List (Fin 3)) (s : symm_op),
      (pick_complex_eigen det cmplx_eig l s).1.n_fold = s.n_fold ∧
        (pick_complex_eigen det cmplx_eig l s).1.rotation_angle = s.rotation_angle ∧
        ¬ IsClassificationFailure (pick_complex_eigen det cmplx_eig l s).2
  | [], _ => ⟨rfl, rfl, by simp [pick_complex_eigen, IsClassificationFailure]⟩
  | i :: rest, s => by
    rw [pick_complex_eigen]
    by_cases h1 : is_real_eigen_value (cmplx_eig i) = true
    · rw [if_pos h1]
      dsimp only
      by_cases h2 : 0 ≠ (convert_complex_eig_to_real_eig (cmplx_eig i) tmp_uninit).1
      · rw [if_pos h2]
        exact ⟨rfl, rfl, by simp [IsClassificationFailure]⟩
      · rw [if_neg h2]
        split_ifs
        · exact pick_complex_eigen_fields det cmplx_eig rest _
        · exact pick_complex_eigen_fields det cmplx_eig rest s
    · rw [if_neg h1]
      exact pick_complex_eigen_fields det cmplx_eig rest s

/-- When the classification step succeeds, `analyze_symm_op` leaves the fold of
the table and the angle in the operator, and the process does not end in the
classification step. -/
theorem analyze_symm_op_of_ok (ext : external) (s : symm_op) (n : Int)
    (h : classify_fold (round_to_nearest_int (determinant s.mat))
      (round_to_nearest_int (trace s.mat)) = .ok n) :
    (analyze_symm_op ext s).1.n_fold = n ∧
      (analyze_symm_op ext s).1.rotation_angle =
        RAD2DEG (ext.acos ((trace s.mat / determinant s.mat - 1) / 2)) ∧
      ¬ IsClassificationFailure (analyze_symm_op ext s).2 := by
  unfold analyze_symm_op
  simp only [h]
  split_ifs
  · cases ext.symm_eigen_solve s.mat with
    | none => exact ⟨rfl, rfl, by simp [IsClassificationFailure]⟩
    | some real_eig =>
      have := pick_real_eigen_fields (determinant s.mat) real_eig [0, 1, 2]
        { s with rotation_angle :=
            RAD2DEG (ext.acos ((trace s.mat / determinant s.mat - 1) / 2)), n_fold := n }
      exact ⟨this.1, this.2, by simp [IsClassificationFailure]⟩
  · cases ext.non_symm_eigen_solve s.mat with
    | none => exact ⟨rfl, rfl, by simp [IsClassificationFailure]⟩
    | some cmplx_eig =>
      have := pick_complex_eigen_fields (determinant s.mat) cmplx_eig [0, 1, 2]
        { s with rotation_angle :=
            RAD2DEG (ext.acos ((trace s.mat / determinant s.mat - 1) / 2)), n_fold := n }
      simp only
      split
      · rename_i s3 e heq
        rw [heq] at this
        exact ⟨this.1, this.2.1, this.2.2⟩
      · rename_i s3 heq
        rw [heq] at this
        exact ⟨this.1, this.2.1, by simp [IsClassificationFailure]⟩

theorem analyze_symm_op_of_error (ext : external) (s : symm_op) (e : exit_reason)
    (h : classify_fold (round_to_nearest_int (determinant s.mat))
      (round_to_nearest_int (trace s.mat)) = .error e) :
    (analyze_symm_op ext s).1.n_fold = s.n_fold ∧ (analyze_symm_op ext s).2 = some e := by
  constructor <;> simp [analyze_symm_op, h]

theorem classify_fold_table : ∀ e ∈ fold_table, classify_fold e.1 e.2.1 = .ok e.2.2 := by
  simp [fold_table, classify_fold]

theorem classify_fold_ok_iff (i_det i_tr : Int) :
    (∃ n, classify_fold i_det i_tr = .ok n) ↔
      (i_det = 1 ∧ i_tr ∈ [(-1 : Int), 0, 1, 2, 3]) ∨
        (i_det = -1 ∧ i_tr ∈ [(-3 : Int), -2, -1, 0, 1]) := by
  unfold classify_fold
  constructor
  · rintro ⟨n, hn⟩
    split_ifs at hn <;> simp_all
  · rintro (⟨rfl, h⟩ | ⟨rfl, h⟩)
    · simp only [List.mem_cons, List.mem_singleton, List.not_mem_nil, or_false] at h
      rcases h with rfl | rfl | rfl | rfl | rfl <;> simp
    · simp only [List.mem_cons, List.mem_singleton, List.not_mem_nil, or_false] at h
      rcases h with rfl | rfl | rfl | rfl | rfl <;> simp

theorem classify_fold_error (i_det i_tr : Int) (e : exit_reason)
    (h : classify_fold i_det i_tr = .error e) : IsClassificationFailure (some e) := by
  unfold classify_fold at h
  split_ifs at h <;> first
    | (cases h; exact Or.inl ⟨_, _, rfl⟩)
    | (cases h; exact Or.inr rfl)

/-- Claim C16. Fold classification table: when the determinant and the trace of
an operator round to a pair of the table (determinant +1 with trace -1, 0, 1,
2, 3 or determinant -1 with trace -3, -2, -1, 0, 1), analyze_symm_op sets the
fold to 2, 3, 4, 6, 1 respectively -1, -6, -4, -3, -2. -/
theorem fold_classification (ext : external) (s : symm_op) (e : Int × Int × Int)
    (he : e ∈ fold_table) (hdet : round_to_nearest_int (determinant s.mat) = e.1)
    (htr : round_to_nearest_int (trace s.mat) = e.2.1) :
    (analyze_symm_op ext s).1.n_fold = e.2.2 := by
  have h := classify_fold_table e he
  rw [← hdet, ← htr] at h
  exact (analyze_symm_op_of_ok ext s e.2.2 h).1

theorem fold_classification_witness :
    ((1 : Int), (0 : Int), (3 : Int)) ∈ fold_table ∧
    round_to_nearest_int (determinant (ops_432.getD 12 malloc_op).mat) = 1 ∧
    round_to_nearest_int (trace (ops_432.getD 12 malloc_op).mat) = 0 ∧
    (analyze_symm_op sample_external (ops_432.getD 12 malloc_op)).1.n_fold = 3 :=
  ⟨by decide, by decide!, by decide!,
    fold_classification sample_external (ops_432.getD 12 malloc_op) (1, 0, 3) (by decide)
      (by decide!) (by decide!)⟩

/-- Claim C17. Classification failure: analyze_symm_op ends the process in its
classification step, with the fold left unassigned, if and only if the rounded
determinant is neither +1 nor -1, or it is +1 with rounded trace outside
{-1, 0, 1, 2, 3}, or it is -1 with rounded trace outside {-3, -2, -1, 0, 1};
that is, if and only if the rounded pair is not one of the ten table entries. -/
theorem classification_failure_iff (ext : external) (s : symm_op) :
    (IsClassificationFailure (analyze_symm_op ext s).2 ↔
      (round_to_nearest_int (determinant s.mat) ≠ 1 ∧
          round_to_nearest_int (determinant s.mat) ≠ -1) ∨
        (round_to_nearest_int (determinant s.mat) = 1 ∧
          round_to_nearest_int (trace s.mat) ∉ [(-1 : Int), 0, 1, 2, 3]) ∨
        (round_to_nearest_int (determinant s.mat) = -1 ∧
          round_to_nearest_int (trace s.mat) ∉ [(-3 : Int), -2, -1, 0, 1])) ∧
    (IsClassificationFailure (analyze_symm_op ext s).2 ↔
      ¬ ∃ e ∈ fold_table, round_to_nearest_int (determinant s.mat) = e.1 ∧
        round_to_nearest_int (trace s.mat) = e.2.1) ∧
    (IsClassificationFailure (analyze_symm_op ext s).2 →
      (analyze_symm_op ext s).1.n_fold = s.n_fold) := by
  have hiff := classify_fold_ok_iff (round_to_nearest_int (determinant s.mat))
    (round_to_nearest_int (trace s.mat))
  have htab : (∃ e ∈ fold_table, round_to_nearest_int (determinant s.mat) = e.1 ∧
      round_to_nearest_int (trace s.mat) = e.2.1) ↔
      (round_to_nearest_int (determinant s.mat) = 1 ∧
          round_to_nearest_int (trace s.mat) ∈ [(-1 : Int), 0, 1, 2, 3]) ∨
        (round_to_nearest_int (determinant s.mat) = -1 ∧
          round_to_nearest_int (trace s.mat) ∈ [(-3 : Int), -2, -1, 0, 1]) := by
    generalize round_to_nearest_int (determinant s.mat) = d
    generalize round_to_nearest_int (trace s.mat) = t
    simp only [fold_table, List.mem_cons, List.mem_singleton, List.not_mem_nil, or_false,
      exists_eq_or_imp, exists_eq_left]
    constructor
    · rintro (⟨h1, h2⟩ | ⟨h1, h2⟩ | ⟨h1, h2⟩ | ⟨h1, h2⟩ | ⟨h1, h2⟩ | ⟨h1, h2⟩ | ⟨h1, h2⟩ |
        ⟨h1, h2⟩ | ⟨h1, h2⟩ | ⟨h1, h2⟩) <;> simp_all
    · rintro (⟨h1, h2 | h2 | h2 | h2 | h2⟩ | ⟨h1, h2 | h2 | h2 | h2 | h2⟩) <;> simp_all
  have hshape : ¬ ((round_to_nearest_int (determinant s.mat) = 1 ∧
          round_to_nearest_int (trace s.mat) ∈ [(-1 : Int), 0, 1, 2, 3]) ∨
        (round_to_nearest_int (determinant s.mat) = -1 ∧
          round_to_nearest_int (trace s.mat) ∈ [(-3 : Int), -2, -1, 0, 1])) ↔
      ((round_to_nearest_int (determinant s.mat) ≠ 1 ∧
          round_to_nearest_int (determinant s.mat) ≠ -1) ∨
        (round_to_nearest_int (determinant s.mat) = 1 ∧
          round_to_nearest_int (trace s.mat) ∉ [(-1 : Int), 0, 1, 2, 3]) ∨
        (round_to_nearest_int (determinant s.mat) = -1 ∧
          round_to_nearest_int (trace s.mat) ∉ [(-3 : Int), -2, -1, 0, 1])) := by
    generalize round_to_nearest_int (determinant s.mat) = d
    generalize (round_to_nearest_int (trace s.mat) ∈ [(-1 : Int), 0, 1, 2, 3]) = P
    generalize (round_to_nearest_int (trace s.mat) ∈ [(-3 : Int), -2, -1, 0, 1]) = Q
    by_cases h1 : d = 1
    · subst h1; simp
    · by_cases h2 : d = -1
      · subst h2; simp
      · simp [h1, h2]
  have hmain : IsClassificationFailure (analyze_symm_op ext s).2 ↔
      ¬ ((round_to_nearest_int (determinant s.mat) = 1 ∧
          round_to_nearest_int (trace s.mat) ∈ [(-1 : Int), 0, 1, 2, 3]) ∨
        (round_to_nearest_int (determinant s.mat) = -1 ∧
          round_to_nearest_int (trace s.mat) ∈ [(-3 : Int), -2, -1, 0, 1])) := by
    rw [← hiff]
    cases h : classify_fold (round_to_nearest_int (determinant s.mat))
        (round_to_nearest_int (trace s.mat)) with
    | error e =>
      rw [(analyze_symm_op_of_error ext s e h).2]
      exact ⟨fun _ => by simp, fun _ => classify_fold_error _ _ e h⟩
    | ok n =>
      exact ⟨fun hf => absurd hf (analyze_symm_op_of_ok ext s n h).2.2,
        fun hn => absurd ⟨n, rfl⟩ hn⟩
  refine ⟨hmain.trans hshape, by rw [htab]; exact hmain, ?_⟩
  intro hf
  cases h : classify_fold (round_to_nearest_int (determinant s.mat))
      (round_to_nearest_int (trace s.mat)) with
  | error e => exact (analyze_symm_op_of_error ext s e h).1
  | ok n => exact absurd hf (analyze_symm_op_of_ok ext s n h).2.2

theorem int_multiply_spec (a b : List Int) :
    matrix_multiply3x3 (int_matrix a) (int_matrix b) = int_matrix (int_multiply a b) := by
  funext i j
  fin_cases i <;> fin_cases j <;>
    simp [matrix_multiply3x3, int_matrix, int_multiply, List.range, List.range.loop]

theorem int_matrix_identity : int_matrix int_identity = identity_matrix := by
  funext i j
  rw [identity_matrix_apply]
  fin_cases i <;> fin_cases j <;> simp [int_matrix, int_identity]

theorem int_word_spec (T : List (List Int)) (w : List Nat) (b : List Int) :
    matrix_multiply3x3 (int_matrix (int_word T w int_identity)) (int_matrix b) =
      int_matrix (int_word T w b) := by
  induction w with
  | nil =>
    simp only [int_word, List.foldr_nil]
    rw [int_matrix_identity, identity_matrix_multiply3x3]
  | cons g w ih =>
    simp only [int_word, List.foldr_cons] at ih ⊢
    rw [← int_multiply_spec, matrix_multiply3x3_assoc, ih, int_multiply_spec]

theorem int_word_mem (T : List (List Int)) (gens : List Nat)
    (hgen : ∀ g ∈ gens, ∀ b ∈ T, int_multiply (T.getD g []) b ∈ T)
    (w : List Nat) (hw : ∀ g ∈ w, g ∈ gens) (b : List Int) (hb : b ∈ T) :
    int_word T w b ∈ T := by
  induction w with
  | nil => simpa [int_word] using hb
  | cons g w ih =>
    simp only [int_word, List.foldr_cons]
    exact hgen g (hw g (List.mem_cons_self _ _)) _
      (ih (fun x hx => hw x (List.mem_cons_of_mem _ hx)))

theorem int_table_closed (T : List (List Int)) (gens : List Nat) (words : List (List Nat))
    (hgen : ∀ g ∈ gens, ∀ b ∈ T, int_multiply (T.getD g []) b ∈ T)
    (hwords : ∀ k < T.length, (∀ g ∈ words.getD k [], g ∈ gens) ∧
      int_word T (words.getD k []) int_identity = T.getD k []) :
    ∀ a ∈ T.map int_matrix, ∀ b ∈ T.map int_matrix,
      matrix_multiply3x3 a b ∈ T.map int_matrix := by
  intro a ha b hb
  obtain ⟨az, haz, rfl⟩ := List.mem_map.mp ha
  obtain ⟨bz, hbz, rfl⟩ := List.mem_map.mp hb
  obtain ⟨k, hk, rfl⟩ := List.getElem_of_mem haz
  obtain ⟨hw1, hw2⟩ := hwords k hk
  have hk2 : T.getD k [] = T[k] := List.getD_eq_getElem _ _ hk
  rw [← hk2, ← hw2, int_word_spec]
  exact List.mem_map.mpr ⟨_, int_word_mem T gens hgen _ hw1 bz hbz, rfl⟩

theorem int_table_facts : ∀ pg ∈ supported_point_groups,
    mats (catalog_ops pg) = (int_table pg).map int_matrix ∧
    int_identity ∈ int_table pg ∧
    (∀ g ∈ int_generators pg, ∀ b ∈ int_table pg,
      int_multiply ((int_table pg).getD g []) b ∈ int_table pg) ∧
    (∀ k < (int_table pg).length, (∀ g ∈ (int_words pg).getD k [], g ∈ int_generators pg) ∧
      int_word (int_table pg) ((int_words pg).getD k []) int_identity = (int_table pg).getD k []) ∧
    (∀ k < (int_table pg).length, (int_inverse pg).getD k 0 < (int_table pg).length ∧
      int_multiply ((int_table pg).getD k []) ((int_table pg).getD ((int_inverse pg).getD k 0) []) =
        int_identity ∧
      int_multiply ((int_table pg).getD ((int_inverse pg).getD k 0) []) ((int_table pg).getD k []) =
        int_identity) := by
  decide!

theorem catalog_is_group (pg : Int) (hpg : pg ∈ supported_point_groups) :
    IsGroup (mats (catalog_ops pg)) := by
  obtain ⟨hm, hid, hgen, hwords, hinv⟩ := int_table_facts pg hpg
  rw [hm]
  refine ⟨?_, int_table_closed _ _ _ hgen hwords, ?_⟩
  · rw [← int_matrix_identity]
    exact List.mem_map.mpr ⟨_, hid, rfl⟩
  · intro a ha
    obtain ⟨az, haz, rfl⟩ := List.mem_map.mp ha
    obtain ⟨k, hk, rfl⟩ := List.getElem_of_mem haz
    obtain ⟨hlt, h1, h2⟩ := hinv k hk
    have hk2 : (int_table pg).getD k [] = (int_table pg)[k] := List.getD_eq_getElem _ _ hk
    rw [hk2] at h1 h2
    refine ⟨int_matrix ((int_table pg).getD ((int_inverse pg).getD k 0) []),
      List.mem_map.mpr ⟨_, ?_, rfl⟩, ?_, ?_⟩
    · rw [List.getD_eq_getElem _ _ hlt]
      exact List.getElem_mem _
    · rw [int_multiply_spec, h1, int_matrix_identity]
    · rw [int_multiply_spec, h2, int_matrix_identity]

/-- Claim C21. Every catalog operator set is a finite group: for each of the
seven supported identifiers, the operators returned by select_symm_ops (the
array without its sentinel) are pairwise distinct, both as matrices and as
fingerprints, include the identity, and are closed under matrix_multiply3x3:
the product of any two elements is the matrix of an element of the set and its
fingerprint is the fingerprint of that element.  The set also holds the
inverse of each of its elements. -/
theorem catalog_sets_are_groups :
    ∀ pg ∈ supported_point_groups,
      (select_symm_ops pg).1 = some (catalog_ops pg ++ [sentinel]) ∧
      (mats (catalog_ops pg)).Nodup ∧ ((catalog_ops pg).map (fun g => g.bcm)).Nodup ∧
      identity_matrix ∈ mats (catalog_ops pg) ∧
      (∀ a ∈ catalog_ops pg, ∀ b ∈ catalog_ops pg, ∃ c ∈ catalog_ops pg,
        matrix_multiply3x3 a.mat b.mat = c.mat ∧
        encode_matrix (matrix_multiply3x3 a.mat b.mat) = c.bcm) ∧
      IsGroup (mats (catalog_ops pg)) := by
  intro pg hpg
  obtain ⟨hsel, hG, hGd, -, -⟩ := catalog_facts pg hpg
  have hgrp := catalog_is_group pg hpg
  refine ⟨hsel, nodup_mats _ hG hGd, hGd, hgrp.1, ?_, hgrp⟩
  intro a ha b hb
  have hab := hgrp.2.1 a.mat (List.mem_map.mpr ⟨a, ha, rfl⟩) b.mat (List.mem_map.mpr ⟨b, hb, rfl⟩)
  obtain ⟨c, hc, hcm⟩ := List.mem_map.mp hab
  exact ⟨c, hc, hcm.symm, by rw [← hcm, (hG c hc).1]⟩

theorem catalog_sets_are_groups_witness :
    (32 : Int) ∈ supported_point_groups ∧
      (mats (catalog_ops 32)).Nodup ∧ ((catalog_ops 32).map (fun g => g.bcm)).Nodup ∧
      identity_matrix ∈ mats (catalog_ops 32) ∧
      (∀ a ∈ catalog_ops 32, ∀ b ∈ catalog_ops 32, ∃ c ∈ catalog_ops 32,
        matrix_multiply3x3 a.mat b.mat = c.mat ∧
        encode_matrix (matrix_multiply3x3 a.mat b.mat) = c.bcm) ∧
      IsGroup (mats (catalog_ops 32)) :=
  ⟨by decide, (catalog_sets_are_groups 32 (by decide)).2⟩

theorem catalog_first_half_proper : ∀ pg ∈ supported_point_groups,
    ∀ i < (catalog_ops pg).length / 2,
      determinant ((catalog_ops pg).getD i malloc_op).mat = 1 ∧
      ((catalog_ops pg).getD ((catalog_ops pg).length / 2 + i) malloc_op).mat =
        matrix_multiply3x3 ((catalog_ops pg).getD i malloc_op).mat invcen := by
  decide!

/-- Claim C22. Canonical ordering of the catalog: for each of the seven
supported point groups the set returned by select_symm_ops has an even number
2n of operators before the sentinel, the elements at indices 0 .. n-1 all have
determinant +1, and the element at index n+i is the entrywise negation of the
element at index i, which is its product with the inversion invcen. -/
theorem catalog_canonical_order :
    ∀ pg ∈ supported_point_groups,
      (select_symm_ops pg).1 = some (catalog_ops pg ++ [sentinel]) ∧
      (catalog_ops pg).length % 2 = 0 ∧
      ∀ i < (catalog_ops pg).length / 2,
        determinant ((catalog_ops pg).getD i malloc_op).mat = 1 ∧
        (∀ r c, ((catalog_ops pg).getD ((catalog_ops pg).length / 2 + i) malloc_op).mat r c =
          -(((catalog_ops pg).getD i malloc_op).mat r c)) ∧
        ((catalog_ops pg).getD ((catalog_ops pg).length / 2 + i) malloc_op).mat =
          matrix_multiply3x3 ((catalog_ops pg).getD i malloc_op).mat invcen := by
  intro pg hpg
  obtain ⟨hsel, -, -, -, hlen, hneg⟩ := catalog_facts pg hpg
  refine ⟨hsel, hlen, fun i hi => ?_⟩
  obtain ⟨hdet, hinv⟩ := catalog_first_half_proper pg hpg i hi
  refine ⟨hdet, fun r c => ?_, hinv⟩
  rw [hneg i hi, negate_matrix_apply]

theorem catalog_canonical_order_witness :
    (422 : Int) ∈ supported_point_groups ∧
      (catalog_ops 422).length % 2 = 0 ∧
      ∀ i < (catalog_ops 422).length / 2,
        determinant ((catalog_ops 422).getD i malloc_op).mat = 1 ∧
        (∀ r c, ((catalog_ops 422).getD ((catalog_ops 422).length / 2 + i) malloc_op).mat r c =
          -(((catalog_ops 422).getD i malloc_op).mat r c)) ∧
        ((catalog_ops 422).getD ((catalog_ops 422).length / 2 + i) malloc_op).mat =
          matrix_multiply3x3 ((catalog_ops 422).getD i malloc_op).mat invcen :=
  ⟨by decide, (catalog_canonical_order 422 (by decide)).2⟩

/-! ## The linked list behind the task queue -/

/-- Claim C30 fails on the sequence `sll_init`, `queue_enqueue`, `queue_dequeue`,
`queue_enqueue`.  After the first enqueue the list is well formed (one element
at address 0, head = tail = 0).  The dequeue returns 0 and the data, frees the
element and leaves `size = 0` and `head = NULL`, but `tail` still points to the
freed element: the guard `0 == size` of `tail = NULL` is tested before
`size--`, when `size` is 1.  So the list is not well formed, and the next
enqueue passes that `tail` to `sll_insert_next`, which reads `elem->next` of
the freed element. -/
theorem queue_tail_dangles_after_emptying :
    sll_well_formed sll_init [] ∧
    queue_enqueue sll_init [] 7 =
      some ({ size := 1, head := some 0, tail := some 0 }, [some { next := none, data := 7 }], 0) ∧
    sll_well_formed { size := 1, head := some 0, tail := some 0 } [some { next := none, data := 7 }] ∧
    queue_dequeue { size := 1, head := some 0, tail := some 0 } [some { next := none, data := 7 }] =
      some ({ size := 0, head := none, tail := some 0 }, [none], 0, some 7) ∧
    ¬ sll_well_formed { size := 0, head := none, tail := some 0 } [none] ∧
    queue_enqueue { size := 0, head := none, tail := some 0 } [none] 8 = none := by
  refine ⟨by decide, by decide, by decide, by decide, by decide, by decide⟩

/-! ## The fold of the catalog operators -/

theorem toOption_eq_some (r : Except exit_reason Int) (n : Int) (h : r.toOption = some n) :
    r = .ok n := by
  cases r with
  | error e => simp [Except.toOption] at h
  | ok m =>
    simp only [Except.toOption, Option.some.injEq] at h
    rw [h]

theorem catalog_fold_order : ∀ pg ∈ supported_point_groups, ∀ g ∈ catalog_ops pg,
    ∃ n ∈ [(1 : Int), 2, 3, 4, 6, -1, -2, -3, -4, -6],
      (classify_fold (round_to_nearest_int (determinant g.mat))
        (round_to_nearest_int (trace g.mat))).toOption = some n ∧
      ((Int.sign n : Int) : ℚ) = determinant g.mat ∧
      IsOrder (scale_matrix (determinant g.mat) g.mat) n.natAbs := by
  decide!

/-- Claim C29. The classified fold is the true order of the operator: for every
operator of each of the seven catalog sets the trace/determinant
classification of analyze_symm_op succeeds (whatever acos and the eigen-solvers
return, the process does not end in the classification step) and stores a fold
n whose sign is the determinant of the matrix M and whose absolute value is the
least positive k with (det(M) * M)^k = I. -/
theorem classified_fold_is_order :
    ∀ pg ∈ supported_point_groups, ∀ g ∈ catalog_ops pg, ∃ n : Int,
      classify_fold (round_to_nearest_int (determinant g.mat))
        (round_to_nearest_int (trace g.mat)) = .ok n ∧
      (∀ ext : external, (analyze_symm_op ext g).1.n_fold = n ∧
        ¬ IsClassificationFailure (analyze_symm_op ext g).2) ∧
      ((Int.sign n : Int) : ℚ) = determinant g.mat ∧
      IsOrder (scale_matrix (determinant g.mat) g.mat) n.natAbs := by
  intro pg hpg g hg
  obtain ⟨n, -, hn, hsign, hord⟩ := catalog_fold_order pg hpg g hg
  have hok := toOption_eq_some _ n hn
  exact ⟨n, hok, fun ext => ⟨(analyze_symm_op_of_ok ext g n hok).1,
    (analyze_symm_op_of_ok ext g n hok).2.2⟩, hsign, hord⟩

theorem classified_fold_is_order_witness :
    (622 : Int) ∈ supported_point_groups ∧
    (catalog_ops 622).getD 8 malloc_op ∈ catalog_ops 622 ∧
    ∃ n : Int,
      classify_fold (round_to_nearest_int (determinant ((catalog_ops 622).getD 8 malloc_op).mat))
        (round_to_nearest_int (trace ((catalog_ops 622).getD 8 malloc_op).mat)) = .ok n ∧
      (∀ ext : external, (analyze_symm_op ext ((catalog_ops 622).getD 8 malloc_op)).1.n_fold = n ∧
        ¬ IsClassificationFailure (analyze_symm_op ext ((catalog_ops 622).getD 8 malloc_op)).2) ∧
      ((Int.sign n : Int) : ℚ) = determinant ((catalog_ops 622).getD 8 malloc_op).mat ∧
      IsOrder (scale_matrix (determinant ((catalog_ops 622).getD 8 malloc_op).mat)
        ((catalog_ops 622).getD 8 malloc_op).mat) n.natAbs :=
  ⟨by decide, by decide!,
    classified_fold_is_order 622 (by decide) ((catalog_ops 622).getD 8 malloc_op) (by decide!)⟩

/-! ## Frame of the coset engine and the fingerprint invariant -/

theorem set_false_kill (c : Bool) (g : symm_op) : set_false (kill c g) = set_false g := by
  unfold kill set_false; split_ifs <;> rfl

theorem set_false_revive (c : Bool) (g : symm_op) : set_false (revive c g) = set_false g := by
  unfold revive set_true set_false; split_ifs <;> rfl

theorem map_bcm_of_map_set_false (L1 L2 : List symm_op)
    (h : L1.map set_false = L2.map set_false) :
    L1.map (fun g => g.bcm) = L2.map (fun g => g.bcm) := by
  have := congrArg (List.map (fun g : symm_op => g.bcm)) h
  simpa [List.map_map, Function.comp_def, set_false] using this

theorem map_mat_of_map_set_false (L1 L2 : List symm_op)
    (h : L1.map set_false = L2.map set_false) : mats L1 = mats L2 := by
  have := congrArg (List.map (fun g : symm_op => g.mat)) h
  simpa [mats, List.map_map, Function.comp_def, set_false] using this

theorem bcm_ne_zero_of_map_set_false (L1 L2 : List symm_op)
    (h : L1.map set_false = L2.map set_false) (h2 : ∀ g ∈ L2, g.bcm ≠ 0) :
    ∀ g ∈ L1, g.bcm ≠ 0 := by
  intro g hg
  have hmem : g.bcm ∈ L1.map (fun g => g.bcm) := List.mem_map.mpr ⟨g, hg, rfl⟩
  rw [map_bcm_of_map_set_false L1 L2 h] at hmem
  obtain ⟨y, hy, hyg⟩ := List.mem_map.mp hmem
  rw [← hyg]
  exact h2 y hy

theorem sieve_map_set_false (R : Mat3 → Nat → Bool) :
    ∀ (n : Nat) (L : List symm_op), (sieve R n L).map set_false = L.map set_false
  | 0, _ => rfl
  | _ + 1, [] => rfl
  | n + 1, g :: rest => by
    simp only [sieve, List.map_cons]
    rw [sieve_map_set_false R n]
    split_ifs <;> simp [Function.comp_def, set_false_kill]

theorem A_loop_j_frame (gi : symm_op) (s : symm_op) (hs : s.bcm = 0) (tl : List symm_op) :
    ∀ (Hl L : List symm_op), (∀ g ∈ L, g.bcm ≠ 0) →
      ∃ L1, A_loop_j gi Hl (L ++ s :: tl) = L1 ++ s :: tl ∧ L1.map set_false = L.map set_false
  | [], L, _ => ⟨L, rfl, rfl⟩
  | h :: Hl, L, hL => by
    rw [A_loop_j]
    by_cases hh : h.bcm = 0
    · rw [if_pos hh]
      exact ⟨L, rfl, rfl⟩
    · rw [if_neg hh]
      simp only [A_loop_k_eq _ s hs tl L hL]
      have hmap : (L.map (fun x => kill (decide (encode_matrix (matrix_multiply3x3 gi.mat h.mat)
          = x.bcm)) x)).map set_false = L.map set_false := by
        rw [List.map_map]
        exact List.map_congr_left (fun x _ => set_false_kill _ _)
      obtain ⟨L1, h1, h2⟩ := A_loop_j_frame gi s hs tl Hl _
        (bcm_ne_zero_of_map_set_false _ _ hmap hL)
      exact ⟨L1, h1, h2.trans hmap⟩

theorem A_loop_i_frame (H : List symm_op) (s : symm_op) (hs : s.bcm = 0) (tl : List symm_op) :
    ∀ (n : Nat) (L : List symm_op), (∀ g ∈ L, g.bcm ≠ 0) →
      ∃ L1, A_loop_i H n (L ++ s :: tl) = L1 ++ s :: tl ∧ L1.map set_false = L.map set_false
  | 0, L, _ => ⟨L, by simp [A_loop_i], rfl⟩
  | n + 1, [], _ => ⟨[], by simp [A_loop_i, hs], rfl⟩
  | n + 1, g :: L, hL => by
    have hg : g.bcm ≠ 0 := hL g (List.mem_cons_self _ _)
    have hL1 : ∀ x ∈ L, x.bcm ≠ 0 := fun x hx => hL x (List.mem_cons_of_mem _ hx)
    rw [List.cons_append, A_loop_i, if_neg hg]
    by_cases hf : g.truefalse = true
    · rw [if_pos hf]
      obtain ⟨L1, e1, f1⟩ := A_loop_j_frame g s hs tl (H.drop 1) L hL1
      rw [e1]
      obtain ⟨L2, e2, f2⟩ := A_loop_i_frame H s hs tl n L1
        (bcm_ne_zero_of_map_set_false _ _ f1 hL1)
      exact ⟨g :: L2, by rw [e2, List.cons_append], by rw [List.map_cons, List.map_cons, f2, f1]⟩
    · rw [if_neg hf]
      obtain ⟨L2, e2, f2⟩ := A_loop_i_frame H s hs tl n L hL1
      exact ⟨g :: L2, by rw [e2, List.cons_append], by rw [List.map_cons, List.map_cons, f2]⟩

theorem coset_decomposition_A_frame (Gops H : List symm_op) (sG : symm_op)
    (hsG : sG.bcm = 0) (hGb : ∀ g ∈ Gops, g.bcm ≠ 0) :
    ∃ L, coset_decomposition_A (Gops ++ [sG]) H = L ++ [sG] ∧
      L.map set_false = Gops.map set_false :=
  A_loop_i_frame H sG hsG [] _ Gops hGb

theorem coset_decomposition_B_frame (Gops H : List symm_op) (sG : symm_op)
    (hsG : sG.bcm = 0) (hGb : ∀ g ∈ Gops, g.bcm ≠ 0) (ext : Bool) :
    ∃ L, coset_decomposition_B ext (Gops ++ [sG]) H = L ++ [sG] ∧
      L.map set_false = Gops.map set_false := by
  have hlenF : ∀ Hgen, (sieve (hits_B Hgen) (Gops.length / 2)
      (Gops.take (Gops.length / 2))).length = Gops.length / 2 := by
    intro Hgen
    rw [sieve_length, List.length_take]
    exact Nat.min_eq_left (Nat.div_le_self _ _)
  have hsplit : Gops.map set_false =
      (Gops.take (Gops.length / 2)).map set_false ++
        (Gops.drop (Gops.length / 2)).map set_false := by
    rw [← List.map_append, List.take_append_drop]
  unfold coset_decomposition_B
  simp only [B_G_count, count_ops_append_sentinel sG hsG [] Gops hGb]
  rw [List.take_append_of_le_length (Nat.div_le_self _ _),
    List.drop_append_of_le_length (Nat.div_le_self _ _),
    B_turn_off_eq sG hsG [] _ (fun g hg => hGb g (List.mem_of_mem_drop hg)),
    B_loop_i_eq _ _ _ _ (by simp [Nat.div_le_self])]
  split_ifs
  · rw [List.take_left' (hlenF _), List.drop_left' (hlenF _),
      B_ext_loop_eq sG hsG [] _ _ (by
        intro x hx
        obtain ⟨y, hy, rfl⟩ := List.mem_map.mp hx
        exact hGb y (List.mem_of_mem_drop hy)), ← List.append_assoc]
    refine ⟨_, rfl, ?_⟩
    rw [List.map_append, sieve_map_set_false, List.map_map, List.map_map, hsplit]
    congr 1
    exact List.map_congr_left (fun x _ => set_false_revive _ _)
  · rw [← List.append_assoc]
    refine ⟨_, rfl, ?_⟩
    rw [List.map_append, sieve_map_set_false, List.map_map, hsplit]
    rfl

/-- Claim C24. Frame of the coset engine: for a supergroup array G (elements
with non-zero fingerprint followed by the sentinel) and any H,
coset_decomposition_A and coset_decomposition_B return G with the same number
of elements and the same sentinel, and every element before the sentinel
agrees with the one before the call in all fields but the flag `truefalse`:
in particular the matrices and the fingerprints are the same.  (H is only
read: the functions give back no other array than G.) -/
theorem coset_engine_frame (Gops H : List symm_op) (sG : symm_op)
    (hsG : sG.bcm = 0) (hGb : ∀ g ∈ Gops, g.bcm ≠ 0) :
    ∀ R ∈ [coset_decomposition_A (Gops ++ [sG]) H,
        coset_decomposition_B false (Gops ++ [sG]) H,
        coset_decomposition_B true (Gops ++ [sG]) H],
      ∃ L, R = L ++ [sG] ∧ L.map set_false = Gops.map set_false ∧
        R.length = (Gops ++ [sG]).length ∧ mats R = mats (Gops ++ [sG]) ∧
        R.map (fun g => g.bcm) = (Gops ++ [sG]).map (fun g => g.bcm) ∧
        ∀ k, { R.getD k malloc_op with truefalse := (Gops ++ [sG]).getD k malloc_op |>.truefalse } =
          (Gops ++ [sG]).getD k malloc_op := by
  have key : ∀ R : List symm_op,
      (∃ L, R = L ++ [sG] ∧ L.map set_false = Gops.map set_false) →
      ∃ L, R = L ++ [sG] ∧ L.map set_false = Gops.map set_false ∧
        R.length = (Gops ++ [sG]).length ∧ mats R = mats (Gops ++ [sG]) ∧
        R.map (fun g => g.bcm) = (Gops ++ [sG]).map (fun g => g.bcm) ∧
        ∀ k, { R.getD k malloc_op with
            truefalse := (Gops ++ [sG]).getD k malloc_op |>.truefalse } =
          (Gops ++ [sG]).getD k malloc_op := by
    rintro R ⟨L, rfl, hL⟩
    have hall : (L ++ [sG]).map set_false = (Gops ++ [sG]).map set_false := by
      rw [List.map_append, List.map_append, hL]
    refine ⟨L, rfl, hL, ?_, map_mat_of_map_set_false _ _ hall,
      map_bcm_of_map_set_false _ _ hall, ?_⟩
    · have := congrArg List.length hall
      simpa using this
    · intro k
      have hk := congrArg (fun X => X.getD k (set_false malloc_op)) hall
      simp only [List.getD_map] at hk
      have h1 : ∀ a b : symm_op, set_false a = set_false b →
          { a with truefalse := b.truefalse } = b := by
        intro a b hab
        cases a; cases b
        simp only [set_false, symm_op.mk.injEq] at hab ⊢
        tauto
      exact h1 _ _ hk
  intro R hR
  simp only [List.mem_cons, List.mem_singleton, List.not_mem_nil, or_false] at hR
  rcases hR with rfl | rfl | rfl
  · exact key _ (coset_decomposition_A_frame Gops H sG hsG hGb)
  · exact key _ (coset_decomposition_B_frame Gops H sG hsG hGb false)
  · exact key _ (coset_decomposition_B_frame Gops H sG hsG hGb true)

theorem coset_engine_frame_witness :
    sentinel.bcm = 0 ∧ (∀ g ∈ catalog_ops 2, g.bcm ≠ 0) ∧
    ∀ R ∈ [coset_decomposition_A (catalog_ops 2 ++ [sentinel]) (catalog_ops 1 ++ [sentinel]),
        coset_decomposition_B false (catalog_ops 2 ++ [sentinel]) (catalog_ops 1 ++ [sentinel]),
        coset_decomposition_B true (catalog_ops 2 ++ [sentinel]) (catalog_ops 1 ++ [sentinel])],
      ∃ L, R = L ++ [sentinel] ∧ L.map set_false = (catalog_ops 2).map set_false ∧
        R.length = (catalog_ops 2 ++ [sentinel]).length ∧
        mats R = mats (catalog_ops 2 ++ [sentinel]) ∧
        R.map (fun g => g.bcm) = (catalog_ops 2 ++ [sentinel]).map (fun g => g.bcm) ∧
        ∀ k, { R.getD k malloc_op with
            truefalse := (catalog_ops 2 ++ [sentinel]).getD k malloc_op |>.truefalse } =
          (catalog_ops 2 ++ [sentinel]).getD k malloc_op :=
  ⟨by decide!, by decide!,
    coset_engine_frame (catalog_ops 2) (catalog_ops 1 ++ [sentinel]) sentinel (by decide!)
      (by decide!)⟩

theorem fingerprintInvariant_append_sentinel (L : List symm_op) (s : symm_op) (hs : s.bcm = 0)
    (hL : ∀ g ∈ L, g.bcm ≠ 0) :
    FingerprintInvariant (L ++ [s]) ↔ ∀ g ∈ L, g.bcm = encode_matrix g.mat := by
  unfold FingerprintInvariant
  rw [count_ops_append_sentinel s hs [] L hL, List.take_left' rfl]

theorem fingerprintInvariant_transform_group (tm : Mat3) :
    ∀ G : List symm_op, FingerprintInvariant (transform_group tm G)
  | [] => by simp [FingerprintInvariant, transform_group]
  | g :: rest => by
    have ih := fingerprintInvariant_transform_group tm rest
    unfold FingerprintInvariant at ih ⊢
    rw [transform_group]
    by_cases hg : g.bcm = 0
    · rw [if_pos hg]
      simp [count_ops, hg]
    · rw [if_neg hg]
      simp only [count_ops]
      split_ifs
      · simp
      · intro x hx
        rw [List.take_succ_cons] at hx
        rcases List.mem_cons.mp hx with rfl | hx
        · rfl
        · exact ih x hx

theorem fingerprintInvariant_of_frame (Gops L : List symm_op) (sG : symm_op) (hsG : sG.bcm = 0)
    (hGb : ∀ g ∈ Gops, g.bcm ≠ 0) (hL : L.map set_false = Gops.map set_false)
    (hG : FingerprintInvariant (Gops ++ [sG])) : FingerprintInvariant (L ++ [sG]) := by
  rw [fingerprintInvariant_append_sentinel Gops sG hsG hGb] at hG
  rw [fingerprintInvariant_append_sentinel L sG hsG (bcm_ne_zero_of_map_set_false _ _ hL hGb)]
  intro g hg
  have hmem : set_false g ∈ L.map set_false := List.mem_map.mpr ⟨g, hg, rfl⟩
  rw [hL] at hmem
  obtain ⟨y, hy, hyg⟩ := List.mem_map.mp hmem
  have hb : (set_false y).bcm = (set_false g).bcm := congrArg (fun x : symm_op => x.bcm) hyg
  have hm : (set_false y).mat = (set_false g).mat := congrArg (fun x : symm_op => x.mat) hyg
  simp only [set_false] at hb hm
  rw [← hb, ← hm]
  exact hG y hy

/-- Claim C23. Fingerprint invariant ("the fingerprint of every element before
the sentinel is encode_matrix of its current matrix"): it holds for the array
returned by select_symm_ops for each supported point group; it holds after
transform_group for every transformation matrix (the fingerprints are derived
again from the new matrices), so transform_group preserves it, in particular
when the determinant is not zero; and coset_decomposition_A and
coset_decomposition_B (with or without the extended step) preserve it on a
sentinel-terminated array G, for any H. -/
theorem fingerprint_invariant :
    (∀ pg ∈ supported_point_groups, ∀ G ∈ (select_symm_ops pg).1, FingerprintInvariant G) ∧
    (∀ (tm : Mat3) (G : List symm_op), FingerprintInvariant (transform_group tm G)) ∧
    (∀ (tm : Mat3) (G : List symm_op), determinant tm ≠ 0 → FingerprintInvariant G →
      FingerprintInvariant (transform_group tm G)) ∧
    (∀ (Gops H : List symm_op) (sG : symm_op), sG.bcm = 0 → (∀ g ∈ Gops, g.bcm ≠ 0) →
      FingerprintInvariant (Gops ++ [sG]) →
      FingerprintInvariant (coset_decomposition_A (Gops ++ [sG]) H) ∧
      ∀ ext : Bool, FingerprintInvariant (coset_decomposition_B ext (Gops ++ [sG]) H)) := by
  refine ⟨?_, fingerprintInvariant_transform_group,
    fun tm G _ _ => fingerprintInvariant_transform_group tm G, ?_⟩
  · intro pg hpg G hG
    obtain ⟨hsel, hOp, -, -, -⟩ := catalog_facts pg hpg
    rw [hsel] at hG
    cases hG
    rw [fingerprintInvariant_append_sentinel _ _ rfl (fun g hg => (hOp g hg).2.1)]
    exact fun g hg => (hOp g hg).1
  · intro Gops H sG hsG hGb hG
    constructor
    · obtain ⟨L, hR, hL⟩ := coset_decomposition_A_frame Gops H sG hsG hGb
      rw [hR]
      exact fingerprintInvariant_of_frame Gops L sG hsG hGb hL hG
    · intro ext
      obtain ⟨L, hR, hL⟩ := coset_decomposition_B_frame Gops H sG hsG hGb ext
      rw [hR]
      exact fingerprintInvariant_of_frame Gops L sG hsG hGb hL hG

theorem fingerprint_invariant_witness :
    FingerprintInvariant (transform_group sample_transformation (catalog_ops 222 ++ [sentinel])) ∧
    sentinel.bcm = 0 ∧ (∀ g ∈ catalog_ops 222, g.bcm ≠ 0) ∧
    FingerprintInvariant (catalog_ops 222 ++ [sentinel]) ∧
    FingerprintInvariant (coset_decomposition_A (catalog_ops 222 ++ [sentinel])
      (catalog_ops 2 ++ [sentinel])) ∧
    ∀ ext : Bool, FingerprintInvariant (coset_decomposition_B ext (catalog_ops 222 ++ [sentinel])
      (catalog_ops 2 ++ [sentinel])) :=
  ⟨fingerprint_invariant.2.1 _ _, by decide!, by decide!, by decide!,
    fingerprint_invariant.2.2.2 (catalog_ops 222) (catalog_ops 2 ++ [sentinel]) sentinel
      (by decide!) (by decide!) (by decide!)⟩

/-! ## The symmetry test and the scaling of the axis -/

theorem transpose_matrix_apply (m : Mat3) (i j : Fin 3) : transpose_matrix m i j = m j i := by
  fin_cases i <;> fin_cases j <;> simp [transpose_matrix, swap_entries]

theorem is_symmetric_of_invalid (s : symm_op) (hs : s.bcm = encode_matrix s.mat)
    (h : ∃ i j, ¬ ValidEntry (s.mat i j)) : is_symmetric s = true := by
  have ht : ∃ i j, ¬ ValidEntry (transpose_matrix s.mat i j) := by
    obtain ⟨i, j, hb⟩ := h
    exact ⟨j, i, by rwa [transpose_matrix_apply]⟩
  unfold is_symmetric
  rw [hs, encode_matrix_invalid _ h, encode_matrix_invalid _ ht, decide_eq_true_iff]

theorem is_symmetric_of_valid (s : symm_op) (hs : s.bcm = encode_matrix s.mat)
    (hv : ∀ i j, ValidEntry (s.mat i j)) :
    is_symmetric s = true ↔ transpose_matrix s.mat = s.mat := by
  unfold is_symmetric
  rw [hs, decide_eq_true_iff]
  constructor
  · intro h
    exact encode_matrix_injective _ _ (fun i j => by rw [transpose_matrix_apply]; exact hv j i) hv h
  · intro h
    rw [h]

/-- Claim C25 fails for matrices with an entry outside {-1, 0, 1}.  Element 1 of
the catalog set of point group 222 after transform_group with the sample
transformation (determinant 2) has the matrix (-1 2 0 / 0 1 0 / 0 0 -1) and
the fingerprint encode_matrix of it, which is ERROR; the matrix is not equal to
its transpose, and is_symmetric returns 1, since the transpose encodes to ERROR
as well.  In general is_symmetric returns 1 for every operator with an entry
outside {-1, 0, 1} (and fingerprint = encode_matrix of the matrix); for
matrices with all entries in {-1, 0, 1} it returns 1 exactly when the matrix
equals its transpose. -/
theorem is_symmetric_on_invalid_entries :
    determinant sample_transformation = 2 ∧
    ((transform_group sample_transformation (catalog_ops 222 ++ [sentinel])).getD 1 malloc_op).mat =
      ![![-1, 2, 0], ![0, 1, 0], ![0, 0, -1]] ∧
    ((transform_group sample_transformation (catalog_ops 222 ++ [sentinel])).getD 1 malloc_op).bcm =
      encode_matrix ![![-1, 2, 0], ![0, 1, 0], ![0, 0, -1]] ∧
    transpose_matrix ![![-1, 2, 0], ![0, 1, 0], ![0, 0, -1]] ≠
      ![![-1, 2, 0], ![0, 1, 0], ![0, 0, -1]] ∧
    is_symmetric
      ((transform_group sample_transformation (catalog_ops 222 ++ [sentinel])).getD 1 malloc_op) =
      true ∧
    (∀ s : symm_op, s.bcm = encode_matrix s.mat → (∃ i j, ¬ ValidEntry (s.mat i j)) →
      is_symmetric s = true) ∧
    (∀ s : symm_op, s.bcm = encode_matrix s.mat → (∀ i j, ValidEntry (s.mat i j)) →
      (is_symmetric s = true ↔ transpose_matrix s.mat = s.mat)) :=
  ⟨by decide!, by decide!, by decide!, by decide!, by decide!, is_symmetric_of_invalid,
    is_symmetric_of_valid⟩

/-- Claim C26, as stated, fails: the eigenvector (0, 100, 200) has the non-zero
components 100 and 200, but unitize_eigen_vector replaces the zero component by
99.99 before it looks for the smallest magnitude, so it divides by 99.99: the
result is (0, 10000/9999, 20000/9999), whose smallest non-zero component has
magnitude 10000/9999 and not 1. -/
theorem unitize_large_axis_counterexample :
    (∃ i, large_axis_op.eig_vec i ≠ 0) ∧ IsSmallestNonzeroAbs large_axis_op.eig_vec 100 ∧
    (unitize_eigen_vector large_axis_op).eig_vec = ![0, 10000 / 9999, 20000 / 9999] ∧
    (unitize_eigen_vector large_axis_op).eig_vec ≠ (fun i => large_axis_op.eig_vec i / 100) ∧
    ¬ IsSmallestNonzeroAbs (unitize_eigen_vector large_axis_op).eig_vec 1 := by
  refine ⟨by decide!, by decide!, by decide!, by decide!, by decide!⟩

theorem smallest_of_three (a0 a1 a2 m : ℚ) (h0 : m ≤ a0) (h1 : m ≤ a1) (h2 : m ≤ a2)
    (hex : a0 = m ∨ a1 = m ∨ a2 = m) :
    (if a2 < (if a1 < a0 then a1 else a0) then a2 else (if a1 < a0 then a1 else a0)) = m := by
  split_ifs <;> rcases hex with h | h | h <;> linarith

theorem unitize_eigen_vector_smallest (s : symm_op) (m : ℚ)
    (hm : IsSmallestNonzeroAbs s.eig_vec m)
    (hsmall : m ≤ 9999 / 100 ∨ ∀ i, s.eig_vec i ≠ 0) :
    (unitize_eigen_vector s).eig_vec = fun i => s.eig_vec i / m := by
  obtain ⟨⟨k, hk0, hkm⟩, hle⟩ := hm
  have harr : ∀ i : Fin 3,
      (if is_zero |s.eig_vec i| = true then (9999 / 100 : ℚ) else |s.eig_vec i|) =
        if s.eig_vec i = 0 then 9999 / 100 else |s.eig_vec i| := by
    intro i
    simp only [is_zero_iff, abs_eq_zero]
  have hge : ∀ i : Fin 3, m ≤ if s.eig_vec i = 0 then (9999 / 100 : ℚ) else |s.eig_vec i| := by
    intro i
    split_ifs with h0
    · rcases hsmall with h | h
      · exact h
      · exact absurd h0 (h i)
    · exact hle i h0
  have hk : (if s.eig_vec k = 0 then (9999 / 100 : ℚ) else |s.eig_vec k|) = m := by
    rw [if_neg hk0, hkm]
  have hex : (if s.eig_vec 0 = 0 then (9999 / 100 : ℚ) else |s.eig_vec 0|) = m ∨
      (if s.eig_vec 1 = 0 then (9999 / 100 : ℚ) else |s.eig_vec 1|) = m ∨
      (if s.eig_vec 2 = 0 then (9999 / 100 : ℚ) else |s.eig_vec 2|) = m := by
    fin_cases k
    · exact Or.inl hk
    · exact Or.inr (Or.inl hk)
    · exact Or.inr (Or.inr hk)
  unfold unitize_eigen_vector
  simp only [harr]
  rw [smallest_of_three _ _ _ m (hge 0) (hge 1) (hge 2) hex]

/-- Claim C26, amended. For every eigenvector with at least one non-zero
component whose smallest non-zero magnitude m is at most 99.99, or which has no
zero component at all, unitize_eigen_vector divides each of the three
components by m and changes no other field: afterwards the smallest non-zero
component has magnitude exactly 1, every component keeps its sign (zero stays
zero) and all ratios between components are the same. -/
theorem unitize_eigen_vector_scales_to_one (s : symm_op) (m : ℚ)
    (hm : IsSmallestNonzeroAbs s.eig_vec m)
    (hsmall : m ≤ 9999 / 100 ∨ ∀ i, s.eig_vec i ≠ 0) :
    (unitize_eigen_vector s).eig_vec = (fun i => s.eig_vec i / m) ∧
    IsSmallestNonzeroAbs (unitize_eigen_vector s).eig_vec 1 ∧
    (∀ i, (0 < (unitize_eigen_vector s).eig_vec i ↔ 0 < s.eig_vec i) ∧
      ((unitize_eigen_vector s).eig_vec i < 0 ↔ s.eig_vec i < 0) ∧
      ((unitize_eigen_vector s).eig_vec i = 0 ↔ s.eig_vec i = 0)) ∧
    (∀ i j, (unitize_eigen_vector s).eig_vec i * s.eig_vec j =
      (unitize_eigen_vector s).eig_vec j * s.eig_vec i) ∧
    { unitize_eigen_vector s with eig_vec := s.eig_vec } = s := by
  have hv := unitize_eigen_vector_smallest s m hm hsmall
  obtain ⟨⟨k, hk0, hkm⟩, hle⟩ := hm
  have hmpos : 0 < m := by
    rw [← hkm]
    exact abs_pos.mpr hk0
  refine ⟨hv, ⟨⟨k, ?_, ?_⟩, ?_⟩, ?_, ?_, ?_⟩
  · rw [hv]
    exact div_ne_zero hk0 hmpos.ne'
  · rw [hv]
    simp only [abs_div, hkm, abs_of_pos hmpos]
    exact div_self hmpos.ne'
  · intro i hi
    rw [hv] at hi ⊢
    simp only at hi ⊢
    have hi0 : s.eig_vec i ≠ 0 := fun h => hi (by rw [h, zero_div])
    rw [abs_div, abs_of_pos hmpos, le_div_iff₀ hmpos, one_mul]
    exact hle i hi0
  · intro i
    rw [hv]
    simp only
    refine ⟨div_pos_iff_of_pos_right hmpos, by rw [div_lt_iff₀ hmpos, zero_mul], ?_⟩
    rw [div_eq_zero_iff]
    exact ⟨fun h => h.resolve_right hmpos.ne', Or.inl⟩
  · intro i j
    rw [hv]
    simp only
    ring
  · unfold unitize_eigen_vector
    rfl

theorem unitize_eigen_vector_scales_to_one_witness :
    IsSmallestNonzeroAbs ({ malloc_op with eig_vec := ![0, -2, 4] } : symm_op).eig_vec 2 ∧
    ((2 : ℚ) ≤ 9999 / 100 ∨
      ∀ i, ({ malloc_op with eig_vec := ![0, -2, 4] } : symm_op).eig_vec i ≠ 0) ∧
    (unitize_eigen_vector { malloc_op with eig_vec := ![0, -2, 4] }).eig_vec =
      (fun i => ({ malloc_op with eig_vec := ![0, -2, 4] } : symm_op).eig_vec i / 2) ∧
    IsSmallestNonzeroAbs (unitize_eigen_vector { malloc_op with eig_vec := ![0, -2, 4] }).eig_vec 1 :=
  ⟨by decide!, Or.inl (by decide!),
    (unitize_eigen_vector_scales_to_one { malloc_op with eig_vec := ![0, -2, 4] } 2 (by decide!)
      (Or.inl (by decide!))).1,
    (unitize_eigen_vector_scales_to_one { malloc_op with eig_vec := ![0, -2, 4] } 2 (by decide!)
      (Or.inl (by decide!))).2.1⟩

/-! ## Array accesses of algorithm A -/

theorem A_loop_k_checked_eq (p : Nat) (s : symm_op) (hs : s.bcm = 0) (tl : List symm_op) :
    ∀ L : List symm_op, (∀ g ∈ L, g.bcm ≠ 0) →
      A_loop_k_checked p (L ++ s :: tl) = .done (A_loop_k p (L ++ s :: tl))
  | [], _ => by simp [A_loop_k_checked, A_loop_k, hs]
  | g :: L, h => by
    have hg : g.bcm ≠ 0 := h g (List.mem_cons_self _ _)
    rw [List.cons_append, A_loop_k_checked, A_loop_k, if_neg hg, if_neg hg,
      A_loop_k_checked_eq p s hs tl L (fun x hx => h x (List.mem_cons_of_mem _ hx))]
    rfl

theorem A_loop_j_checked_eq (gi : symm_op) (sH : symm_op) (hsH : sH.bcm = 0)
    (tlH : List symm_op) (s : symm_op) (hs : s.bcm = 0) (tl : List symm_op) :
    ∀ (Hs L : List symm_op), (∀ h ∈ Hs, h.bcm ≠ 0) → (∀ g ∈ L, g.bcm ≠ 0) →
      A_loop_j_checked gi (Hs ++ sH :: tlH) (L ++ s :: tl) =
        .done (A_loop_j gi (Hs ++ sH :: tlH) (L ++ s :: tl))
  | [], L, _, _ => by simp [A_loop_j_checked, A_loop_j, hsH]
  | h :: Hs, L, hH, hL => by
    have hh : h.bcm ≠ 0 := hH h (List.mem_cons_self _ _)
    rw [List.cons_append, A_loop_j_checked, A_loop_j, if_neg hh, if_neg hh]
    simp only [A_loop_k_checked_eq _ s hs tl L hL, checked_run.andThen,
      A_loop_k_eq _ s hs tl L hL]
    exact A_loop_j_checked_eq gi sH hsH tlH s hs tl Hs _
      (fun x hx => hH x (List.mem_cons_of_mem _ hx))
      (fun x hx => by
        obtain ⟨y, hy, rfl⟩ := List.mem_map.mp hx
        simpa using hL y hy)

theorem A_loop_i_checked_eq (H : List symm_op) (Hs : List symm_op) (sH : symm_op)
    (hsH : sH.bcm = 0) (tlH : List symm_op) (hH : H.drop 1 = Hs ++ sH :: tlH)
    (hHs : ∀ h ∈ Hs, h.bcm ≠ 0) (s : symm_op) (hs : s.bcm = 0) (tl : List symm_op) :
    ∀ (n : Nat) (L : List symm_op), (∀ g ∈ L, g.bcm ≠ 0) → L.length < n →
      A_loop_i_checked H n (L ++ s :: tl) = .done (A_loop_i H n (L ++ s :: tl))
  | 0, L, _, hn => by simp at hn
  | n + 1, [], _, _ => by simp [A_loop_i_checked, A_loop_i, hs]
  | n + 1, g :: L, hL, hn => by
    have hg : g.bcm ≠ 0 := hL g (List.mem_cons_self _ _)
    have hL1 : ∀ x ∈ L, x.bcm ≠ 0 := fun x hx => hL x (List.mem_cons_of_mem _ hx)
    have hn1 : L.length < n := by simpa using hn
    rw [List.cons_append, A_loop_i_checked, A_loop_i, if_neg hg, if_neg hg, hH]
    by_cases hf : g.truefalse = true
    · rw [if_pos hf, if_pos hf, A_loop_j_checked_eq g sH hsH tlH s hs tl Hs L hHs hL1,
        A_loop_j_eq g sH hsH tlH s hs tl Hs L hHs hL1]
      simp only [checked_run.andThen]
      rw [A_loop_i_checked_eq H Hs sH hsH tlH hH hHs s hs tl n _ (fun x hx => by
        obtain ⟨y, hy, rfl⟩ := List.mem_map.mp hx
        simpa using hL1 y hy) (by simpa using hn1)]
    · rw [if_neg hf, if_neg hf]
      simp only [checked_run.andThen]
      rw [A_loop_i_checked_eq H Hs sH hsH tlH hH hHs s hs tl n L hL1 hn1]

/-- Claim C27 fails for algorithm A when H holds no operator.  For H consisting
of its sentinel alone (`count_ops` gives 0) and the catalog set of point group
1 as G, the loop `for (j = 1; 0 != H[j].bcm; j++)` of coset_decomposition_A
reads `H[1]`, the element after the sentinel of H; the same happens for every
G whose first element is active.  When H has an element before its sentinel
(algorithm A never reads `H[0]`), every access of algorithm A stays within the
arrays and the run ends with the result of coset_decomposition_A. -/
theorem algorithm_A_reads_past_sentinel :
    count_ops [sentinel] = 0 ∧
    (select_symm_ops 1).1 = some (catalog_ops 1 ++ [sentinel]) ∧
    coset_decomposition_A_checked (catalog_ops 1 ++ [sentinel]) [sentinel] = .out_of_bounds ∧
    (∀ (g0 sH : symm_op) (rest : List symm_op), g0.bcm ≠ 0 → g0.truefalse = true →
      coset_decomposition_A_checked (g0 :: rest) [sH] = .out_of_bounds) ∧
    (∀ (Gops Htail : List symm_op) (h0 sG sH : symm_op), sG.bcm = 0 → sH.bcm = 0 →
      (∀ g ∈ Gops, g.bcm ≠ 0) → (∀ h ∈ Htail, h.bcm ≠ 0) →
      coset_decomposition_A_checked (Gops ++ [sG]) (h0 :: Htail ++ [sH]) =
        .done (coset_decomposition_A (Gops ++ [sG]) (h0 :: Htail ++ [sH]))) := by
  refine ⟨by decide, (catalog_facts 1 (by decide)).1, by decide!, ?_, ?_⟩
  · intro g0 sH rest hg hf
    simp [coset_decomposition_A_checked, A_loop_i_checked, A_loop_j_checked,
      checked_run.andThen, hg, hf]
  · intro Gops Htail h0 sG sH hsG hsH hGb hHb
    exact A_loop_i_checked_eq (h0 :: Htail ++ [sH]) Htail sH hsH [] rfl hHb sG hsG [] _ Gops hGb
      (by simp)

/-! ## Algorithm B on acentric subgroups -/

theorem negate_matrix_multiply3x3 (a b : Mat3) :
    matrix_multiply3x3 (negate_matrix a) b = negate_matrix (matrix_multiply3x3 a b) := by
  funext i j
  simp only [matrix_multiply3x3, negate_matrix_apply]
  ring

theorem encode_negate_identity : encode_matrix (negate_matrix identity_matrix) = INVERSION_BCM := by
  decide!

theorem mem_mats_centric_closure (Hops : List symm_op) (m : Mat3) :
    m ∈ mats (centric_closure Hops) ↔ m ∈ mats Hops ∨ negate_matrix m ∈ mats Hops := by
  simp only [mats, centric_closure, List.map_append, List.map_map, List.mem_append, List.mem_map,
    Function.comp, neg_op]
  constructor
  · rintro (h | ⟨x, hx, rfl⟩)
    · exact Or.inl h
    · exact Or.inr ⟨x, hx, (negate_negate _).symm⟩
  · rintro (h | ⟨x, hx, hxe⟩)
    · exact Or.inl h
    · exact Or.inr ⟨x, hx, by rw [hxe, negate_negate]⟩

theorem length_centric_closure (Hops : List symm_op) :
    (centric_closure Hops).length = 2 * Hops.length := by
  simp [centric_closure, two_mul]

theorem take_centric_closure (Hops : List symm_op) :
    (centric_closure Hops).take ((centric_closure Hops).length / 2) = Hops := by
  rw [length_centric_closure, Nat.mul_div_cancel_left _ (by decide : 0 < 2)]
  exact List.take_left' rfl

theorem canonicalOrder_centric_closure (Hops : List symm_op) :
    CanonicalOrder (centric_closure Hops) := by
  refine ⟨by rw [length_centric_closure]; omega, ?_⟩
  rw [length_centric_closure, Nat.mul_div_cancel_left _ (by decide : 0 < 2)]
  intro j hj
  unfold centric_closure
  rw [List.getD_append_right _ _ _ _ (Nat.le_add_right _ _), Nat.add_sub_cancel_left,
    List.getD_append _ _ _ _ hj, List.getD_eq_getElem _ _ (by simpa using hj),
    List.getD_eq_getElem _ _ hj, List.getElem_map]
  rfl

theorem isGroup_centric_closure (Hops : List symm_op) (hgrp : IsGroup (mats Hops)) :
    IsGroup (mats (centric_closure Hops)) := by
  obtain ⟨hid, hmul, hinv⟩ := hgrp
  refine ⟨(mem_mats_centric_closure _ _).mpr (Or.inl hid), ?_, ?_⟩
  · intro a ha b hb
    rw [mem_mats_centric_closure] at ha hb ⊢
    rcases ha with ha | ha <;> rcases hb with hb | hb
    · exact Or.inl (hmul a ha b hb)
    · right
      rw [← matrix_multiply3x3_negate]
      exact hmul a ha _ hb
    · right
      rw [← negate_matrix_multiply3x3]
      exact hmul _ ha b hb
    · left
      have := hmul _ ha _ hb
      rwa [matrix_multiply3x3_negate, negate_matrix_multiply3x3, negate_negate] at this
  · intro a ha
    rw [mem_mats_centric_closure] at ha
    rcases ha with ha | ha
    · obtain ⟨b, hb, h1, h2⟩ := hinv a ha
      exact ⟨b, (mem_mats_centric_closure _ _).mpr (Or.inl hb), h1, h2⟩
    · obtain ⟨b, hb, h1, h2⟩ := hinv _ ha
      refine ⟨negate_matrix b, (mem_mats_centric_closure _ _).mpr
        (Or.inr (by rw [negate_negate]; exact hb)), ?_, ?_⟩
      · rw [matrix_multiply3x3_negate, ← negate_matrix_multiply3x3]
        exact h1
      · rw [negate_matrix_multiply3x3, ← matrix_multiply3x3_negate]
        exact h2

theorem negate_mem_of_canonicalOrder (Gops : List symm_op) (hGc : CanonicalOrder Gops)
    (m : Mat3) (hm : m ∈ mats Gops) : negate_matrix m ∈ mats Gops := by
  obtain ⟨g, hg, rfl⟩ := List.mem_map.mp hm
  obtain ⟨k, hk, rfl⟩ := List.getElem_of_mem hg
  have hk2 : Gops[k] = Gops.getD k malloc_op := (List.getD_eq_getElem _ _ hk).symm
  rw [hk2]
  by_cases hlt : k < Gops.length / 2
  · rw [← hGc.2 k hlt]
    exact List.mem_map.mpr ⟨_, getD_mem Gops _ (by have := hGc.1; omega), rfl⟩
  · have hkk : k = Gops.length / 2 + (k - Gops.length / 2) := by omega
    have hj : k - Gops.length / 2 < Gops.length / 2 := by have := hGc.1; omega
    rw [hkk, hGc.2 _ hj, negate_negate]
    exact List.mem_map.mpr ⟨_, getD_mem Gops _ (by omega), rfl⟩

theorem operatorSet_centric_closure (Gops Hops : List symm_op) (hG : OperatorSet Gops)
    (hGc : CanonicalOrder Gops) (hH : OperatorSet Hops) (hsub : ∀ h ∈ mats Hops, h ∈ mats Gops) :
    OperatorSet (centric_closure Hops) := by
  intro x hx
  rcases List.mem_append.mp hx with hx | hx
  · exact hH x hx
  · obtain ⟨h, hh, rfl⟩ := List.mem_map.mp hx
    have hneg := negate_mem_of_canonicalOrder Gops hGc _
      (hsub h.mat (List.mem_map.mpr ⟨h, hh, rfl⟩))
    obtain ⟨g, hg, hge⟩ := List.mem_map.mp hneg
    have hgop := hG g hg
    rw [hge] at hgop
    exact ⟨rfl, by simpa [neg_op] using hgop.1 ▸ hgop.2.1, by simpa [neg_op] using hgop.1 ▸ hgop.2.2⟩

theorem neg_identity_not_mem_of_acentric (Hops : List symm_op) (sH : symm_op) (hsH : sH.bcm = 0)
    (hH : OperatorSet Hops) (hac : is_centric (Hops ++ [sH]) = Acentric) :
    negate_matrix identity_matrix ∉ mats Hops := by
  intro hmem
  obtain ⟨x, hx, hxe⟩ := List.mem_map.mp hmem
  have hcen : is_centric (Hops ++ [sH]) = 1 :=
    (is_centric_append_sentinel sH hsH [] Hops (fun h hh => (hH h hh).2.1)).mpr
      ⟨x, hx, by rw [(hH x hx).1, hxe, encode_negate_identity]⟩
  rw [hac] at hcen
  exact absurd hcen (by decide)

theorem negate_not_mem_of_acentric (Hops : List symm_op) (sH : symm_op) (hsH : sH.bcm = 0)
    (hH : OperatorSet Hops) (hgrp : IsGroup (mats Hops))
    (hac : is_centric (Hops ++ [sH]) = Acentric) (a : Mat3) (ha : a ∈ mats Hops) :
    negate_matrix a ∉ mats Hops := by
  intro hneg
  obtain ⟨b, hb, h1, -⟩ := hgrp.2.2 a ha
  have := hgrp.2.1 _ hneg b hb
  rw [negate_matrix_multiply3x3, h1] at this
  exact neg_identity_not_mem_of_acentric Hops sH hsH hH hac this

theorem nodup_centric_closure (Gops Hops : List symm_op) (sH : symm_op) (hsH : sH.bcm = 0)
    (hG : OperatorSet Gops) (hGc : CanonicalOrder Gops)
    (hH : OperatorSet Hops) (hsub : ∀ h ∈ mats Hops, h ∈ mats Gops)
    (hHd : (Hops.map (fun h => h.bcm)).Nodup) (hgrp : IsGroup (mats Hops))
    (hac : is_centric (Hops ++ [sH]) = Acentric) :
    ((centric_closure Hops).map (fun h => h.bcm)).Nodup := by
  have hop := operatorSet_centric_closure Gops Hops hG hGc hH hsub
  have hmats : (mats (centric_closure Hops)).Nodup := by
    have hm : mats (centric_closure Hops) = mats Hops ++ (mats Hops).map negate_matrix := by
      simp [mats, centric_closure, List.map_map, Function.comp_def, neg_op]
    rw [hm]
    have hnd := nodup_mats Hops hH hHd
    refine List.Nodup.append hnd ?_ ?_
    · refine hnd.map ?_
      intro a b hab
      have := congrArg negate_matrix hab
      rwa [negate_negate, negate_negate] at this
    · intro a ha1 ha2
      obtain ⟨b, hb, rfl⟩ := List.mem_map.mp ha2
      exact negate_not_mem_of_acentric Hops sH hsH hH hgrp hac b hb ha1
  have hb : (centric_closure Hops).map (fun h => h.bcm) =
      (mats (centric_closure Hops)).map encode_matrix := by
    simp only [mats, List.map_map]
    exact List.map_congr_left (fun g hg => (hop g hg).1)
  rw [hb]
  refine hmats.map_on ?_
  intro a ha b hb2 hab
  obtain ⟨x, hx, rfl⟩ := List.mem_map.mp hb2
  exact eq_of_encode_eq a x.mat hab (by rw [← (hop x hx).1]; exact (hop x hx).2.2)

theorem is_centric_centric_closure (Gops Hops : List symm_op) (sH : symm_op) (hsH : sH.bcm = 0)
    (hG : OperatorSet Gops) (hGc : CanonicalOrder Gops)
    (hH : OperatorSet Hops) (hsub : ∀ h ∈ mats Hops, h ∈ mats Gops)
    (hne : Hops ≠ []) (hH0 : (Hops.getD 0 malloc_op).mat = identity_matrix) :
    is_centric (centric_closure Hops ++ [sH]) = Centric := by
  have hop := operatorSet_centric_closure Gops Hops hG hGc hH hsub
  refine (is_centric_append_sentinel sH hsH [] _ (fun h hh => (hop h hh).2.1)).mpr ?_
  cases Hops with
  | nil => exact absurd rfl hne
  | cons h0 Ht =>
    have h0I : h0.mat = identity_matrix := by simpa using hH0
    refine ⟨neg_op h0, ?_, ?_⟩
    · simp [centric_closure]
    · simp only [neg_op, h0I, encode_negate_identity]

theorem coset_decomposition_B_noext_eq (Gops H : List symm_op) (sG : symm_op)
    (hsG : sG.bcm = 0) (hGb : ∀ g ∈ Gops, g.bcm ≠ 0) :
    coset_decomposition_B false (Gops ++ [sG]) H =
      sieve (hits_B ((H.take (B_H_count H)).drop 1)) (Gops.length / 2)
          (Gops.take (Gops.length / 2)) ++
        ((Gops.drop (Gops.length / 2)).map set_false ++ [sG]) := by
  unfold coset_decomposition_B
  simp only [B_G_count, count_ops_append_sentinel sG hsG [] Gops hGb]
  rw [List.take_append_of_le_length (Nat.div_le_self _ _),
    List.drop_append_of_le_length (Nat.div_le_self _ _),
    B_turn_off_eq sG hsG [] _ (fun g hg => hGb g (List.mem_of_mem_drop hg)),
    B_loop_i_eq _ _ _ _ (by simp [Nat.div_le_self])]
  simp

theorem B_generators_acentric (Hops : List symm_op) (sH : symm_op) (hsH : sH.bcm = 0)
    (hHb : ∀ h ∈ Hops, h.bcm ≠ 0) (hac : is_centric (Hops ++ [sH]) = Acentric) :
    ((Hops ++ [sH]).take (B_H_count (Hops ++ [sH]))).drop 1 = Hops.drop 1 ∧
      ((Hops ++ [sH]).take (count_ops (Hops ++ [sH]))).drop 1 = Hops.drop 1 := by
  have hc : count_ops (Hops ++ [sH]) = Hops.length := count_ops_append_sentinel sH hsH [] Hops hHb
  have hB : B_H_count (Hops ++ [sH]) = Hops.length := by
    unfold B_H_count
    rw [hac, if_neg (by decide), hc]
  rw [hB, hc, List.take_left' rfl]
  exact ⟨rfl, rfl⟩

theorem getD_map_set_false (L : List symm_op) (k : Nat) :
    ((L.map set_false).getD k malloc_op).truefalse = false := by
  rw [List.getD_eq_getElem?_getD, List.getElem?_map]
  cases L[k]? <;> rfl

/-- After algorithm B with a centric subgroup in canonical order, exactly the
first element of every left coset is active. -/
theorem B_flags_first_in_class (Gops Hops : List symm_op) (sG sH : symm_op)
    (hsG : sG.bcm = 0) (hsH : sH.bcm = 0)
    (hG : OperatorSet Gops) (hH : OperatorSet Hops)
    (hGd : (Gops.map (fun g => g.bcm)).Nodup)
    (hact : ∀ g ∈ Gops, g.truefalse = true)
    (hGc : CanonicalOrder Gops) (hHc : CanonicalOrder Hops)
    (hgrp : IsGroup (mats Hops)) (hH0 : (Hops.getD 0 malloc_op).mat = identity_matrix)
    (hcen : is_centric (Hops ++ [sH]) = Centric) (ext : Bool) (k : Nat) (hk : k < Gops.length) :
    ((coset_decomposition_B ext (Gops ++ [sG]) (Hops ++ [sH])).getD k malloc_op).truefalse = true ↔
      ¬ ∃ i, i < k ∧ InLeftCoset Hops (Gops.getD i malloc_op).mat (Gops.getD k malloc_op).mat := by
  have hGb : ∀ g ∈ Gops, g.bcm ≠ 0 := fun g hg => (hG g hg).2.1
  have hHb : ∀ h ∈ Hops, h.bcm ≠ 0 := fun h hh => (hH h hh).2.1
  rw [coset_decomposition_B_centric_eq Gops Hops sG sH hsG hsH hGb hHb hcen ext]
  have hlenF : (Gops.take (Gops.length / 2)).length = Gops.length / 2 := by
    rw [List.length_take]; omega
  by_cases hlt : k < Gops.length / 2
  · rw [List.getD_append _ _ _ _ (by rw [sieve_length, hlenF]; exact hlt)]
    exact sieve_first_in_class (hits_B ((Hops.take (Hops.length / 2)).drop 1))
      (Gops.take (Gops.length / 2)) (Gops.length / 2) (by rw [hlenF])
      (fun g hg => hact g (List.mem_of_mem_take hg))
      (fun i k => InLeftCoset Hops (Gops.getD i malloc_op).mat (Gops.getD k malloc_op).mat)
      (by
        intro i k hik hk
        rw [hlenF] at hk
        rw [getD_take_of_lt _ _ _ hk, getD_take_of_lt _ _ _ (Nat.lt_trans hik hk)]
        exact hits_B_iff_inLeftCoset Gops Hops hG hGd hGc hHc hgrp hH0 i k
          (Nat.ne_of_lt hik) (Nat.lt_trans hik hk) hk)
      (fun i j k _ _ _ h1 h2 => inLeftCoset_trans _ hgrp _ _ _ h1 h2)
      k (by rw [hlenF]; exact hlt)
  · have hge : Gops.length / 2 ≤ k := Nat.le_of_not_lt hlt
    have hkm : k - Gops.length / 2 < Gops.length / 2 := by have := hGc.1; omega
    rw [List.getD_append_right _ _ _ _ (by rw [sieve_length, hlenF]; exact hge),
      List.getD_append _ _ _ _ (by
        rw [sieve_length, hlenF, List.length_map, List.length_drop]; omega),
      getD_map_set_false]
    constructor
    · intro h
      exact absurd h (by decide)
    · intro hno
      exfalso
      apply hno
      refine ⟨k - Gops.length / 2, by have := hGc.1; omega, ?_⟩
      have hkk : k = Gops.length / 2 + (k - Gops.length / 2) := by omega
      have hHne : Hops ≠ [] := by
        intro h
        rw [h] at hgrp
        exact absurd hgrp.1 (by simp [mats])
      have hmH : 0 < Hops.length / 2 := by
        have h1 : 0 < Hops.length := List.length_pos.mpr hHne
        have := hHc.1; omega
      have hinv := hHc.2 0 hmH
      rw [hH0, Nat.add_zero] at hinv
      refine ⟨_, List.mem_map.mpr ⟨_, getD_mem Hops (Hops.length / 2)
        (by have := hHc.1; omega), rfl⟩, ?_⟩
      rw [hinv, matrix_multiply3x3_negate_identity]
      conv_rhs => rw [hkk]
      rw [hGc.2 _ hkm, negate_negate]

theorem coset_decomposition_B_acentric_closure (Gops Hops : List symm_op) (sG sH : symm_op)
    (hsG : sG.bcm = 0) (hsH : sH.bcm = 0) (hG : OperatorSet Gops) (hGc : CanonicalOrder Gops)
    (hH : OperatorSet Hops) (hsub : ∀ h ∈ mats Hops, h ∈ mats Gops)
    (hne : Hops ≠ []) (hH0 : (Hops.getD 0 malloc_op).mat = identity_matrix)
    (hac : is_centric (Hops ++ [sH]) = Acentric) :
    coset_decomposition_B false (Gops ++ [sG]) (Hops ++ [sH]) =
        coset_decomposition_B false (Gops ++ [sG]) (centric_closure Hops ++ [sH]) ∧
      coset_decomposition_B false (Gops ++ [sG]) (Hops ++ [sH]) =
        sieve (hits_B (Hops.drop 1)) (Gops.length / 2) (Gops.take (Gops.length / 2)) ++
          ((Gops.drop (Gops.length / 2)).map set_false ++ [sG]) ∧
      (coset_decomposition_B true (Gops ++ [sG]) (Hops ++ [sH])).take (Gops.length / 2) =
        sieve (hits_B (Hops.drop 1)) (Gops.length / 2) (Gops.take (Gops.length / 2)) := by
  have hGb : ∀ g ∈ Gops, g.bcm ≠ 0 := fun g hg => (hG g hg).2.1
  have hHb : ∀ h ∈ Hops, h.bcm ≠ 0 := fun h hh => (hH h hh).2.1
  have hop := operatorSet_centric_closure Gops Hops hG hGc hH hsub
  have hcen := is_centric_centric_closure Gops Hops sH hsH hG hGc hH hsub hne hH0
  have hgen := B_generators_acentric Hops sH hsH hHb hac
  have hform : coset_decomposition_B false (Gops ++ [sG]) (Hops ++ [sH]) =
      sieve (hits_B (Hops.drop 1)) (Gops.length / 2) (Gops.take (Gops.length / 2)) ++
        ((Gops.drop (Gops.length / 2)).map set_false ++ [sG]) := by
    rw [coset_decomposition_B_noext_eq Gops _ sG hsG hGb, hgen.1]
  have hlenF : (sieve (hits_B (Hops.drop 1)) (Gops.length / 2)
      (Gops.take (Gops.length / 2))).length = Gops.length / 2 := by
    rw [sieve_length, List.length_take]
    exact Nat.min_eq_left (Nat.div_le_self _ _)
  refine ⟨?_, hform, ?_⟩
  · rw [hform, coset_decomposition_B_centric_eq Gops (centric_closure Hops) sG sH hsG hsH hGb
      (fun h hh => (hop h hh).2.1) hcen false, take_centric_closure]
  · rw [coset_decomposition_B_acentric_eq Gops _ sG hsG hGb hac, hgen.2]
    exact List.take_left' hlenF

theorem filter_map_set_false (X : List symm_op) :
    (X.map set_false).filter (fun g => g.truefalse) = [] := by
  rw [List.filter_eq_nil_iff]
  intro a ha
  obtain ⟨x, _, rfl⟩ := List.mem_map.mp ha
  simp [set_false]

theorem getD_mat_of_map_set_false (L1 L2 : List symm_op)
    (h : L1.map set_false = L2.map set_false) (k : Nat) :
    (L1.getD k malloc_op).mat = (L2.getD k malloc_op).mat := by
  have hk := congrArg (fun X => X.getD k (set_false malloc_op)) h
  simp only [List.getD_map] at hk
  have := congrArg (fun x : symm_op => x.mat) hk
  simpa [set_false] using this

/-- Algorithm B on an acentric subgroup `H` of a centric group `G` in canonical
order.  Without the extended step the active elements are the first elements of
the cosets of `H ∪ -H`, all in the first half; the extended step adds their
negations, which gives one active element in every left coset of `H`. -/
theorem B_acentric (Gops Hops : List symm_op) (sG sH : symm_op)
    (hsG : sG.bcm = 0) (hsH : sH.bcm = 0)
    (hG : OperatorSet Gops) (hH : OperatorSet Hops)
    (hGd : (Gops.map (fun g => g.bcm)).Nodup) (hHd : (Hops.map (fun h => h.bcm)).Nodup)
    (hact : ∀ g ∈ Gops, g.truefalse = true) (hGc : CanonicalOrder Gops)
    (hsub : IsSubgroupOf Hops Gops)
    (hH0 : (Hops.getD 0 malloc_op).mat = identity_matrix)
    (hac : is_centric (Hops ++ [sH]) = Acentric) :
    count_active (coset_decomposition_B false (Gops ++ [sG]) (Hops ++ [sH])) *
        (2 * Hops.length) = Gops.length ∧
    (∀ k, Gops.length / 2 ≤ k → k < Gops.length →
      ((coset_decomposition_B false (Gops ++ [sG]) (Hops ++ [sH])).getD k malloc_op).truefalse
        = false) ∧
    count_active (coset_decomposition_B true (Gops ++ [sG]) (Hops ++ [sH])) * Hops.length =
      Gops.length ∧
    (∀ g ∈ Gops, ∃! k, k < Gops.length ∧
      ((coset_decomposition_B true (Gops ++ [sG]) (Hops ++ [sH])).getD k malloc_op).truefalse
        = true ∧
      InLeftCoset Hops (Gops.getD k malloc_op).mat g.mat) := by
  have hGb : ∀ g ∈ Gops, g.bcm ≠ 0 := fun g hg => (hG g hg).2.1
  have hne : Hops ≠ [] := by
    intro h
    have := hsub.2.1.1
    rw [h] at this
    exact absurd this (by simp [mats])
  obtain ⟨hcl, hform, htake⟩ := coset_decomposition_B_acentric_closure Gops Hops sG sH hsG hsH
    hG hGc hH hsub.2.2 hne hH0 hac
  have hop := operatorSet_centric_closure Gops Hops hG hGc hH hsub.2.2
  have hd := nodup_centric_closure Gops Hops sH hsH hG hGc hH hsub.2.2 hHd hsub.2.1 hac
  have hgrp := isGroup_centric_closure Hops hsub.2.1
  have hc := canonicalOrder_centric_closure Hops
  have hcen := is_centric_centric_closure Gops Hops sH hsH hG hGc hH hsub.2.2 hne hH0
  have hH0c : ((centric_closure Hops).getD 0 malloc_op).mat = identity_matrix := by
    unfold centric_closure
    rw [List.getD_append _ _ _ _ (List.length_pos.mpr hne)]
    exact hH0
  have hsubc : IsSubgroupOf (centric_closure Hops) Gops := by
    refine ⟨hsub.1, hgrp, fun h hh => ?_⟩
    rcases (mem_mats_centric_closure _ _).mp hh with h1 | h1
    · exact hsub.2.2 h h1
    · have := negate_mem_of_canonicalOrder Gops hGc _ (hsub.2.2 _ h1)
      rwa [negate_negate] at this
  have hflags0 : ∀ k, k < Gops.length →
      (((coset_decomposition_B false (Gops ++ [sG]) (Hops ++ [sH])).getD k malloc_op).truefalse
        = true ↔ ¬ ∃ i, i < k ∧ InLeftCoset (centric_closure Hops)
          (Gops.getD i malloc_op).mat (Gops.getD k malloc_op).mat) := by
    intro k hk
    rw [hcl]
    exact B_flags_first_in_class Gops (centric_closure Hops) sG sH hsG hsH hG hop hGd hact hGc hc
      hgrp hH0c hcen false k hk
  have hlenT : (Gops.take (Gops.length / 2)).length = Gops.length / 2 := by
    rw [List.length_take]; omega
  have hlenF : (sieve (hits_B (Hops.drop 1)) (Gops.length / 2)
      (Gops.take (Gops.length / 2))).length = Gops.length / 2 := by
    rw [sieve_length, hlenT]
  have hsecond : ∀ k, Gops.length / 2 ≤ k → k < Gops.length →
      ((coset_decomposition_B false (Gops ++ [sG]) (Hops ++ [sH])).getD k malloc_op).truefalse
        = false := by
    intro k hge hk
    rw [hform, List.getD_append_right _ _ _ _ (by rw [hlenF]; exact hge),
      List.getD_append _ _ _ _ (by rw [hlenF, List.length_map, List.length_drop]; omega),
      getD_map_set_false]
  obtain ⟨L, hL, hLf⟩ := coset_decomposition_B_frame Gops (Hops ++ [sH]) sG hsG hGb false
  have hLb := bcm_ne_zero_of_map_set_false _ _ hLf hGb
  have hLlen : L.length = Gops.length := by
    have := congrArg List.length hLf
    simpa using this
  have hLeq : L = sieve (hits_B (Hops.drop 1)) (Gops.length / 2) (Gops.take (Gops.length / 2)) ++
      (Gops.drop (Gops.length / 2)).map set_false := by
    have h1 := hL.symm.trans hform
    rw [← List.append_assoc] at h1
    exact List.append_cancel_right h1
  have hcount0 : count_active (coset_decomposition_B false (Gops ++ [sG]) (Hops ++ [sH])) =
      (L.filter (fun g => g.truefalse)).length := by
    rw [hL, count_active_append_sentinel sG hsG [] L hLb]
  have hcard := card_representatives_mul (centric_closure Hops) Gops L hG hop hGd hd hsubc hLlen
    (getD_mat_of_map_set_false L Gops hLf)
    (fun k hk => by
      have := hflags0 k hk
      rwa [hL, getD_append_sentinel L sG k (by rw [hLlen]; exact hk)] at this)
  rw [length_centric_closure] at hcard
  obtain ⟨hpair, hcount1⟩ := extended_B_pairs Gops (Hops ++ [sH]) sG hsG hG hGd hGc hac
  have hfilter : (L.filter (fun g => g.truefalse)).length =
      ((sieve (hits_B (Hops.drop 1)) (Gops.length / 2)
        (Gops.take (Gops.length / 2))).filter (fun g => g.truefalse)).length := by
    rw [hLeq, List.filter_append, filter_map_set_false, List.append_nil]
  refine ⟨by rw [hcount0]; exact hcard.symm, hsecond, ?_, ?_⟩
  · rw [hcount1, htake, ← hfilter]
    rw [hcard]
    ring
  · intro g hg
    have hgm : g.mat ∈ mats Gops := List.mem_map.mpr ⟨g, hg, rfl⟩
    have hmG : Gops.length / 2 + Gops.length / 2 = Gops.length := by have := hGc.1; omega
    have hf1 : ∀ k, k < Gops.length / 2 →
        ((coset_decomposition_B true (Gops ++ [sG]) (Hops ++ [sH])).getD k malloc_op).truefalse =
        ((coset_decomposition_B false (Gops ++ [sG]) (Hops ++ [sH])).getD k malloc_op).truefalse := by
      intro k hk
      rw [← getD_take_of_lt _ (Gops.length / 2) k hk, htake, hform,
        List.getD_append _ _ _ _ (by rw [hlenF]; exact hk)]
    obtain ⟨k0, ⟨hk0n, hk0f, h1, hh1, he⟩, huniq⟩ :=
      unique_active_of_first_in_class (centric_closure Hops) Gops hgrp
        (fun k => ((coset_decomposition_B false (Gops ++ [sG]) (Hops ++ [sH])).getD k
          malloc_op).truefalse = true) hflags0 g.mat hgm
    have hk0m : k0 < Gops.length / 2 := by
      by_contra hcon
      have := hsecond k0 (Nat.le_of_not_lt hcon) hk0n
      rw [this] at hk0f
      exact absurd hk0f (by decide)
    -- an active element in the coset of `g` sits at `k0` or at its partner
    have hcases : ∀ k, k < Gops.length →
        ((coset_decomposition_B true (Gops ++ [sG]) (Hops ++ [sH])).getD k malloc_op).truefalse
          = true →
        ∀ h ∈ mats Hops, (Gops.getD k malloc_op).mat = matrix_multiply3x3 g.mat h →
        (k = k0 ∧ h1 = h) ∨ (k = Gops.length / 2 + k0 ∧ h1 = negate_matrix h) := by
      intro k hkn hkf h hh hke
      by_cases hkm : k < Gops.length / 2
      · left
        have hk := huniq k ⟨hkn, by rw [← hf1 k hkm]; exact hkf,
          ⟨h, (mem_mats_centric_closure _ _).mpr (Or.inl hh), hke⟩⟩
        refine ⟨hk, ?_⟩
        rw [hk] at hke
        exact mul_left_cancel_of_group (mats Gops) hsub.1 g.mat hgm _ _ (he.symm.trans hke)
      · right
        have hj : k - Gops.length / 2 < Gops.length / 2 := by omega
        have hkk : k = Gops.length / 2 + (k - Gops.length / 2) := by omega
        have hjf : ((coset_decomposition_B false (Gops ++ [sG]) (Hops ++ [sH])).getD
            (k - Gops.length / 2) malloc_op).truefalse = true := by
          rw [← hf1 _ hj, ← hpair _ hj, ← hkk]
          exact hkf
        have hjm : (Gops.getD (k - Gops.length / 2) malloc_op).mat =
            matrix_multiply3x3 g.mat (negate_matrix h) := by
          have h2 := hGc.2 _ hj
          rw [← hkk, hke] at h2
          rw [matrix_multiply3x3_negate, h2, negate_negate]
        have hk := huniq (k - Gops.length / 2) ⟨by omega, hjf,
          ⟨negate_matrix h, (mem_mats_centric_closure _ _).mpr
            (Or.inr (by rw [negate_negate]; exact hh)), hjm⟩⟩
        refine ⟨by omega, ?_⟩
        rw [hk] at hjm
        exact mul_left_cancel_of_group (mats Gops) hsub.1 g.mat hgm _ _ (he.symm.trans hjm)
    rcases (mem_mats_centric_closure _ _).mp hh1 with hin | hneg
    · refine ⟨k0, ⟨hk0n, by rw [hf1 k0 hk0m]; exact hk0f, h1, hin, he⟩, ?_⟩
      rintro k ⟨hkn, hkf, h, hh, hke⟩
      rcases hcases k hkn hkf h hh hke with ⟨hk, -⟩ | ⟨-, hh1e⟩
      · exact hk
      · exfalso
        apply negate_not_mem_of_acentric Hops sH hsH hH hsub.2.1 hac h1 hin
        rw [hh1e, negate_negate]
        exact hh
    · have hpm : (Gops.getD (Gops.length / 2 + k0) malloc_op).mat =
          matrix_multiply3x3 g.mat (negate_matrix h1) := by
        rw [hGc.2 _ hk0m, he, matrix_multiply3x3_negate]
      refine ⟨Gops.length / 2 + k0, ⟨by omega, ?_, negate_matrix h1, hneg, hpm⟩, ?_⟩
      · rw [hpair _ hk0m, hf1 k0 hk0m]
        exact hk0f
      · rintro k ⟨hkn, hkf, h, hh, hke⟩
        rcases hcases k hkn hkf h hh hke with ⟨-, hh1e⟩ | ⟨hk, -⟩
        · exfalso
          apply negate_not_mem_of_acentric Hops sH hsH hH hsub.2.1 hac h hh
          rw [← hh1e]
          exact hneg
        · exact hk

/-- Algorithm A leaves `|G| / |H|` elements active. -/
theorem count_active_algorithm_A (Gops Hops : List symm_op) (sG sH : symm_op)
    (hsG : sG.bcm = 0) (hsH : sH.bcm = 0)
    (hG : OperatorSet Gops) (hH : OperatorSet Hops)
    (hGd : (Gops.map (fun g => g.bcm)).Nodup) (hHd : (Hops.map (fun h => h.bcm)).Nodup)
    (hact : ∀ g ∈ Gops, g.truefalse = true) (hsub : IsSubgroupOf Hops Gops)
    (hH0 : (Hops.getD 0 malloc_op).mat = identity_matrix) :
    count_active (coset_decomposition_A (Gops ++ [sG]) (Hops ++ [sH])) =
      Gops.length / Hops.length := by
  obtain ⟨L, hL, hLf⟩ := coset_decomposition_A_frame Gops (Hops ++ [sH]) sG hsG
    (fun g hg => (hG g hg).2.1)
  have hLb := bcm_ne_zero_of_map_set_false _ _ hLf (fun g hg => (hG g hg).2.1)
  have hLlen : L.length = Gops.length := by
    have := congrArg List.length hLf
    simpa using this
  cases Hops with
  | nil => exact absurd hsub.2.1.1 (by simp [mats])
  | cons h0 Htail =>
    have hH0c : h0.mat = identity_matrix := by simpa using hH0
    rw [hL, count_active_append_sentinel sG hsG [] L hLb]
    refine card_representatives (h0 :: Htail) Gops L hG hH hGd hHd hsub hLlen
      (getD_mat_of_map_set_false L Gops hLf) ?_
    intro k hk
    have := algorithm_A_flags Gops h0 Htail sG sH hsG hsH hG hH hGd hact hsub.2.1 hH0c k hk
    rwa [hL, getD_append_sentinel L sG k (by rw [hLlen]; exact hk)] at this

/-- Claim C28. Extended algorithm B is a complete coset decomposition for
acentric subgroups: for every catalog supergroup G (all flags active) and every
acentric subgroup H of G (operators pairwise distinct, H[0] the identity), after
coset_decomposition_B with the extended completion step every left coset of H
in G holds exactly one active element, and the active elements number |G|/|H|,
as after algorithm A; without the extended step exactly |G|/(2|H|) elements are
active, all of them in the first half of G. -/
theorem extended_B_complete_on_acentric (pg : Int) (hpg : pg ∈ supported_point_groups)
    (Hops : List symm_op) (sH : symm_op) (hsH : sH.bcm = 0) (hH : OperatorSet Hops)
    (hHd : (Hops.map (fun h => h.bcm)).Nodup)
    (hsub : IsSubgroupOf Hops (catalog_ops pg))
    (hH0 : (Hops.getD 0 malloc_op).mat = identity_matrix)
    (hac : is_centric (Hops ++ [sH]) = Acentric) :
    (select_symm_ops pg).1 = some (catalog_ops pg ++ [sentinel]) ∧
    (∀ g ∈ catalog_ops pg, g.truefalse = true) ∧
    (∀ g ∈ catalog_ops pg, ∃! k, k < (catalog_ops pg).length ∧
      ((coset_decomposition_B true (catalog_ops pg ++ [sentinel]) (Hops ++ [sH])).getD k
        malloc_op).truefalse = true ∧
      InLeftCoset Hops ((catalog_ops pg).getD k malloc_op).mat g.mat) ∧
    count_active (coset_decomposition_B true (catalog_ops pg ++ [sentinel]) (Hops ++ [sH])) =
      (catalog_ops pg).length / Hops.length ∧
    count_active (coset_decomposition_B true (catalog_ops pg ++ [sentinel]) (Hops ++ [sH])) =
      count_active (coset_decomposition_A (catalog_ops pg ++ [sentinel]) (Hops ++ [sH])) ∧
    count_active (coset_decomposition_B false (catalog_ops pg ++ [sentinel]) (Hops ++ [sH])) =
      (catalog_ops pg).length / (2 * Hops.length) ∧
    (∀ k, (catalog_ops pg).length / 2 ≤ k → k < (catalog_ops pg).length →
      ((coset_decomposition_B false (catalog_ops pg ++ [sentinel]) (Hops ++ [sH])).getD k
        malloc_op).truefalse = false) := by
  obtain ⟨hsel, hG, hGd, hact, hGc⟩ := catalog_facts pg hpg
  obtain ⟨h0, hhalf, h1, huniq⟩ := B_acentric (catalog_ops pg) Hops sentinel sH rfl hsH hG hH hGd
    hHd hact hGc hsub hH0 hac
  have hpos : 0 < Hops.length := by
    have : identity_matrix ∈ mats Hops := hsub.2.1.1
    exact List.length_pos_of_mem (List.mem_map.mp this).choose_spec.1
  have hc1 : count_active (coset_decomposition_B true (catalog_ops pg ++ [sentinel])
      (Hops ++ [sH])) = (catalog_ops pg).length / Hops.length :=
    (Nat.div_eq_of_eq_mul_left hpos h1.symm).symm
  refine ⟨hsel, hact, huniq, hc1, ?_, ?_, hhalf⟩
  · rw [hc1, count_active_algorithm_A (catalog_ops pg) Hops sentinel sH rfl hsH hG hH hGd hHd hact
      hsub hH0]
  · exact (Nat.div_eq_of_eq_mul_left (by omega) h0.symm).symm

theorem extended_B_complete_on_acentric_witness :
    (222 : Int) ∈ supported_point_groups ∧ sentinel.bcm = 0 ∧
    OperatorSet ((catalog_ops 2).take 2) ∧
    (((catalog_ops 2).take 2).map (fun h => h.bcm)).Nodup ∧
    IsSubgroupOf ((catalog_ops 2).take 2) (catalog_ops 222) ∧
    (((catalog_ops 2).take 2).getD 0 malloc_op).mat = identity_matrix ∧
    is_centric ((catalog_ops 2).take 2 ++ [sentinel]) = Acentric ∧
    count_active (coset_decomposition_B true (catalog_ops 222 ++ [sentinel])
      ((catalog_ops 2).take 2 ++ [sentinel])) = (catalog_ops 222).length / ((catalog_ops 2).take 2).length ∧
    count_active (coset_decomposition_B false (catalog_ops 222 ++ [sentinel])
      ((catalog_ops 2).take 2 ++ [sentinel])) =
        (catalog_ops 222).length / (2 * ((catalog_ops 2).take 2).length) :=
  ⟨by decide, by decide!, by decide!, by decide!, by decide!, by decide!, by decide!,
    (extended_B_complete_on_acentric 222 (by decide) ((catalog_ops 2).take 2) sentinel (by decide!)
      (by decide!) (by decide!) (by decide!) (by decide!) (by decide!)).2.2.2.1,
    (extended_B_complete_on_acentric 222 (by decide) ((catalog_ops 2).take 2) sentinel (by decide!)
      (by decide!) (by decide!) (by decide!) (by decide!) (by decide!)).2.2.2.2.2.1⟩

end Coset
